import Mathlib

/-!
# Nested Sets tree engine (django-treebeard `ns_tree.py`): shallow embedding

This file embeds the Nested Sets tree engine of `treebeard/ns_tree.py` in Lean.
A database table of node rows is a `List Row`; every SQL `UPDATE` emitted by the
encoding primitives is translated as a row-wise `List.map` whose guard is the
statement's `WHERE` clause and whose field updates mirror the `CASE` arms.
Querysets (ordered by the model's `Meta.ordering = ['tree_id', 'lft']`) are
sorted filtered lists.  In-memory node objects are `Row` values (snapshots);
`node1 == node2` in Django compares primary keys, and is translated as equality
of the `id` fields.  Python exceptions (`DoesNotExist`, `IndexError`,
attribute errors on `None`) are modelled by `Option`/`Except` failures.

Definitions carrying a doc comment starting with `Modelled from the spec:`
embed members of the missing base class `treebeard.models.Node` (only
`ns_tree.py` is available); they follow the specification's wording.
-/

/-- A node row of the nested-sets table: primary key, encoding columns
(`tree_id`, `lft`, `rgt`, `depth`, declared as positive integer columns) and
the user payload, an opaque mapping of column name to value. -/
structure Row where
  id : Int
  tree_id : Int
  lft : Int
  rgt : Int
  depth : Int
  payload : List (String × Int)
deriving DecidableEq, Repr

/-- The table: a list of rows (unordered; querysets sort it). -/
abbrev Db := List Row

/-- The closed set of position tokens accepted by the mutation surface. -/
inductive Pos where
  | firstChild
  | lastChild
  | sortedChild
  | firstSibling
  | lastSibling
  | left
  | right
  | sortedSibling
deriving DecidableEq, Repr

/-- Errors of `move`: the named structural failure, the contract failure on an
invalid position token, and storage-level exceptions (`DoesNotExist`,
`IndexError`, operations on a missing parent). -/
inductive MoveErr where
  | invalidMoveToDescendant
  | invalidPos
  | dbError
deriving DecidableEq, Repr

deriving instance DecidableEq for Except

/-- Queryset order `(tree_id, lft)` — the model's mandatory `Meta.ordering`. -/
def dfsLe (a b : Row) : Prop :=
  a.tree_id < b.tree_id ∨ (a.tree_id = b.tree_id ∧ a.lft ≤ b.lft)

instance : DecidableRel dfsLe := fun a b => by unfold dfsLe; infer_instance

instance : IsTotal Row dfsLe := by
  constructor
  intro a b
  unfold dfsLe
  omega

instance : IsTrans Row dfsLe := by
  constructor
  intro a b c hab hbc
  unfold dfsLe at *
  omega

/-- A queryset result: the rows sorted in `(tree_id, lft)` order. -/
def dfsSort (s : Db) : Db :=
  List.insertionSort dfsLe s

/-- `objects.get(pk=...)`: the first row whose primary key matches. -/
def findById (s : Db) (i : Int) : Option Row :=
  s.find? (fun r => r.id == i)

/-- Field lookup in a payload / kwargs mapping. -/
def lookupField : List (String × Int) → String → Option Int
  | [], _ => none
  | (k1, v) :: t, k => if k1 = k then some v else lookupField t k

/-- `del d[k]`: remove a key from a mapping (identity when absent). -/
def delField (k : String) (l : List (String × Int)) : List (String × Int) :=
  l.filter (fun p => p.1 ≠ k)

/-- `d[k] = v`: overwrite a key in place, or append it. -/
def setField : List (String × Int) → String → Int → List (String × Int)
  | [], k, v => [(k, v)]
  | (k1, v1) :: t, k, v => if k1 = k then (k, v) :: t else (k1, v1) :: setField t k v

/-! ## Read surface (`NS_Node` query methods) -/

/-- `NS_Node.is_leaf`: `self.rgt - self.lft == 1`. -/
def isLeaf (r : Row) : Bool :=
  decide (r.rgt - r.lft = 1)

/-- Modelled from the spec: `is_root` of the missing base class; a root node is
one with `lft = 1` (§4.8 `get_root_nodes = {r : r.lft = 1}`; the source's
`get_root` and `get_siblings` likewise test `self.lft == 1`). -/
def isRoot (r : Row) : Bool :=
  decide (r.lft = 1)

/-- `NS_Node.is_descendant_of`: same tree and strict interval containment. -/
def isDescendantOf (a b : Row) : Bool :=
  decide (a.tree_id = b.tree_id ∧ b.lft < a.lft ∧ a.rgt < b.rgt)

/-- `NS_Node.get_root_nodes`: `objects.filter(lft=1)`. -/
def getRootNodes (s : Db) : Db :=
  dfsSort (s.filter (fun r => isRoot r))

/-- `NS_Node.get_tree(parent)`: the full forest when `parent` is absent, the
single row for a leaf parent, else the rows with
`tree_id = parent.tree_id ∧ parent.lft ≤ lft ≤ parent.rgt - 1`. -/
def getTree (s : Db) (parent : Option Row) : Db :=
  match parent with
  | none => dfsSort s
  | some p =>
    if isLeaf p then dfsSort (s.filter (fun r => r.id == p.id))
    else dfsSort (s.filter (fun r =>
      decide (r.tree_id = p.tree_id ∧ p.lft ≤ r.lft ∧ r.lft ≤ p.rgt - 1)))

/-- `NS_Node.get_descendants`: empty for a leaf, else `get_tree(self)` minus
`self`. -/
def getDescendants (s : Db) (r : Row) : Db :=
  if isLeaf r then []
  else (getTree s (some r)).filter (fun x => x.id ≠ r.id)

/-- `NS_Node.get_children`: descendants at depth `self.depth + 1`. -/
def getChildren (s : Db) (r : Row) : Db :=
  (getDescendants s r).filter (fun x => x.depth == r.depth + 1)

/-- `NS_Node.get_ancestors`: same tree, `lft` strictly below, `rgt` strictly
above; empty for a root. -/
def getAncestors (s : Db) (r : Row) : Db :=
  if isRoot r then []
  else dfsSort (s.filter (fun a =>
    decide (a.tree_id = r.tree_id ∧ a.lft < r.lft ∧ a.rgt > r.rgt)))

/-- `NS_Node.get_parent`: `None` for a root, else the most direct ancestor
(`get_ancestors().reverse()[0]`, i.e. the last in `(tree_id, lft)` order).
The in-memory parent cache of the source is not modelled: handles are value
snapshots and every method call re-reads the table, which coincides with the
cache being coherent. -/
def getParent (s : Db) (r : Row) : Option Row :=
  if isRoot r then none else (getAncestors s r).getLast?

/-- `NS_Node.get_siblings`: the root nodes when `self.lft == 1`, else the
parent's children.  A missing parent (inconsistent handle) yields the empty
queryset, which the callers turn into the same `IndexError`-style failures as
the source. -/
def getSiblings (s : Db) (r : Row) : Db :=
  if r.lft = 1 then getRootNodes s
  else match getParent s r with
    | none => []
    | some p => getChildren s p

/-- Modelled from the spec: `get_last_root_node` of the missing base class —
the last root in `(tree_id, lft)` order, whose `tree_id` is the greatest
(§4.3: a new root is created at `max(tree_id) + 1`). -/
def getLastRootNode (s : Db) : Option Row :=
  (getRootNodes s).getLast?

/-- Modelled from the spec: `get_last_child` of the missing base class — the
last child in queryset order (§4.2: child positions repoint the pivot to
`target.get_last_child()`). -/
def getLastChild (s : Db) (r : Row) : Option Row :=
  (getChildren s r).getLast?

/-- Modelled from the spec: `get_first_sibling` of the missing base class —
the first element of `get_siblings` (§4.2 normalization). -/
def getFirstSibling (s : Db) (r : Row) : Option Row :=
  (getSiblings s r).head?

/-- Modelled from the spec: `get_last_sibling` of the missing base class —
the last element of `get_siblings` (§4.2 normalization). -/
def getLastSibling (s : Db) (r : Row) : Option Row :=
  (getSiblings s r).getLast?

/-! ## Encoding primitives (the emitted SQL `UPDATE` statements) -/

/-- `NS_Node._move_right(tree_id, rgt, lftmove, incdec)`: the statement
`UPDATE ... SET lft = CASE WHEN lft >(=) pivot THEN lft + incdec ELSE lft END,
rgt = CASE WHEN rgt >= pivot THEN rgt + incdec ELSE rgt END
WHERE rgt >= pivot AND tree_id = tid`. -/
def moveRightSql (tid pivot : Int) (lftmove : Bool) (incdec : Int) (s : Db) : Db :=
  s.map (fun r =>
    if r.rgt ≥ pivot ∧ r.tree_id = tid then
      { r with
        lft := if (if lftmove then r.lft ≥ pivot else r.lft > pivot) then r.lft + incdec else r.lft,
        rgt := if r.rgt ≥ pivot then r.rgt + incdec else r.rgt }
    else r)

/-- `NS_Node._move_tree_right(tree_id)`: the statement
`UPDATE ... SET tree_id = tree_id + 1 WHERE tree_id >= tid`. -/
def moveTreeRightSql (tid : Int) (s : Db) : Db :=
  s.map (fun r => if r.tree_id ≥ tid then { r with tree_id := r.tree_id + 1 } else r)

/-- `NS_Node._get_close_gap_sql(drop_lft, drop_rgt, tree_id)`: the statement
`UPDATE ... SET lft = CASE WHEN lft > drop_lft THEN lft - gapsize ELSE lft END,
rgt = CASE WHEN rgt > drop_lft THEN rgt - gapsize ELSE rgt END
WHERE (lft > drop_lft OR rgt > drop_lft) AND tree_id = tid`,
with `gapsize = drop_rgt - drop_lft + 1`. -/
def closeGapSql (dropLft dropRgt tid : Int) (s : Db) : Db :=
  s.map (fun r =>
    if (r.lft > dropLft ∨ r.rgt > dropLft) ∧ r.tree_id = tid then
      { r with
        lft := if r.lft > dropLft then r.lft - (dropRgt - dropLft + 1) else r.lft,
        rgt := if r.rgt > dropLft then r.rgt - (dropRgt - dropLft + 1) else r.rgt }
    else r)

/-! ## Node creation -/

/-- The next storage-assigned primary key: one more than the largest in use. -/
def freshId (s : Db) : Int :=
  (s.foldr (fun r m => max r.id m) 0) + 1

/-- Modelled from the spec: constructing and saving `cls(**kwargs)`.  The
storage assigns the primary key (§3), but an explicit `id` attribute in the
creation kwargs is preserved verbatim (§4.9: with `keep_ids`, "the caller's
ids are preserved verbatim", which `load_bulk` achieves precisely by putting
`id` into the kwargs).  The serializer of §6 reports a `fields` mapping of
column → value, so the kwargs are carried as the row's payload. -/
def mkRow (s : Db) (kwargs : List (String × Int)) (tid lf rg dep : Int) : Row :=
  { id := (lookupField kwargs "id").getD (freshId s)
    tree_id := tid
    lft := lf
    rgt := rg
    depth := dep
    payload := kwargs }

/-! ## Position-token validation (missing base-class `_fix_*_opts`) -/

/-- Modelled from the spec: `_fix_move_opts` of the missing base class —
position tokens come from the closed set of §4.2 and invalid ones are rejected
synchronously before any mutation (§7).  The embedded model has no configured
sort key (`node_order_by = []` in the source), so the `sorted-*` tokens are
rejected as contract errors. -/
def fixMoveOpts (pos : Pos) : Option Pos :=
  match pos with
  | .sortedChild => none
  | .sortedSibling => none
  | p => some p

/-- Modelled from the spec: `_fix_add_sibling_opts` of the missing base class —
`add_sibling` accepts the sibling-form tokens of §4.2; with no configured sort
key the `sorted-sibling` token is a contract error. -/
def fixAddSiblingOpts (pos : Pos) : Option Pos :=
  match pos with
  | .firstSibling => some .firstSibling
  | .lastSibling => some .lastSibling
  | .left => some .left
  | .right => some .right
  | _ => none

/-! ## Sibling-position normalization

The block guarded by `if pos in ('left', 'right', 'first-sibling')`, which is
textually identical in `add_sibling` (lines 341-360) and `move`
(lines 433-452), is embedded once.  Other positions pass through unchanged. -/

/-- The `for node in siblings: ...` loop of the `right` branch: the element
following the first occurrence of `tid`; if there is none the loop leaves
`target` unchanged. -/
def nextAfter : List Row → Int → Option Row
  | [], _ => none
  | [_], _ => none
  | x :: y :: t, tid => if x.id = tid then some y else nextAfter (y :: t) tid

/-- The sibling-form normalization state machine: `right` against the last
sibling becomes `last-sibling`, otherwise `left` against the next sibling;
`left` against the first sibling becomes `first-sibling`; `first-sibling`
repoints the pivot to the first sibling.  `none` models the `IndexError` the
source raises on an empty sibling list. -/
def sibNorm (s : Db) (target0 : Row) (pos0 : Pos) : Option (Row × Pos) :=
  if pos0 = .left ∨ pos0 = .right ∨ pos0 = .firstSibling then
    let siblings := getSiblings s target0
    let rstep : Option (Row × Pos) :=
      if pos0 = .right then
        match siblings.getLast? with
        | none => none
        | some lastS =>
          if target0.id = lastS.id then some (target0, .lastSibling)
          else some ((nextAfter siblings target0.id).getD target0, .left)
      else some (target0, pos0)
    match rstep with
    | none => none
    | some (t1, p1) =>
      let lstep : Option (Row × Pos) :=
        if p1 = .left then
          match siblings.head? with
          | none => none
          | some h0 => if t1.id = h0.id then some (t1, .firstSibling) else some (t1, .left)
        else some (t1, p1)
      match lstep with
      | none => none
      | some (t2, p2) =>
        if p2 = .firstSibling then
          match siblings.head? with
          | none => none
          | some h0 => some (h0, .firstSibling)
        else some (t2, p2)
  else some (target0, pos0)

/-! ## Mutation surface -/

/-- `NS_Node.add_root(**kwargs)`: with no sort key configured the sorted
delegation is skipped; a new single-node tree is created at
`(tree_id = last_root.tree_id + 1 | 1, lft = 1, rgt = 2, depth = 1)`. -/
def add_root (s : Db) (kwargs : List (String × Int)) : Db × Row :=
  let newtree : Int :=
    match getLastRootNode s with
    | some lr => lr.tree_id + 1
    | none => 1
  let newobj := mkRow s kwargs newtree 1 2 1
  (s ++ [newobj], newobj)

/-- `NS_Node.add_sibling(pos, **kwargs)`.  The receiver `self` is the pivot;
`newobj.depth = self.depth` and, in the non-root case,
`newobj.tree_id = self.tree_id` are fixed before normalization, exactly as in
the source.  `none` models the source's uncaught exceptions (empty sibling
list, missing parent, missing last root, position tokens that leave `newpos`
unbound). -/
def add_sibling (s : Db) (self : Row) (pos0 : Pos) (kwargs : List (String × Int)) :
    Option (Db × Row) :=
  match fixAddSiblingOpts pos0 with
  | none => none
  | some pos =>
    if isRoot self then
      let lastRoot := getLastRootNode s
      if pos = .lastSibling ∨ (pos = .right ∧ (lastRoot.map (·.id) = some self.id)) then
        match lastRoot with
        | none => none
        | some lr =>
          let newobj := mkRow s kwargs (lr.tree_id + 1) 1 2 self.depth
          some (s ++ [newobj], newobj)
      else
        match (match pos with
               | .firstSibling => some (1 : Int)
               | .left => some self.tree_id
               | .right => some (self.tree_id + 1)
               | _ => none) with
        | none => none
        | some newpos =>
          let s1 := moveTreeRightSql newpos s
          let newobj := mkRow s kwargs newpos 1 2 self.depth
          some (s1 ++ [newobj], newobj)
    else
      match sibNorm s self pos with
      | none => none
      | some (target, pos2) =>
        match (match pos2 with
               | .lastSibling =>
                 match getParent s target with
                 | none => none
                 | some p => some (p.rgt, moveRightSql target.tree_id p.rgt false 2 s)
               | .firstSibling =>
                 some (target.lft, moveRightSql target.tree_id (target.lft - 1) false 2 s)
               | .left =>
                 some (target.lft, moveRightSql target.tree_id target.lft true 2 s)
               | _ => none) with
        | none => none
        | some (newpos, s1) =>
          let newobj := mkRow s kwargs self.tree_id newpos (newpos + 1) self.depth
          some (s1 ++ [newobj], newobj)

/-- `NS_Node.add_child(**kwargs)`: delegate to
`get_last_child().add_sibling('last-sibling')` when the receiver has children
(no sort key configured), else open a width-2 hole inside the receiver's right
bound and create the first child at `(lft + 1, lft + 2)`. -/
def add_child (s : Db) (self : Row) (kwargs : List (String × Int)) : Option (Db × Row) :=
  if ¬ isLeaf self then
    match getLastChild s self with
    | none => none
    | some lc => add_sibling s lc .lastSibling kwargs
  else
    let s1 := moveRightSql self.tree_id self.rgt false 2 s
    let newobj := mkRow s kwargs self.tree_id (self.lft + 1) (self.lft + 2) (self.depth + 1)
    some (s1 ++ [newobj], newobj)

/-! ## `move` and its phases -/

/-- The child-position normalization at the head of `move` (lines 402-411):
a leaf target becomes its own pivot with position `last-child` and is
remembered as `parent`; otherwise the pivot becomes the target's last child
and the position its sibling form. -/
def moveChildNorm (s : Db) (target : Row) (pos : Pos) : Option (Row × Pos × Option Row) :=
  match pos with
  | .firstChild | .lastChild | .sortedChild =>
    if isLeaf target then some (target, .lastChild, some target)
    else
      match getLastChild s target with
      | none => none
      | some lc =>
        some (lc,
              (match pos with
               | .firstChild => Pos.firstSibling
               | .lastChild => Pos.lastSibling
               | _ => Pos.sortedSibling),
              none)
  | p => some (target, p, none)

/-- The noop detection of `move` (lines 416-423): `self == target` and the
position demands no relocation. -/
def moveNoop (s : Db) (self target : Row) (pos : Pos) : Bool :=
  decide (self.id = target.id) &&
    (decide (pos = Pos.left)
     || ((decide (pos = Pos.right) || decide (pos = Pos.lastSibling)) &&
         decide ((getLastSibling s target).map (·.id) = some target.id))
     || (decide (pos = Pos.firstSibling) &&
         decide ((getFirstSibling s target).map (·.id) = some target.id)))

/-- The hole-opening dispatch of `move` (lines 461-483).  Returns the state
after the hole `UPDATE` (if any), `newpos` and `target_tree`.  `none` models
the unbound-`newpos` `NameError` of the non-root fall-through and the
`IndexError`/missing-parent exceptions. -/
def moveOpenHole (s : Db) (target : Row) (pos : Pos) (par : Option Row) (gap : Int) :
    Option (Db × Int × Int) :=
  if pos = .lastChild then
    match par with
    | none => none
    | some p => some (moveRightSql target.tree_id p.rgt false gap s, p.rgt, target.tree_id)
  else if isRoot target then
    if pos = .lastSibling then
      match (getSiblings s target).reverse.head? with
      | none => none
      | some m => some (s, 1, m.tree_id + 1)
    else if pos = .firstSibling then
      some (moveTreeRightSql 1 s, 1, 1)
    else if pos = .left then
      some (moveTreeRightSql target.tree_id s, 1, target.tree_id)
    else some (s, 1, target.tree_id)
  else
    if pos = .lastSibling then
      match getParent s target with
      | none => none
      | some p => some (moveRightSql target.tree_id p.rgt false gap s, p.rgt, target.tree_id)
    else if pos = .firstSibling then
      some (moveRightSql target.tree_id (target.lft - 1) false gap s, target.lft, target.tree_id)
    else if pos = .left then
      some (moveRightSql target.tree_id target.lft true gap s, target.lft, target.tree_id)
    else none

/-- The subtree-relocation `UPDATE` of `move` (lines 497-512):
`SET tree_id = target_tree, lft = lft + jump, rgt = rgt + jump,
depth = depth + depthdiff
WHERE tree_id = from_tree AND lft BETWEEN fromlft AND fromrgt`. -/
def relocateSql (fromTree targetTree jump depthdiff fromLft fromRgt : Int) (s : Db) : Db :=
  s.map (fun r =>
    if r.tree_id = fromTree ∧ fromLft ≤ r.lft ∧ r.lft ≤ fromRgt then
      { r with
        tree_id := targetTree
        lft := r.lft + jump
        rgt := r.rgt + jump
        depth := r.depth + depthdiff }
    else r)

/-- The mutation phase of `move` (lines 454-517): open the destination hole,
re-read `self` from storage, relocate the subtree, close the vacated gap. -/
def movePhase2 (s : Db) (self target : Row) (pos : Pos) (par : Option Row) :
    Except MoveErr Db :=
  let gap := self.rgt - self.lft + 1
  match moveOpenHole s target pos par gap with
  | none => .error .dbError
  | some (s1, newpos, targetTree) =>
    match findById s1 self.id with
    | none => .error .dbError
    | some fromobj =>
      let depthdiff := target.depth - fromobj.depth + (if par.isSome then 1 else 0)
      let s2 := relocateSql fromobj.tree_id targetTree (newpos - fromobj.lft) depthdiff
                  fromobj.lft fromobj.rgt s1
      .ok (closeGapSql fromobj.lft fromobj.rgt fromobj.tree_id s2)

/-- `NS_Node.move(target, pos)`: validate the token, normalize child
positions, reject a descendant target, detect noops, normalize sibling
positions, then run the mutation phase. -/
def move (s : Db) (self target : Row) (pos0 : Pos) : Except MoveErr Db :=
  match fixMoveOpts pos0 with
  | none => .error .invalidPos
  | some pos =>
    match moveChildNorm s target pos with
    | none => .error .dbError
    | some (t1, p1, par) =>
      if isDescendantOf t1 self then .error .invalidMoveToDescendant
      else if moveNoop s self t1 p1 then .ok s
      else
        match sibNorm s t1 p1 with
        | none => .error .dbError
        | some (t2, p2) => movePhase2 s self t2 p2 par

/-! ## Cascading delete (hot call of `NS_NodeQuerySet.delete`) -/

/-- Python tuple order on the `(tree_id, lft, rgt)` ranges. -/
def tupLe (a b : Int × Int × Int) : Prop :=
  a.1 < b.1 ∨ (a.1 = b.1 ∧ (a.2.1 < b.2.1 ∨ (a.2.1 = b.2.1 ∧ a.2.2 ≤ b.2.2)))

instance : DecidableRel tupLe := fun a b => by unfold tupLe; infer_instance

instance : IsTotal (Int × Int × Int) tupLe := by
  constructor
  intro a b
  unfold tupLe
  omega

instance : IsTrans (Int × Int × Int) tupLe := by
  constructor
  intro a b c hab hbc
  unfold tupLe at *
  omega

/-- `sorted(removed_ranges, reverse=True)`: the ranges in descending
lexicographic order. -/
def pySortedDesc (l : List (Int × Int × Int)) : List (Int × Int × Int) :=
  (List.insertionSort tupLe l).reverse

/-- The hot call of `NS_NodeQuerySet.delete` (lines 50-66): the queryset's
rows (those satisfying `doomed`) are deleted by the default delete, then the
close-gap statement runs once per removed range, iterating the ranges in
descending `(tree_id, lft, rgt)` order. -/
def delete_hot (s : Db) (doomed : Row → Bool) (ranges : List (Int × Int × Int)) : Db :=
  (pySortedDesc ranges).foldl
    (fun db rg => closeGapSql rg.2.1 rg.2.2 rg.1 db)
    (s.filter (fun r => ¬ doomed r))

/-! ## Bulk record structure -/

/-- A bulk record `{ data: {...}, id?: ..., children?: [...] }`.  An absent
`children` key and an empty child list are identified: `dump_bulk` only adds
the key when the first child is appended, and `load_bulk` treats a missing key
like an empty extension. -/
inductive BRec where
  | node (data : List (String × Int)) (recId : Option Int) (children : List BRec)
deriving Repr

/-- The `data` mapping of a record. -/
def BRec.data : BRec → List (String × Int)
  | .node d _ _ => d

/-- The optional top-level `id` of a record. -/
def BRec.recId : BRec → Option Int
  | .node _ i _ => i

/-- The child records. -/
def BRec.children : BRec → List BRec
  | .node _ _ c => c

mutual

/-- One unit of work per record: used as fuel for the iterative loops. -/
def brecSize : BRec → Nat
  | .node _ _ cs => 1 + brecListSize cs

/-- Total size of a record list. -/
def brecListSize : List BRec → Nat
  | [] => 0
  | c :: cs => brecSize c + brecListSize cs

end

/-! ## `load_bulk` -/

/-- The `while stack:` loop of `NS_Node.load_bulk` (lines 558-577), with the
stack's top at the head (Python pops and extends at the tail of a reversed
list, which is the same traversal).  For each popped record: copy its `data`,
under `keep_ids` overwrite `data['id']` with the record's id (a missing record
id is the source's `KeyError`), then `add_child` under the parent row fetched
by primary key (`add_root` when the parent id is absent or `0`, Python
falsiness), and push the children with the new node as parent.  The fuel is
one unit per record plus one for the final empty-stack step, which the loop
consumes exactly; `none` on exhaustion is unreachable. -/
def loadLoop (keepIds : Bool) :
    Nat → Db → List (Option Int × BRec) → List Int → Option (Db × List Int)
  | 0, _, _, _ => none
  | _ + 1, s, [], added => some (s, added.reverse)
  | fuel + 1, s, (pid, rec) :: rest, added =>
    let nodeData := rec.data
    let nd? : Option (List (String × Int)) :=
      if keepIds then
        match rec.recId with
        | none => none
        | some i => some (setField nodeData "id" i)
      else some nodeData
    match nd? with
    | none => none
    | some nd =>
      let pidTruthy : Option Int :=
        match pid with
        | none => none
        | some p => if p = 0 then none else some p
      match pidTruthy with
      | some p =>
        match findById s p with
        | none => none
        | some prow =>
          match add_child s prow nd with
          | none => none
          | some (s2, newobj) =>
            loadLoop keepIds fuel s2
              (rec.children.map (fun c => (some newobj.id, c)) ++ rest)
              (newobj.id :: added)
      | none =>
        let (s2, newobj) := add_root s nd
        loadLoop keepIds fuel s2
          (rec.children.map (fun c => (some newobj.id, c)) ++ rest)
          (newobj.id :: added)

/-- `NS_Node.load_bulk(bulk_data, parent, keep_ids)`: iterative preorder
insertion; returns the updated table and the list of created ids. -/
def load_bulk (s : Db) (bulkData : List BRec) (parent : Option Row) (keepIds : Bool) :
    Option (Db × List Int) :=
  let pid : Option Int := parent.map (·.id)
  loadLoop keepIds (brecListSize bulkData + 1) s (bulkData.map (fun r => (pid, r))) []

/-! ## `dump_bulk` -/

/-- Modelled from the spec: the storage serializer of §6 reports, for a row,
a `fields` mapping of column → value — the encoding columns together with the
user payload (which, immediately after a `load_bulk` with `keep_ids`, still
carries an `id` entry) — and the primary key separately. -/
def serializeFields (r : Row) : List (String × Int) :=
  [("lft", r.lft), ("rgt", r.rgt), ("depth", r.depth), ("tree_id", r.tree_id)] ++ r.payload

/-- The `data` mapping `dump_bulk` stores for a row: the serialized fields
with `lft`, `rgt`, `depth` and `tree_id` deleted, and `id` deleted when
present (lines 651-657). -/
def dumpFields (r : Row) : List (String × Int) :=
  delField "id" (delField "tree_id" (delField "depth" (delField "rgt"
    (delField "lft" (serializeFields r)))))

/-- A path into a record forest: indices into successive `children` lists. -/
abbrev BPath := List Nat

/-- Fetch the record at a path. -/
def getAtPath : BPath → List BRec → Option BRec
  | [], _ => none
  | [i], g => g.get? i
  | i :: rest, g =>
    match g.get? i with
    | none => none
    | some r => getAtPath rest r.children

/-- Apply `f` to the record at a path (identity when the path dangles). -/
def modifyAtPath (f : BRec → BRec) : BPath → List BRec → List BRec
  | [], g => g
  | [i], g => g.modify f i
  | i :: rest, g =>
    g.modify (fun r => .node r.data r.recId (modifyAtPath f rest r.children)) i

/-- The running `lnk` map of `dump_bulk`, keyed by node id; the value is the path
of the node's partially built record inside the accumulated forest.  Python's
dict assignment overwrites, so lookups see the latest binding first. -/
def lnkFind : List (Int × BPath) → Int → Option BPath
  | [], _ => none
  | (k, p) :: t, i => if k = i then some p else lnkFind t i

/-- One iteration of the `for pyobj in qset:` loop of `dump_bulk`
(lines 642-672): build the record, then either append it at top level (first
branch of the placement test) or append it to its parent's `children` via the
`lnk` map; finally bind the row's id to the new record's position.  `none`
models the `KeyError`/attribute failures on inconsistent input. -/
def dumpStep (s : Db) (parent : Option Row) (keepIds : Bool)
    (acc : Option (List BRec × List (Int × BPath))) (r : Row) :
    Option (List BRec × List (Int × BPath)) :=
  match acc with
  | none => none
  | some (ret, lnk) =>
    let newobj : BRec := .node (dumpFields r) (if keepIds then some r.id else none) []
    if (match parent with
        | none => decide (r.depth = 1)
        | some p => decide (r.depth = p.depth)) then
      some (ret ++ [newobj], (r.id, ([ret.length] : BPath)) :: lnk)
    else
      match getParent s r with
      | none => none
      | some pobj =>
        match lnkFind lnk pobj.id with
        | none => none
        | some ppath =>
          match getAtPath ppath ret with
          | none => none
          | some prec =>
            some (modifyAtPath (fun q => .node q.data q.recId (q.children ++ [newobj])) ppath ret,
                  (r.id, ppath ++ [prec.children.length]) :: lnk)

/-- `NS_Node.dump_bulk(parent, keep_ids)`: walk `get_tree(parent)` in
`(tree_id, lft)` order, assembling the record forest in one pass. -/
def dump_bulk (s : Db) (parent : Option Row) (keepIds : Bool) : Option (List BRec) :=
  ((getTree s parent).foldl (dumpStep s parent keepIds) (some ([], []))).map (·.1)

/-! ## Invariant checks (spec §3) and demo states -/

/-- The distinct `tree_id`s in use. -/
def treeIdsOf (s : Db) : List Int :=
  (s.map (·.tree_id)).dedup

/-- Ascending sort of an integer list. -/
def sortInts (l : List Int) : List Int :=
  List.insertionSort (fun a b => a ≤ b) l

/-- `[1, 2, …, n]` as integers. -/
def rangeList (n : Nat) : List Int :=
  (List.range n).map (fun i => (i : Int) + 1)

/-- Invariant 3 of §3: within each `tree_id`, the multiset of all `lft` and
`rgt` values is `{1, 2, …, 2N}` for `N` the node count of the tree (stated as
equality of the sorted value list with the contiguous range). -/
def contiguousOk (s : Db) : Bool :=
  (treeIdsOf s).all (fun t =>
    let rows := s.filter (fun r => r.tree_id == t)
    sortInts (rows.flatMap (fun r => [r.lft, r.rgt])) == rangeList (2 * rows.length))

/-- The nested-sets invariants of §3 as a decidable state predicate:
positive fields with `lft < rgt`, per-tree interval contiguity, pairwise
nesting-or-disjointness, distinct primary keys, the depth law (invariant 6)
and contiguous `tree_id`s (invariant 5). -/
def validState (s : Db) : Bool :=
  s.all (fun r => decide (r.lft < r.rgt ∧ 1 ≤ r.depth ∧ 1 ≤ r.tree_id)) &&
  contiguousOk s &&
  s.all (fun a => s.all (fun d =>
    decide (a.id = d.id ∨ a.tree_id ≠ d.tree_id ∨
      (a.lft < d.lft ∧ d.rgt < a.rgt) ∨ (d.lft < a.lft ∧ a.rgt < d.rgt) ∨
      a.rgt < d.lft ∨ d.rgt < a.lft))) &&
  decide ((s.map (·.id)).Nodup) &&
  s.all (fun r => decide (r.depth =
    ((s.filter (fun a => decide (a.tree_id = r.tree_id ∧ a.lft < r.lft ∧ r.rgt < a.rgt))).length : Int) + 1)) &&
  (sortInts (treeIdsOf s) == rangeList (treeIdsOf s).length)

/-- A single root leaf: the table after `add_root({"n": 1})` on an empty
table. -/
def demoRow : Row := ⟨1, 1, 1, 2, 1, [("n", 1)]⟩

/-- A root with one child (the child's payload carries a stray `id` entry, as
happens after a `load_bulk` with `keep_ids`). -/
def demoDb2 : Db :=
  [⟨1, 1, 1, 4, 1, [("n", 1)]⟩, ⟨2, 1, 2, 3, 2, [("id", 9), ("n", 2)]⟩]

/-- Two single-node trees. -/
def twoRoots : Db :=
  [⟨1, 1, 1, 2, 1, []⟩, ⟨2, 2, 1, 2, 1, []⟩]

/-- The S1-S2 scenario of §8: `add_root({"n":1})` on an empty table, then
`add_child({"n":2})` twice on the (re-read) root. -/
def scenarioS2 : Option Db :=
  let s1 := (add_root [] [("n", 1)]).1
  match findById s1 1 with
  | none => none
  | some r1 =>
    match add_child s1 r1 [("n", 2)] with
    | none => none
    | some (s2, _) =>
      match findById s2 1 with
      | none => none
      | some r2 =>
        match add_child s2 r2 [("n", 2)] with
        | none => none
        | some (s3, _) => some s3

mutual

/-- No `id` key in the record's `data`, recursively. -/
def recIdFree : BRec → Bool
  | .node d _ cs => decide (lookupField d "id" = none) && listIdFree cs

/-- `recIdFree` over a record list. -/
def listIdFree : List BRec → Bool
  | [] => true
  | c :: cs => recIdFree c && listIdFree cs

end

/-- The `dump_bulk` loop invariant: the accumulated forest (when the fold has
not failed) contains no `id` key in any `data` mapping. -/
def accIdFree : Option (List BRec × List (Int × BPath)) → Prop
  | none => True
  | some (ret, _) => listIdFree ret = true

/-! ## Round-trip machinery: canonical encodings of record trees -/

/-- Strict DFS order: used to identify sorted query results uniquely. -/
def dfsLT (a b : Row) : Prop :=
  a.tree_id < b.tree_id ∨ (a.tree_id = b.tree_id ∧ a.lft < b.lft)

instance : DecidableRel dfsLT := fun a b => by unfold dfsLT; infer_instance

instance : IsAntisymm Row dfsLT := by
  constructor
  intro a b hab hba
  unfold dfsLT at *
  omega

/-- The `tree_id` `add_root` assigns to a new root. -/
def newTreeOf (s : Db) : Int :=
  match getLastRootNode s with
  | some lr => lr.tree_id + 1
  | none => 1

mutual

/-- The canonical (tight) nested-sets rows that loading a record at slot
`pos`, depth `dep`, tree `tid`, with next storage key `nid`, produces:
the record's row spans `[pos, pos + 2·size - 1]` and its children follow in
preorder.  -/
def encodeRec : BRec → Int → Int → Int → Int → List Row
  | .node d _ cs, tid, pos, dep, nid =>
    ⟨nid, tid, pos, pos + 2 * (1 + (brecListSize cs : Int)) - 1, dep, d⟩ ::
      encodeList cs tid (pos + 1) (dep + 1) (nid + 1)

/-- Canonical rows of a record list laid out side by side. -/
def encodeList : List BRec → Int → Int → Int → Int → List Row
  | [], _, _, _, _ => []
  | c :: cs, tid, pos, dep, nid =>
    encodeRec c tid pos dep nid ++
      encodeList cs tid (pos + 2 * (brecSize c : Int)) dep (nid + (brecSize c : Int))

end

mutual

/-- A record tree with its top-level ids replaced by the storage keys the
canonical encoding assigns. -/
def reIdRec : BRec → Int → BRec
  | .node d _ cs, nid => .node d (some nid) (reIdList cs (nid + 1))

/-- `reIdRec` over a record list. -/
def reIdList : List BRec → Int → List BRec
  | [], _ => []
  | c :: cs, nid => reIdRec c nid :: reIdList cs (nid + (brecSize c : Int))

end

mutual

/-- Erase all top-level `id` fields of a record tree (comparison "modulo the
id fields"). -/
def eraseRecIds : BRec → BRec
  | .node d _ cs => .node d none (eraseListIds cs)

/-- `eraseRecIds` over a record list. -/
def eraseListIds : List BRec → List BRec
  | [] => []
  | c :: cs => eraseRecIds c :: eraseListIds cs

end

mutual

/-- The record's `data` mappings mention none of the encoding columns or the
primary key, recursively — the shape `dump_bulk` guarantees. -/
def recClean : BRec → Bool
  | .node d _ cs =>
    decide (lookupField d "id" = none ∧ lookupField d "lft" = none ∧
      lookupField d "rgt" = none ∧ lookupField d "depth" = none ∧
      lookupField d "tree_id" = none) && listClean cs

/-- `recClean` over a record list. -/
def listClean : List BRec → Bool
  | [] => true
  | c :: cs => recClean c && listClean cs

end

mutual

/-- The `lnk` bindings (id → path) that dumping a record block at a given
path produces, in preorder. -/
def lnkOfRec : BRec → Int → BPath → List (Int × BPath)
  | .node _ _ cs, nid, path => (nid, path) :: lnkOfList cs (nid + 1) path 0

/-- `lnkOfRec` over a record list whose records land at child indices
`i, i+1, …` under `path`. -/
def lnkOfList : List BRec → Int → BPath → Nat → List (Int × BPath)
  | [], _, _, _ => []
  | c :: cs, nid, path, i =>
    lnkOfRec c nid (path ++ [i]) ++ lnkOfList cs (nid + (brecSize c : Int)) path (i + 1)

end

mutual

/-- Reference (recursive) semantics of the `load_bulk` loop with
`keep_ids = false`: process one record — fetch the parent by primary key,
`add_child` under it (`add_root` when the parent id is absent or `0`) — then
its children left to right. -/
def loadRecS : Db → Option Int → BRec → Option (Db × List Int)
  | s, pid, rec =>
    match (match pid with
           | none => none
           | some p => if p = 0 then none else some p) with
    | some p =>
      match findById s p with
      | none => none
      | some prow =>
        match add_child s prow rec.data with
        | none => none
        | some (s2, newobj) =>
          match loadListS s2 (some newobj.id) rec.children with
          | none => none
          | some (s3, ids) => some (s3, newobj.id :: ids)
    | none =>
      match add_root s rec.data with
      | (s2, newobj) =>
        match loadListS s2 (some newobj.id) rec.children with
        | none => none
        | some (s3, ids) => some (s3, newobj.id :: ids)
termination_by s pid rec => 2 * brecSize rec
decreasing_by
  all_goals
    first
      | (simp [BRec.children, brecSize, brecListSize] <;> omega)
      | (cases rec with
          | node d i cs2 => simp [BRec.children, brecSize, brecListSize] <;> omega)

/-- `loadRecS` over a record list under one parent. -/
def loadListS : Db → Option Int → List BRec → Option (Db × List Int)
  | s, _, [] => some (s, [])
  | s, pid, c :: cs =>
    match loadRecS s pid c with
    | none => none
    | some (s1, ids1) =>
      match loadListS s1 pid cs with
      | none => none
      | some (s2, ids2) => some (s2, ids1 ++ ids2)
termination_by s pid cs => 2 * brecListSize cs + 1
decreasing_by
  all_goals
    first
      | (simp [brecSize, brecListSize] <;> omega)
      | (cases c with
          | node d i cs2 => simp [brecSize, brecListSize] <;> omega)

end

/-- Total record weight of a load stack. -/
def stackWeight (st : List (Option Int × BRec)) : Nat :=
  (st.map (fun p => brecSize p.2)).sum

/-- The row predicate underlying `getChildren p` (the three queryset filters
composed): in `p`'s tree, `lft` within `p`'s interval, not `p` itself, one
level deeper. -/
def childB (p r : Row) : Bool :=
  (r.depth == p.depth + 1) &&
    (decide (r.id ≠ p.id) &&
      decide (r.tree_id = p.tree_id ∧ p.lft ≤ r.lft ∧ r.lft ≤ p.rgt - 1))

/-- The row predicate underlying `getAncestors r`. -/
def ancB (x r : Row) : Bool :=
  decide (x.tree_id = r.tree_id ∧ x.lft < r.lft ∧ x.rgt > r.rgt)

/-- The invariant tying a mid-load table to the record layer: `p` is the
current insertion parent in tree `T` and `CR` lists its current child roots
(left to right).  The geometric clauses say every `tree T` row is `p`, a
proper ancestor of `p`, material fully to the left of `p`, or material
strictly inside `p` below the last child bound. -/
structure BInv (s : Db) (T : Int) (p : Row) (CR : List Row) : Prop where
  mem : p ∈ s
  found : findById s p.id = some p
  idpos : 1 ≤ p.id
  tree : p.tree_id = T
  pos1 : 1 ≤ p.lft
  lftrgt : p.lft < p.rgt
  wellint : ∀ r ∈ s, r.tree_id = T → r.lft < r.rgt
  geo : ∀ r ∈ s, r.tree_id = T →
    r = p ∨ (r.lft < p.lft ∧ r.rgt > p.rgt) ∨ r.rgt < p.lft ∨
      (p.lft < r.lft ∧ r.rgt < p.rgt ∧ r.id ≠ p.id)
  chRaw : s.filter (childB p) = CR
  crSorted : List.Pairwise dfsLT CR
  lastSep : ∀ lc, CR.getLast? = some lc →
    ∀ r ∈ s, r.tree_id = T → p.lft < r.lft → r.rgt < p.rgt →
      (r = lc ∨ r.rgt < lc.lft ∨ (lc.lft < r.lft ∧ r.rgt < lc.rgt))
  leafIff : (CR = [] ↔ isLeaf p = true)

/-- The maximum primary key in use (0 for the empty table). -/
def maxId (s : Db) : Int :=
  s.foldr (fun x m => max x.id m) 0

/-- The root row of a record's canonical block. -/
def headRow (c : BRec) (tid pos dep nid : Int) : Row :=
  ⟨nid, tid, pos, pos + 2 * (brecSize c : Int) - 1, dep, c.data⟩

/-- The root rows of the canonical blocks of a record list. -/
def encodeHeads : List BRec → Int → Int → Int → Int → List Row
  | [], _, _, _, _ => []
  | c :: cs, tid, pos, dep, nid =>
    headRow c tid pos dep nid ::
      encodeHeads cs tid (pos + 2 * (brecSize c : Int)) dep (nid + (brecSize c : Int))

/-- Region context for the dump fold, list level: the canonical blocks of
`cs` occupy `[pos, pos + 2·Σsize − 1]` of tree `T` in the fixed table `sF`,
`par` is their common parent row, and every `tree T` row is left of the
region, right of it, inside one of the blocks, `par` itself, or a strict
ancestor of `par`'s span. -/
structure DumpCtx (sF : Db) (T : Int) (cs : List BRec) (pos dep nid : Int)
    (par : Row) : Prop where
  parMem : par ∈ sF
  parTree : par.tree_id = T
  parL : par.lft < pos
  parR : pos + 2 * (brecListSize cs : Int) - 1 < par.rgt
  pos2 : 2 ≤ pos
  dep2 : 2 ≤ dep
  blockSub : ∀ r ∈ encodeList cs T pos dep nid, r ∈ sF
  cls : ∀ x ∈ sF, x.tree_id = T →
    x.rgt < pos ∨ pos + 2 * (brecListSize cs : Int) - 1 < x.lft ∨
    (pos ≤ x.lft ∧ x ∈ encodeList cs T pos dep nid ∧
      x.rgt ≤ pos + 2 * (brecListSize cs : Int) - 1) ∨
    x = par ∨ (x.lft < par.lft ∧ pos + 2 * (brecListSize cs : Int) - 1 < x.rgt)

/-- Region context for the dump fold, single-record level. -/
structure DumpCtxR (sF : Db) (T : Int) (c : BRec) (pos dep nid : Int)
    (par : Row) : Prop where
  parMem : par ∈ sF
  parTree : par.tree_id = T
  parL : par.lft < pos
  parR : pos + 2 * (brecSize c : Int) - 1 < par.rgt
  pos2 : 2 ≤ pos
  dep2 : 2 ≤ dep
  blockSub : ∀ r ∈ encodeRec c T pos dep nid, r ∈ sF
  cls : ∀ x ∈ sF, x.tree_id = T →
    x.rgt < pos ∨ pos + 2 * (brecSize c : Int) - 1 < x.lft ∨
    (pos ≤ x.lft ∧ x ∈ encodeRec c T pos dep nid ∧
      x.rgt ≤ pos + 2 * (brecSize c : Int) - 1) ∨
    x = par ∨ (x.lft < par.lft ∧ pos + 2 * (brecSize c : Int) - 1 < x.rgt)

/-- The row transformer of `moveRightSql`, named so the shift can be reasoned
about pointwise. -/
def mrF (tid pivot : Int) (lftmove : Bool) (incdec : Int) (r : Row) : Row :=
  if r.rgt ≥ pivot ∧ r.tree_id = tid then
    { r with
      lft := if (if lftmove then r.lft ≥ pivot else r.lft > pivot) then r.lft + incdec else r.lft,
      rgt := if r.rgt ≥ pivot then r.rgt + incdec else r.rgt }
  else r

/-- Sequential reading of the `load_bulk` stack with `keep_ids = false`: the
top record is loaded in full (itself, then its descendants) before the rest of
the stack — the order the iterative loop realizes. -/
def stackSeq : Db → List (Option Int × BRec) → Option (Db × List Int)
  | s, [] => some (s, [])
  | s, (pid, rec) :: rest =>
    match loadRecS s pid rec with
    | none => none
    | some (s1, ids1) =>
      match stackSeq s1 rest with
      | none => none
      | some (s2, ids2) => some (s2, ids1 ++ ids2)

/-- The success invariant of the `dump_bulk` fold on a valid state: the
accumulated forest is a single tree, its `data` mappings are clean, and every
already-processed row's id is bound in `lnk` to a live path. -/
structure FoldInv (X : Db) (ret : List BRec) (lnk : List (Int × BPath)) : Prop where
  len1 : ret.length = 1
  clean : listClean ret = true
  dom : ∀ x ∈ X, ∃ path rec, lnkFind lnk x.id = some path ∧ getAtPath path ret = some rec

/-! ## Helper lemmas -/

theorem isDescendantOf_self (a : Row) : isDescendantOf a a = false := by
  simp [isDescendantOf]

theorem lookupField_delField (l : List (String × Int)) (k : String) :
    lookupField (delField k l) k = none := by
  induction l with
  | nil => rfl
  | cons p t ih =>
    obtain ⟨k1, v⟩ := p
    by_cases h : k1 = k
    · simpa [delField, List.filter_cons, h] using ih
    · simpa [delField, List.filter_cons, h, lookupField] using ih

theorem lookupField_setField (l : List (String × Int)) (k : String) (v : Int) :
    lookupField (setField l k v) k = some v := by
  induction l with
  | nil => simp [setField, lookupField]
  | cons p t ih =>
    obtain ⟨k1, v1⟩ := p
    by_cases h : k1 = k
    · simp [setField, h, lookupField]
    · simp [setField, h, lookupField, ih]

theorem sorted_rel_getLast? {α : Type} {r : α → α → Prop} {l : List α}
    (hs : List.Sorted r l) {x m : α} (hx : x ∈ l) (hm : l.getLast? = some m) :
    x = m ∨ r x m := by
  induction l with
  | nil => simp at hx
  | cons a t ih =>
    cases t with
    | nil =>
      simp at hx hm
      subst hx
      subst hm
      exact Or.inl rfl
    | cons b t2 =>
      rw [List.getLast?_cons_cons] at hm
      rcases List.mem_cons.mp hx with hxa | hxt
      · subst hxa
        exact Or.inr ((List.sorted_cons.mp hs).1 m (List.mem_of_getLast?_eq_some hm))
      · exact ih (List.sorted_cons.mp hs).2 hxt hm

theorem rootNodes_getLast_max {s : Db} {m : Row}
    (hm : (getRootNodes s).getLast? = some m)
    (hcover : ∀ r ∈ s, ∃ a ∈ s, a.lft = 1 ∧ a.tree_id = r.tree_id) :
    m ∈ s ∧ ∀ r ∈ s, r.tree_id ≤ m.tree_id := by
  have hsorted : List.Sorted dfsLe (getRootNodes s) :=
    List.sorted_insertionSort dfsLe _
  have hmem : m ∈ getRootNodes s := List.mem_of_getLast?_eq_some hm
  have hmem2 : m ∈ s := by
    have := (List.mem_insertionSort dfsLe).mp hmem
    exact (List.mem_filter.mp this).1
  refine ⟨hmem2, fun r hr => ?_⟩
  obtain ⟨a, ha, halft, hatree⟩ := hcover r hr
  have hamem : a ∈ getRootNodes s := by
    refine (List.mem_insertionSort dfsLe).mpr (List.mem_filter.mpr ⟨ha, ?_⟩)
    simp [isRoot, halft]
  have := sorted_rel_getLast? hsorted hamem hm
  rcases this with h | h
  · rw [← h]
    omega
  · unfold dfsLe at h
    omega

theorem moveChildNorm_parent {s : Db} {target t1 : Row} {pos p1 : Pos} {par : Option Row}
    (h : moveChildNorm s target pos = some (t1, p1, par)) :
    par.isSome ↔ p1 = Pos.lastChild := by
  cases pos with
  | firstChild | lastChild | sortedChild =>
    by_cases hl : isLeaf target
    · simp [moveChildNorm, hl] at h
      obtain ⟨h1, h2, h3⟩ := h
      subst h2
      subst h3
      simp
    · simp [moveChildNorm, hl] at h
      cases hgc : getLastChild s target with
      | none => simp [hgc] at h
      | some lc =>
        simp [hgc] at h
        obtain ⟨h1, h2, h3⟩ := h
        subst h2
        subst h3
        simp
  | firstSibling | lastSibling | left | right | sortedSibling =>
    simp [moveChildNorm] at h
    obtain ⟨h1, h2, h3⟩ := h
    subst h2
    subst h3
    simp

/-! ## Claim theorems -/

/-- C5: starting from an empty table, `add_root({"n":1})` creates the single
row `(tree_id=1, lft=1, rgt=2, depth=1)`, and two subsequent `add_child`
calls on that root yield the root at `(lft=1, rgt=6, depth=1)` with children
at `(2,3)` and `(4,5)`, both at depth 2. -/
theorem c5_add_root_two_children :
    (add_root [] [("n", 1)]).1 = [⟨1, 1, 1, 2, 1, [("n", 1)]⟩] ∧
    scenarioS2 = some
      [⟨1, 1, 1, 6, 1, [("n", 1)]⟩,
       ⟨2, 1, 2, 3, 2, [("n", 2)]⟩,
       ⟨3, 1, 4, 5, 2, [("n", 2)]⟩] := by
  decide

/-- C1 (code bug): the claimed invariant — every public mutation on a state
satisfying the nested-sets invariants preserves the per-tree `{1, …, 2N}`
multiset of `lft`/`rgt` values — is violated by the code on
`move(n, n, 'last-child')` for a single root leaf `n`: the valid one-row
state (multiset `{1, 2}`) is mutated to a row with `lft = -2, rgt = 1`,
which also contradicts the source's own `PositiveIntegerField` column
declarations. -/
theorem c1_self_move_breaks_contiguity :
    validState [demoRow] = true ∧
    move [demoRow] demoRow demoRow Pos.lastChild =
      Except.ok [⟨1, 1, -2, 1, 2, [("n", 1)]⟩] ∧
    contiguousOk [⟨1, 1, -2, 1, 2, [("n", 1)]⟩] = false := by
  decide

/-- C9: `is_descendant_of(n, n)` is `false` for every node (the interval
comparisons are strict), so the `InvalidMoveToDescendant` guard in `move`
never fires when the normalized target equals `self`; concretely,
`move(n, n, 'last-child')` on a single root leaf passes the guard, is not a
noop case, and mutates the table. -/
theorem c9_strict_guard_self_move_mutates :
    (∀ a : Row, isDescendantOf a a = false) ∧
    moveNoop [demoRow] demoRow demoRow Pos.lastChild = false ∧
    move [demoRow] demoRow demoRow Pos.lastChild =
      Except.ok [⟨1, 1, -2, 1, 2, [("n", 1)]⟩] ∧
    ([⟨1, 1, -2, 1, 2, [("n", 1)]⟩] : Db) ≠ [demoRow] := by
  exact ⟨isDescendantOf_self, by decide, by decide, by decide⟩

/-- C7 (counterexample): with `keep_ids=false` and a record whose `data`
contains `id = 7`, `load_bulk` on an empty table creates the node with
primary key `7` — the `id` entry is passed through to node creation, not
ignored (ignoring it would have produced the storage-assigned key `1`). -/
theorem c7_counterexample :
    load_bulk [] [BRec.node [("id", 7), ("n", 5)] (some 99) []] none false =
      some ([⟨7, 1, 1, 2, 1, [("id", 7), ("n", 5)]⟩], [7]) ∧
    freshId [] = 1 ∧ (7 : Int) ≠ 1 := by
  decide

/-- C7 (amended): in `load_bulk`, the `data` mapping is passed to node
creation unchanged when `keep_ids` is false — so an `id` entry in `data`
becomes the created node's primary key rather than being ignored, and an
absent one leaves the key storage-assigned; when `keep_ids` is true the
record's top-level `id` overwrites any `id` in `data` and is preserved
verbatim as the created node's primary key. -/
theorem c7_load_bulk_id_handling (s : Db) (data : List (String × Int))
    (rid : Option Int) (i : Int) :
    ((load_bulk s [BRec.node data rid []] none false).map (fun p => p.2) =
      some [(lookupField data "id").getD (freshId s)]) ∧
    ((load_bulk s [BRec.node data (some i) []] none true).map (fun p => p.2) =
      some [i]) := by
  constructor
  · simp [load_bulk, loadLoop, brecListSize, brecSize, BRec.data, BRec.recId,
      BRec.children, add_root, mkRow]
  · simp [load_bulk, loadLoop, brecListSize, brecSize, BRec.data, BRec.recId,
      BRec.children, add_root, mkRow, lookupField_setField]

/-- C3: whenever the target — after the child-position normalization has
rewritten it to the pivot — is a descendant of `self`, `move` fails with
`InvalidMoveToDescendant`.  The failure is detected before any mutation: the
embedding returns the bare error, issuing none of the update statements, just
as the source raises before its first `cursor.execute`. -/
theorem c3_descendant_target_rejected (s : Db) (self target t1 : Row)
    (pos0 pos p1 : Pos) (par : Option Row)
    (hfix : fixMoveOpts pos0 = some pos)
    (hnorm : moveChildNorm s target pos = some (t1, p1, par))
    (hdesc : isDescendantOf t1 self = true) :
    move s self target pos0 = Except.error MoveErr.invalidMoveToDescendant := by
  simp [move, hfix, hnorm, hdesc]

/-- Witness for C3: moving the root of a two-node tree to the left of its own
child is rejected. -/
theorem c3_descendant_target_rejected_witness :
    fixMoveOpts Pos.left = some Pos.left ∧
    moveChildNorm demoDb2 (⟨2, 1, 2, 3, 2, [("id", 9), ("n", 2)]⟩ : Row) Pos.left =
      some (⟨2, 1, 2, 3, 2, [("id", 9), ("n", 2)]⟩, Pos.left, none) ∧
    isDescendantOf ⟨2, 1, 2, 3, 2, [("id", 9), ("n", 2)]⟩ ⟨1, 1, 1, 4, 1, [("n", 1)]⟩ = true ∧
    move demoDb2 ⟨1, 1, 1, 4, 1, [("n", 1)]⟩ ⟨2, 1, 2, 3, 2, [("id", 9), ("n", 2)]⟩ Pos.left =
      Except.error MoveErr.invalidMoveToDescendant :=
  ⟨by decide, by decide, by decide,
    c3_descendant_target_rejected demoDb2 ⟨1, 1, 1, 4, 1, [("n", 1)]⟩
      ⟨2, 1, 2, 3, 2, [("id", 9), ("n", 2)]⟩ ⟨2, 1, 2, 3, 2, [("id", 9), ("n", 2)]⟩
      Pos.left Pos.left Pos.left none (by decide) (by decide) (by decide)⟩

/-- C8: when `self == target` and the position is `left`, or is
`right`/`last-sibling` with the target being its own last sibling, or is
`first-sibling` with the target being its own first sibling, `move` returns
the table unchanged — no mutation is performed. -/
theorem c8_noop_cases (s : Db) (self target : Row) (pos : Pos)
    (heq : self = target)
    (hcase : pos = Pos.left ∨
      ((pos = Pos.right ∨ pos = Pos.lastSibling) ∧
        (getLastSibling s target).map (·.id) = some target.id) ∨
      (pos = Pos.firstSibling ∧
        (getFirstSibling s target).map (·.id) = some target.id)) :
    move s self target pos = Except.ok s := by
  subst heq
  rcases hcase with h | ⟨hp, hl⟩ | ⟨hp, hf⟩
  · subst h
    simp [move, fixMoveOpts, moveChildNorm, isDescendantOf_self, moveNoop]
  · rcases hp with hp | hp <;> subst hp <;>
      simp [move, fixMoveOpts, moveChildNorm, isDescendantOf_self, moveNoop, hl]
  · subst hp
    simp [move, fixMoveOpts, moveChildNorm, isDescendantOf_self, moveNoop, hf]

/-- Witness for C8: `move(n, n, 'left')` on the single-root table is a noop. -/
theorem c8_noop_cases_witness :
    demoRow = demoRow ∧
    move [demoRow] demoRow demoRow Pos.left = Except.ok [demoRow] :=
  ⟨rfl, c8_noop_cases [demoRow] demoRow demoRow Pos.left rfl (Or.inl rfl)⟩

/-- C4: the hot call of `delete` first removes the queryset's rows and then
closes one gap per removed range, iterating a descending-sorted permutation
of the `(tree_id, lft, rgt)` ranges; each `close_gap` statement, within the
given tree, subtracts the gap width `W = drop_rgt - drop_lft + 1` from every
`lft > drop_lft` and from every `rgt > drop_lft`, leaving all other rows and
fields unchanged. -/
theorem c4_delete_hot_close_gaps (s : Db) (doomed : Row → Bool)
    (ranges : List (Int × Int × Int)) (dl dr tid : Int) (db : Db) :
    (delete_hot s doomed ranges =
      (pySortedDesc ranges).foldl (fun acc rg => closeGapSql rg.2.1 rg.2.2 rg.1 acc)
        (s.filter (fun r => ¬ doomed r))) ∧
    (pySortedDesc ranges).Perm ranges ∧
    List.Sorted (fun a b => tupLe b a) (pySortedDesc ranges) ∧
    (closeGapSql dl dr tid db = db.map (fun r =>
      if r.tree_id = tid then
        Row.mk r.id r.tree_id
          (if dl < r.lft then r.lft - (dr - dl + 1) else r.lft)
          (if dl < r.rgt then r.rgt - (dr - dl + 1) else r.rgt)
          r.depth r.payload
      else r)) := by
  refine ⟨rfl, ?_, ?_, ?_⟩
  · exact (List.reverse_perm _).trans (List.perm_insertionSort tupLe ranges)
  · exact List.pairwise_reverse.mpr (List.sorted_insertionSort tupLe ranges)
  · unfold closeGapSql
    apply List.map_congr_left
    intro r _
    obtain ⟨i, t, l, g, d, p⟩ := r
    by_cases h1 : t = tid
    · by_cases h2 : dl < l
      · simp [h1, h2]
      · by_cases h3 : dl < g
        · simp [h1, h2, h3]
        · simp [h1, h2, h3]
    · simp [h1]

theorem listIdFree_append {g1 g2 : List BRec}
    (h1 : listIdFree g1 = true) (h2 : listIdFree g2 = true) :
    listIdFree (g1 ++ g2) = true := by
  induction g1 with
  | nil => simpa using h2
  | cons c t ih =>
    simp only [listIdFree, Bool.and_eq_true, List.cons_append] at h1 ⊢
    exact ⟨h1.1, ih h1.2⟩

theorem listIdFree_modify {f : BRec → BRec}
    (hf : ∀ q, recIdFree q = true → recIdFree (f q) = true) :
    ∀ (g : List BRec) (i : Nat), listIdFree g = true →
      listIdFree (g.modify f i) = true := by
  intro g
  induction g with
  | nil => intro i h; simpa using h
  | cons c t ih =>
    intro i h
    simp only [listIdFree, Bool.and_eq_true] at h
    cases i with
    | zero =>
      simp only [List.modify_zero_cons, listIdFree, Bool.and_eq_true]
      exact ⟨hf c h.1, h.2⟩
    | succ n =>
      simp only [List.modify_succ_cons, listIdFree, Bool.and_eq_true]
      exact ⟨h.1, ih n h.2⟩

theorem listIdFree_modifyAtPath {n : BRec} (hn : recIdFree n = true) :
    ∀ (path : BPath) (g : List BRec), listIdFree g = true →
      listIdFree (modifyAtPath
        (fun q => BRec.node q.data q.recId (q.children ++ [n])) path g) = true := by
  intro path
  induction path with
  | nil => intro g hg; simpa [modifyAtPath] using hg
  | cons i rest ih =>
    intro g hg
    cases rest with
    | nil =>
      simp only [modifyAtPath]
      refine listIdFree_modify ?_ g i hg
      intro q hq
      cases q with
      | node d ri cs =>
        simp only [recIdFree, Bool.and_eq_true, BRec.data, BRec.recId, BRec.children] at hq ⊢
        exact ⟨hq.1, listIdFree_append hq.2 (by simp [listIdFree, hn])⟩
    | cons j rest2 =>
      simp only [modifyAtPath]
      refine listIdFree_modify ?_ g i hg
      intro q hq
      cases q with
      | node d ri cs =>
        simp only [recIdFree, Bool.and_eq_true, BRec.data, BRec.recId, BRec.children] at hq ⊢
        exact ⟨hq.1, ih cs hq.2⟩

theorem recIdFree_dump (r : Row) (oid : Option Int) :
    recIdFree (BRec.node (dumpFields r) oid []) = true := by
  simp [recIdFree, listIdFree, dumpFields, lookupField_delField]

theorem dumpStep_accIdFree (s : Db) (parent : Option Row) (keepIds : Bool)
    (acc : Option (List BRec × List (Int × BPath))) (r : Row)
    (h : accIdFree acc) : accIdFree (dumpStep s parent keepIds acc r) := by
  cases acc with
  | none => simp [dumpStep, accIdFree]
  | some pr =>
    obtain ⟨ret, lnk⟩ := pr
    simp only [accIdFree] at h
    unfold dumpStep
    by_cases hplace : (match parent with
        | none => decide (r.depth = 1)
        | some p => decide (r.depth = p.depth)) = true
    · simp only [hplace, if_true]
      have : listIdFree (ret ++
          [BRec.node (dumpFields r) (if keepIds then some r.id else none) []]) = true :=
        listIdFree_append h (by simp [listIdFree, recIdFree_dump])
      simpa [accIdFree] using this
    · simp only [Bool.not_eq_true] at hplace
      simp only [hplace, Bool.false_eq_true, if_false]
      cases hgp : getParent s r with
      | none => simp [accIdFree]
      | some pobj =>
        cases hlk : lnkFind lnk pobj.id with
        | none => simp [hlk, accIdFree]
        | some ppath =>
          cases hat : getAtPath ppath ret with
          | none => simp [hlk, hat, accIdFree]
          | some prec =>
            simp only [hlk, hat]
            simpa [accIdFree] using
              listIdFree_modifyAtPath (recIdFree_dump r _) ppath ret h

theorem foldl_dumpStep_accIdFree (s : Db) (parent : Option Row) (keepIds : Bool) :
    ∀ (rows : List Row) (acc), accIdFree acc →
      accIdFree (rows.foldl (dumpStep s parent keepIds) acc) := by
  intro rows
  induction rows with
  | nil => intro acc h; simpa using h
  | cons r t ih =>
    intro acc h
    exact ih _ (dumpStep_accIdFree s parent keepIds acc r h)

/-- C10: for every table, every dump root and either value of `keep_ids`, no
record produced by `dump_bulk` carries an `id` key inside its `data`
mapping, recursively: besides stripping `lft`, `rgt`, `depth` and `tree_id`,
`dump_bulk` also deletes an `id` entry from the serialized fields when one is
present, so a primary key appears only as a record's top-level id and only
when `keep_ids` is true. -/
theorem c10_dump_bulk_strips_id (s : Db) (parent : Option Row) (keepIds : Bool)
    (forest : List BRec) (h : dump_bulk s parent keepIds = some forest) :
    listIdFree forest = true := by
  unfold dump_bulk at h
  cases hf : (getTree s parent).foldl (dumpStep s parent keepIds) (some ([], [])) with
  | none => rw [hf] at h; simp at h
  | some pr =>
    obtain ⟨ret, lnk⟩ := pr
    rw [hf] at h
    simp only [Option.map_some', Option.some.injEq] at h
    subst h
    have hinv := foldl_dumpStep_accIdFree s parent keepIds (getTree s parent)
      (some ([], [])) (by simp [accIdFree, listIdFree])
    rw [hf] at hinv
    simpa [accIdFree] using hinv

/-- Witness for C10: dumping a two-node tree whose child's payload carries a
stray `id` entry yields a forest free of `id` keys in `data`. -/
theorem c10_dump_bulk_strips_id_witness :
    dump_bulk demoDb2 none true =
      some [BRec.node [("n", 1)] (some 1) [BRec.node [("n", 2)] (some 2) []]] ∧
    listIdFree [BRec.node [("n", 1)] (some 1) [BRec.node [("n", 2)] (some 2) []]] = true :=
  ⟨rfl, c10_dump_bulk_strips_id demoDb2 none true _ rfl⟩

/-- C2: for every move — any table, any pivot `t1` and position `p1`
produced by child normalization, and any successful hole opening — once the
destination hole is opened and `self` is re-read from storage as `fromobj`,
the relocation statement of `move` updates exactly the rows with
`tree_id = fromobj.tree_id` and `fromobj.lft ≤ lft ≤ fromobj.rgt`, setting
`tree_id := target_tree`, adding `newpos - fromobj.lft` to `lft` and `rgt`,
and adding `t1.depth - fromobj.depth + parent_bias` to `depth`, where
`parent_bias = 1` iff the normalized position is `last-child`; in
particular, for a move to a root pivot with `pos = 'last-sibling'`, the
hole-opening phase leaves the table unchanged and yields `newpos = 1` and
`target_tree` one more than the maximum existing `tree_id` (provided every
tree has a root row). -/
theorem c2_move_relocation (s s1 : Db) (self target t1 : Row) (pos p1 : Pos)
    (par : Option Row) (newpos ttree : Int) (fromobj : Row)
    (hnorm : moveChildNorm s target pos = some (t1, p1, par))
    (hhole : moveOpenHole s t1 p1 par (self.rgt - self.lft + 1) = some (s1, newpos, ttree))
    (hfind : findById s1 self.id = some fromobj) :
    (movePhase2 s self t1 p1 par =
      Except.ok (closeGapSql fromobj.lft fromobj.rgt fromobj.tree_id
        (relocateSql fromobj.tree_id ttree (newpos - fromobj.lft)
          (t1.depth - fromobj.depth + (if par.isSome then 1 else 0))
          fromobj.lft fromobj.rgt s1))) ∧
    (relocateSql fromobj.tree_id ttree (newpos - fromobj.lft)
        (t1.depth - fromobj.depth + (if par.isSome then 1 else 0))
        fromobj.lft fromobj.rgt s1 =
      s1.map (fun r =>
        if r.tree_id = fromobj.tree_id ∧ fromobj.lft ≤ r.lft ∧ r.lft ≤ fromobj.rgt then
          Row.mk r.id ttree (r.lft + (newpos - fromobj.lft)) (r.rgt + (newpos - fromobj.lft))
            (r.depth + (t1.depth - fromobj.depth + (if par.isSome then 1 else 0))) r.payload
        else r)) ∧
    (par.isSome ↔ p1 = Pos.lastChild) ∧
    (t1.lft = 1 → p1 = Pos.lastSibling →
      (∀ r ∈ s, ∃ a ∈ s, a.lft = 1 ∧ a.tree_id = r.tree_id) →
      ∃ m ∈ s, (∀ r ∈ s, r.tree_id ≤ m.tree_id) ∧
        s1 = s ∧ newpos = 1 ∧ ttree = m.tree_id + 1) := by
  refine ⟨?_, rfl, moveChildNorm_parent hnorm, ?_⟩
  · simp [movePhase2, hhole, hfind]
  · intro hroot hpos hcover
    subst hpos
    have hr : isRoot t1 = true := by simp [isRoot, hroot]
    have hsib : getSiblings s t1 = getRootNodes s := by simp [getSiblings, hroot]
    simp only [moveOpenHole, hr, hsib, List.head?_reverse, if_true, reduceCtorEq,
      if_false] at hhole
    cases hm : (getRootNodes s).getLast? with
    | none => rw [hm] at hhole; simp at hhole
    | some m =>
      rw [hm] at hhole
      simp only [Option.some.injEq, Prod.mk.injEq] at hhole
      obtain ⟨h1, h2, h3⟩ := hhole
      obtain ⟨hmem2, hmax⟩ := rootNodes_getLast_max hm hcover
      exact ⟨m, hmem2, hmax, h1.symm, h2.symm, h3.symm⟩

/-- Witness for C2: moving the first of two single-node trees to
`last-sibling` of the second (a root): the parent bias is 0 (the normalized
position is not `last-child`), the hole phase leaves the table unchanged,
and the relocation targets tree `3 = max(tree_id) + 1` at `newpos = 1`. -/
theorem c2_move_relocation_witness :
    ((Option.isSome (none : Option Row) ↔ Pos.lastSibling = Pos.lastChild) ∧
      ∃ m ∈ twoRoots, (∀ r ∈ twoRoots, r.tree_id ≤ m.tree_id) ∧
        twoRoots = twoRoots ∧ (1 : Int) = 1 ∧ (3 : Int) = m.tree_id + 1) :=
  have h := c2_move_relocation twoRoots twoRoots ⟨1, 1, 1, 2, 1, []⟩ ⟨2, 2, 1, 2, 1, []⟩
    ⟨2, 2, 1, 2, 1, []⟩ Pos.lastSibling Pos.lastSibling none 1 3 ⟨1, 1, 1, 2, 1, []⟩
    (by decide) (by decide) (by decide)
  ⟨h.2.2.1, h.2.2.2 rfl rfl (by decide)⟩

/-! ## Round-trip helper lemmas: basics -/

theorem brecSize_pos (c : BRec) : 1 ≤ brecSize c := by
  cases c with
  | node d i cs => simp [brecSize]

theorem brecSize_node (d : List (String × Int)) (i : Option Int) (cs : List BRec) :
    brecSize (.node d i cs) = 1 + brecListSize cs := rfl

theorem foldr_max_ge {s : Db} {r : Row} (h : r ∈ s) :
    r.id ≤ s.foldr (fun x m => max x.id m) 0 := by
  induction s with
  | nil => simp at h
  | cons a t ih =>
    simp only [List.foldr_cons]
    rcases List.mem_cons.mp h with h | h
    · subst h; exact le_max_left _ _
    · exact le_trans (ih h) (le_max_right _ _)

theorem freshId_gt {s : Db} {r : Row} (h : r ∈ s) : r.id < freshId s := by
  have := foldr_max_ge h
  unfold freshId
  omega

theorem findById_mem {s : Db} {i : Int} {r : Row} (h : findById s i = some r) :
    r ∈ s ∧ r.id = i := by
  unfold findById at h
  refine ⟨List.mem_of_find?_eq_some h, ?_⟩
  have := List.find?_some h
  simpa using this

theorem findById_append_left {s1 s2 : Db} {i : Int} {r : Row}
    (h : findById s1 i = some r) : findById (s1 ++ s2) i = some r := by
  unfold findById at *
  simp [List.find?_append, h]

theorem findById_append_right {s1 s2 : Db} {i : Int} {r : Row}
    (h1 : ∀ x ∈ s1, x.id ≠ i) (h2 : findById s2 i = some r) :
    findById (s1 ++ s2) i = some r := by
  unfold findById at *
  rw [List.find?_append]
  have : s1.find? (fun x => x.id == i) = none := by
    rw [List.find?_eq_none]
    intro x hx
    simpa using h1 x hx
  simp [this, h2]

theorem findById_map_idpres {s : Db} {i : Int} (f : Row → Row)
    (hf : ∀ r, (f r).id = r.id) :
    findById (s.map f) i = (findById s i).map f := by
  unfold findById
  induction s with
  | nil => rfl
  | cons a t ih =>
    simp only [List.map_cons, List.find?_cons]
    by_cases h : a.id = i
    · have : (f a).id = i := by rw [hf]; exact h
      simp [h, this]
    · have h2 : ¬ (f a).id = i := by rw [hf]; exact h
      have hb1 : ((f a).id == i) = false := by simp [h2]
      have hb2 : (a.id == i) = false := by simp [h]
      simp [hb1, hb2, ih]

theorem findById_singleton_of_fresh {s : Db} {r : Row}
    (h : ∀ x ∈ s, x.id ≠ r.id) : findById (s ++ [r]) r.id = some r :=
  findById_append_right h (by simp [findById])

theorem dfsSort_perm (s : Db) : (dfsSort s).Perm s :=
  List.perm_insertionSort _ _

theorem dfsSort_sorted (s : Db) : List.Sorted dfsLe (dfsSort s) :=
  List.sorted_insertionSort _ _

theorem mem_dfsSort {s : Db} {r : Row} : r ∈ dfsSort s ↔ r ∈ s :=
  List.mem_insertionSort _

theorem sorted_strict_unique {L X : Db} (hperm : L.Perm X)
    (hsortL : List.Sorted dfsLe L) (hX : List.Pairwise dfsLT X) : L = X := by
  have hkey : X.Pairwise (fun a b => ¬(a.tree_id = b.tree_id ∧ a.lft = b.lft)) := by
    refine hX.imp ?_
    intro a b h
    unfold dfsLT at h
    omega
  have hsym : ∀ {x y : Row}, ¬(x.tree_id = y.tree_id ∧ x.lft = y.lft) →
      ¬(y.tree_id = x.tree_id ∧ y.lft = x.lft) := by
    intro x y h hc
    exact h ⟨hc.1.symm, hc.2.symm⟩
  have hkeyL : L.Pairwise (fun a b => ¬(a.tree_id = b.tree_id ∧ a.lft = b.lft)) :=
    (List.Perm.pairwise_iff hsym hperm.symm).mp hkey
  have hLT : L.Pairwise dfsLT := by
    refine (hsortL.and hkeyL).imp ?_
    intro a b h
    obtain ⟨h1, h2⟩ := h
    unfold dfsLe at h1
    unfold dfsLT
    omega
  exact List.eq_of_perm_of_sorted hperm hLT hX

theorem dfsSort_getLast_max {X : Db} {p : Row} (hp : p ∈ X)
    (hall : ∀ x ∈ X, x.tree_id = p.tree_id ∧ (x = p ∨ x.lft < p.lft)) :
    (dfsSort X).getLast? = some p := by
  have hmem : p ∈ dfsSort X := mem_dfsSort.mpr hp
  cases hl : (dfsSort X).getLast? with
  | none =>
    rw [List.getLast?_eq_none_iff] at hl
    rw [hl] at hmem
    simp at hmem
  | some m =>
    have hmm : m ∈ dfsSort X := List.mem_of_getLast?_eq_some hl
    have hmX : m ∈ X := mem_dfsSort.mp hmm
    have hrel := sorted_rel_getLast? (dfsSort_sorted X) hmem hl
    obtain ⟨ht, hm2⟩ := hall m hmX
    rcases hrel with h | h
    · rw [h]
    · rcases hm2 with h2 | h2
      · rw [h2]
      · exfalso
        unfold dfsLe at h
        omega

theorem getChildren_perm_filter {s : Db} {p : Row} (h : isLeaf p = false) :
    (getChildren s p).Perm (s.filter (childB p)) ∧
      List.Sorted dfsLe (getChildren s p) := by
  unfold getChildren getDescendants getTree
  simp only [h, Bool.false_eq_true, if_false]
  constructor
  · have h1 := dfsSort_perm (s.filter (fun r =>
      decide (r.tree_id = p.tree_id ∧ p.lft ≤ r.lft ∧ r.lft ≤ p.rgt - 1)))
    refine (((h1.filter _).filter _)).trans ?_
    rw [List.filter_filter, List.filter_filter]
    apply List.Perm.of_eq
    apply List.filter_congr
    intro r _
    simp [childB, Bool.and_assoc]
  · exact ((dfsSort_sorted _).filter _).filter _

theorem getChildren_eq {s : Db} {p : Row} {CR : List Row} (hleaf : isLeaf p = false)
    (hraw : s.filter (childB p) = CR) (hsorted : List.Pairwise dfsLT CR) :
    getChildren s p = CR := by
  obtain ⟨hperm, hsort⟩ := getChildren_perm_filter (s := s) (p := p) hleaf
  exact sorted_strict_unique (hraw ▸ hperm) hsort hsorted

theorem getParent_eq {s : Db} {r p : Row} (hr : isRoot r = false)
    (hp : p ∈ s) (hpb : ancB p r = true)
    (hall : ∀ x ∈ s, ancB x r = true →
      x.tree_id = p.tree_id ∧ (x = p ∨ x.lft < p.lft)) :
    getParent s r = some p := by
  unfold getParent getAncestors
  simp only [hr, Bool.false_eq_true, if_false]
  apply dfsSort_getLast_max
  · exact List.mem_filter.mpr ⟨hp, hpb⟩
  · intro x hx
    have := List.mem_filter.mp hx
    exact hall x this.1 this.2

theorem moveRightSql_notree {tid piv : Int} {lm : Bool} {d : Int} {s : Db}
    (h : ∀ r ∈ s, r.tree_id ≠ tid) : moveRightSql tid piv lm d s = s := by
  unfold moveRightSql
  conv_rhs => rw [← List.map_id s]
  apply List.map_congr_left
  intro r hr
  have := h r hr
  simp [this]

theorem moveRight_compose (tid q d2 : Int) (s : Db) :
    moveRightSql tid (q + 1) false d2 (moveRightSql tid q false 2 s) =
      moveRightSql tid q false (2 + d2) s := by
  unfold moveRightSql
  rw [List.map_map]
  apply List.map_congr_left
  intro r _
  obtain ⟨i, t, l, g, dd, p⟩ := r
  simp only [Function.comp]
  by_cases ht : t = tid
  · by_cases hg : g ≥ q
    · by_cases hl : l > q
      · simp [ht, hg, hl, show g + 2 ≥ q + 1 by omega, show l + 2 > q + 1 by omega,
          Row.mk.injEq]
        omega
      · simp [ht, hg, hl, show g + 2 ≥ q + 1 by omega, show ¬(l > q + 1) by omega,
          Row.mk.injEq]
        omega
    · simp [ht, hg, show ¬(g ≥ q + 1) by omega]
  · simp [ht]

/-! ## Canonical-block geometry -/

theorem brecListSize_cons (c : BRec) (cs : List BRec) :
    brecListSize (c :: cs) = brecSize c + brecListSize cs := rfl

theorem brecSize_cast (d : List (String × Int)) (i : Option Int) (cs : List BRec) :
    (brecSize (.node d i cs) : Int) = 1 + (brecListSize cs : Int) := by
  rw [brecSize_node]
  push_cast
  ring

theorem brecListSize_cast (c : BRec) (cs : List BRec) :
    (brecListSize (c :: cs) : Int) = (brecSize c : Int) + (brecListSize cs : Int) := by
  rw [brecListSize_cons]
  push_cast
  ring

theorem encodeRec_eq (c : BRec) (tid pos dep nid : Int) :
    encodeRec c tid pos dep nid =
      headRow c tid pos dep nid ::
        encodeList c.children tid (pos + 1) (dep + 1) (nid + 1) := by
  cases c with
  | node d i cs =>
    simp only [encodeRec, headRow, BRec.children, BRec.data, brecSize_cast]

mutual

theorem encodeRec_bounds (c : BRec) (tid pos dep nid : Int) :
    ∀ r ∈ encodeRec c tid pos dep nid,
      r.tree_id = tid ∧ pos ≤ r.lft ∧ r.lft < r.rgt ∧
      r.rgt ≤ pos + 2 * (brecSize c : Int) - 1 ∧ dep ≤ r.depth ∧
      nid ≤ r.id ∧ r.id < nid + (brecSize c : Int) := by
  cases c with
  | node d i cs =>
    intro r hr
    rw [encodeRec] at hr
    rcases List.mem_cons.mp hr with h | h
    · subst h
      have hz : (0:Int) ≤ (brecListSize cs : Int) := Int.natCast_nonneg _
      have hc : (brecSize (BRec.node d i cs) : Int) = 1 + (brecListSize cs : Int) :=
        brecSize_cast d i cs
      refine ⟨rfl, le_refl _, ?_, ?_, le_refl _, le_refl _, ?_⟩ <;>
        · simp only [hc]
          omega
    · have := encodeList_bounds cs tid (pos + 1) (dep + 1) (nid + 1) r h
      have hc : (brecSize (BRec.node d i cs) : Int) = 1 + (brecListSize cs : Int) :=
        brecSize_cast d i cs
      refine ⟨this.1, by omega, this.2.2.1, by omega, by omega, by omega, by omega⟩
termination_by 2 * brecSize c
decreasing_by
  all_goals
    first
      | (simp [BRec.children, brecSize, brecListSize] <;> omega)
      | (cases c with
          | node d2 i2 cs2 => simp [brecSize, brecListSize] <;> omega)

theorem encodeList_bounds (cs : List BRec) (tid pos dep nid : Int) :
    ∀ r ∈ encodeList cs tid pos dep nid,
      r.tree_id = tid ∧ pos ≤ r.lft ∧ r.lft < r.rgt ∧
      r.rgt ≤ pos + 2 * (brecListSize cs : Int) - 1 ∧ dep ≤ r.depth ∧
      nid ≤ r.id ∧ r.id < nid + (brecListSize cs : Int) := by
  cases cs with
  | nil => intro r hr; simp [encodeList] at hr
  | cons c t =>
    intro r hr
    rw [encodeList] at hr
    have hc := brecListSize_cast c t
    have hz : (1:Int) ≤ (brecSize c : Int) := by
      have := brecSize_pos c
      omega
    have hz2 : (0:Int) ≤ (brecListSize t : Int) := Int.natCast_nonneg _
    rcases List.mem_append.mp hr with h | h
    · have := encodeRec_bounds c tid pos dep nid r h
      refine ⟨this.1, this.2.1, this.2.2.1, by omega, this.2.2.2.2.1, by omega, by omega⟩
    · have := encodeList_bounds t tid (pos + 2 * (brecSize c : Int)) dep
        (nid + (brecSize c : Int)) r h
      refine ⟨this.1, by omega, this.2.2.1, by omega, this.2.2.2.2.1, by omega, by omega⟩
termination_by 2 * brecListSize cs + 1
decreasing_by
  all_goals
    first
      | (simp [brecListSize] <;> omega)
      | (cases c with
          | node d2 i2 cs2 => simp [brecSize, brecListSize] <;> omega)

end

theorem headRow_id (c : BRec) (tid pos dep nid : Int) :
    (headRow c tid pos dep nid).id = nid := rfl

theorem headRow_tree (c : BRec) (tid pos dep nid : Int) :
    (headRow c tid pos dep nid).tree_id = tid := rfl

theorem headRow_lft (c : BRec) (tid pos dep nid : Int) :
    (headRow c tid pos dep nid).lft = pos := rfl

theorem headRow_rgt (c : BRec) (tid pos dep nid : Int) :
    (headRow c tid pos dep nid).rgt = pos + 2 * (brecSize c : Int) - 1 := rfl

theorem headRow_depth (c : BRec) (tid pos dep nid : Int) :
    (headRow c tid pos dep nid).depth = dep := rfl

theorem headRow_payload (c : BRec) (tid pos dep nid : Int) :
    (headRow c tid pos dep nid).payload = c.data := rfl

theorem foldr_max_init (l : List Row) (b : Int) (hb : 0 ≤ b) :
    l.foldr (fun x m => max x.id m) b = max (l.foldr (fun x m => max x.id m) 0) b := by
  induction l with
  | nil => simp [max_eq_right hb]
  | cons a t ih =>
    simp only [List.foldr_cons, ih]
    rw [max_assoc]

mutual

theorem encodeRec_pairwise (c : BRec) (tid pos dep nid : Int) :
    List.Pairwise dfsLT (encodeRec c tid pos dep nid) := by
  rw [encodeRec_eq]
  refine List.pairwise_cons.mpr
    ⟨?_, encodeList_pairwise c.children tid (pos + 1) (dep + 1) (nid + 1)⟩
  intro r hr
  have hb := encodeList_bounds c.children tid (pos + 1) (dep + 1) (nid + 1) r hr
  unfold dfsLT
  right
  rw [headRow_tree, headRow_lft]
  exact ⟨hb.1.symm, by omega⟩
termination_by 2 * brecSize c
decreasing_by
  all_goals
    first
      | (simp [BRec.children, brecSize, brecListSize] <;> omega)
      | (cases c with
          | node d2 i2 cs2 => simp [BRec.children, brecSize, brecListSize] <;> omega)

theorem encodeList_pairwise (cs : List BRec) (tid pos dep nid : Int) :
    List.Pairwise dfsLT (encodeList cs tid pos dep nid) := by
  cases cs with
  | nil => simp [encodeList]
  | cons c t =>
    have hp : (1:Int) ≤ (brecSize c : Int) := by
      have := brecSize_pos c
      exact_mod_cast this
    rw [encodeList]
    rw [List.pairwise_append]
    refine ⟨encodeRec_pairwise c tid pos dep nid,
      encodeList_pairwise t tid (pos + 2 * (brecSize c : Int)) dep (nid + (brecSize c : Int)),
      ?_⟩
    intro a ha b hb
    have hba := encodeRec_bounds c tid pos dep nid a ha
    have hbb := encodeList_bounds t tid (pos + 2 * (brecSize c : Int)) dep
      (nid + (brecSize c : Int)) b hb
    unfold dfsLT
    right
    exact ⟨hba.1.trans hbb.1.symm, by omega⟩
termination_by 2 * brecListSize cs + 1
decreasing_by
  all_goals
    first
      | (simp [brecListSize] <;> omega)
      | (cases c with
          | node d2 i2 cs2 => simp [brecSize, brecListSize] <;> omega)

end

mutual

theorem encodeRec_maxId (c : BRec) (tid pos dep nid : Int) (h : 0 ≤ nid) :
    maxId (encodeRec c tid pos dep nid) = nid + (brecSize c : Int) - 1 := by
  rw [encodeRec_eq]
  unfold maxId
  simp only [List.foldr_cons]
  have hL := encodeList_maxId c.children tid (pos + 1) (dep + 1) (nid + 1) (by omega)
  unfold maxId at hL
  rw [hL, headRow_id]
  have hc : (brecSize c : Int) = 1 + (brecListSize c.children : Int) := by
    cases c with
    | node d i cs => exact brecSize_cast d i cs
  cases hcc : c.children with
  | nil =>
    rw [hcc] at hc
    have hc0 : (brecListSize ([] : List BRec) : Int) = 0 := by simp [brecListSize]
    rw [hc0] at hc
    show max nid 0 = nid + (brecSize c : Int) - 1
    rw [max_eq_left h]
    omega
  | cons a l =>
    rw [hcc] at hc
    have hq : 1 ≤ brecListSize (a :: l) := by
      have := brecSize_pos a
      simp [brecListSize]
      omega
    have hq2 : (1:Int) ≤ (brecListSize (a :: l) : Int) := by exact_mod_cast hq
    show max nid (nid + 1 + (brecListSize (a :: l) : Int) - 1) = nid + (brecSize c : Int) - 1
    rw [max_eq_right (by omega)]
    omega
termination_by 2 * brecSize c
decreasing_by
  all_goals
    first
      | (simp [BRec.children, brecSize, brecListSize] <;> omega)
      | (cases c with
          | node d2 i2 cs2 => simp [BRec.children, brecSize, brecListSize] <;> omega)

theorem encodeList_maxId (cs : List BRec) (tid pos dep nid : Int) (h : 0 ≤ nid) :
    maxId (encodeList cs tid pos dep nid) =
      (match cs with
        | [] => 0
        | _ :: _ => nid + (brecListSize cs : Int) - 1) := by
  cases cs with
  | nil => simp [encodeList, maxId]
  | cons c t =>
    have hp : (1:Int) ≤ (brecSize c : Int) := by
      have := brecSize_pos c
      exact_mod_cast this
    have h1 := encodeRec_maxId c tid pos dep nid h
    unfold maxId at h1
    have hct := brecListSize_cast c t
    show maxId (encodeList (c :: t) tid pos dep nid) =
      nid + (brecListSize (c :: t) : Int) - 1
    rw [encodeList]
    unfold maxId
    rw [List.foldr_append]
    cases t with
    | nil =>
      simp only [encodeList, List.foldr_nil]
      rw [h1]
      have hz : (brecListSize ([] : List BRec) : Int) = 0 := by simp [brecListSize]
      rw [hct, hz]
      omega
    | cons b u =>
      have hqb : (1:Int) ≤ (brecSize b : Int) := by
        have := brecSize_pos b
        exact_mod_cast this
      have hbu : (brecListSize (b :: u) : Int) = (brecSize b : Int) + (brecListSize u : Int) :=
        brecListSize_cast b u
      have hzu : (0:Int) ≤ (brecListSize u : Int) := Int.natCast_nonneg _
      have h2 : (encodeList (b :: u) tid (pos + 2 * (brecSize c : Int)) dep
          (nid + (brecSize c : Int))).foldr (fun x m => max x.id m) 0 =
          nid + (brecSize c : Int) + (brecListSize (b :: u) : Int) - 1 := by
        have h2a := encodeList_maxId (b :: u) tid (pos + 2 * (brecSize c : Int)) dep
          (nid + (brecSize c : Int)) (by omega)
        unfold maxId at h2a
        rw [h2a]
      rw [h2]
      rw [foldr_max_init _ _ (by omega), h1]
      rw [max_eq_right (by omega)]
      rw [hct]
      omega
termination_by 2 * brecListSize cs + 1
decreasing_by
  all_goals
    first
      | (simp [brecListSize] <;> omega)
      | (cases c with
          | node d2 i2 cs2 => simp [brecSize, brecListSize] <;> omega)

end

/-! ## Shift toolkit -/

theorem moveRightSql_eq_map (tid piv : Int) (lm : Bool) (d : Int) (s : Db) :
    moveRightSql tid piv lm d s = s.map (mrF tid piv lm d) := rfl

theorem mrF_id (tid piv : Int) (lm : Bool) (d : Int) (r : Row) :
    (mrF tid piv lm d r).id = r.id := by
  unfold mrF
  split <;> rfl

theorem mrF_tree (tid piv : Int) (lm : Bool) (d : Int) (r : Row) :
    (mrF tid piv lm d r).tree_id = r.tree_id := by
  unfold mrF
  split <;> rfl

theorem mrF_depth (tid piv : Int) (lm : Bool) (d : Int) (r : Row) :
    (mrF tid piv lm d r).depth = r.depth := by
  unfold mrF
  split <;> rfl

theorem mrF_payload (tid piv : Int) (lm : Bool) (d : Int) (r : Row) :
    (mrF tid piv lm d r).payload = r.payload := by
  unfold mrF
  split <;> rfl

theorem mrF_untouched {tid piv : Int} {lm : Bool} {d : Int} {r : Row}
    (h : r.rgt < piv ∨ r.tree_id ≠ tid) : mrF tid piv lm d r = r := by
  unfold mrF
  rw [if_neg]
  rintro ⟨h1, h2⟩
  rcases h with h | h
  · omega
  · exact h h2

theorem mrF_shift_full {tid piv : Int} {d : Int} {r : Row}
    (h1 : piv ≤ r.rgt) (h2 : r.tree_id = tid) (h3 : piv < r.lft) :
    mrF tid piv false d r = { r with lft := r.lft + d, rgt := r.rgt + d } := by
  unfold mrF
  rw [if_pos ⟨h1, h2⟩]
  simp [h1, h3]

theorem mrF_shift_rgt {tid piv : Int} {d : Int} {r : Row}
    (h1 : piv ≤ r.rgt) (h2 : r.tree_id = tid) (h3 : ¬ piv < r.lft) :
    mrF tid piv false d r = { r with rgt := r.rgt + d } := by
  unfold mrF
  rw [if_pos ⟨h1, h2⟩]
  simp [h1, h3]

theorem mrF_zero (tid piv : Int) (lm : Bool) (r : Row) : mrF tid piv lm 0 r = r := by
  obtain ⟨i, t, l, g, dd, p⟩ := r
  unfold mrF
  split
  · simp
  · rfl

theorem mr_zero (tid piv : Int) (lm : Bool) (s : Db) :
    moveRightSql tid piv lm 0 s = s := by
  rw [moveRightSql_eq_map]
  conv_rhs => rw [← List.map_id s]
  apply List.map_congr_left
  intro r _
  exact mrF_zero tid piv lm r

theorem moveRight_compose' (tid q d1 d2 : Int) (hd1 : 0 ≤ d1) (s : Db) :
    moveRightSql tid (q + d1) false d2 (moveRightSql tid q false d1 s) =
      moveRightSql tid q false (d1 + d2) s := by
  rw [moveRightSql_eq_map, moveRightSql_eq_map, moveRightSql_eq_map, List.map_map]
  apply List.map_congr_left
  intro r _
  obtain ⟨i, t, l, g, dd, p⟩ := r
  simp only [Function.comp]
  unfold mrF
  by_cases ht : t = tid
  · by_cases hg : g ≥ q
    · by_cases hl : l > q
      · simp [ht, hg, hl, show g + d1 ≥ q + d1 by omega, show l + d1 > q + d1 by omega,
          Row.mk.injEq]
        omega
      · simp [ht, hg, hl, show g + d1 ≥ q + d1 by omega, show ¬(l > q + d1) by omega,
          Row.mk.injEq]
        omega
    · simp [ht, hg, show ¬(g ≥ q + d1) by omega]
  · simp [ht]

theorem moveRightSql_fixed {tid piv : Int} {lm : Bool} {d : Int} {s : Db}
    (h : ∀ r ∈ s, r.rgt < piv ∨ r.tree_id ≠ tid) :
    moveRightSql tid piv lm d s = s := by
  rw [moveRightSql_eq_map]
  conv_rhs => rw [← List.map_id s]
  apply List.map_congr_left
  intro r hr
  exact mrF_untouched (h r hr)

/-! ## `maxId` bookkeeping -/

theorem maxId_nonneg (s : Db) : 0 ≤ maxId s := by
  induction s with
  | nil => simp [maxId]
  | cons a t ih =>
    unfold maxId at *
    simp only [List.foldr_cons]
    exact le_trans ih (le_max_right _ _)

theorem maxId_append (a b : Db) : maxId (a ++ b) = max (maxId a) (maxId b) := by
  unfold maxId
  rw [List.foldr_append]
  exact foldr_max_init a _ (maxId_nonneg b)

theorem maxId_map_idpres {s : Db} (f : Row → Row) (hf : ∀ r, (f r).id = r.id) :
    maxId (s.map f) = maxId s := by
  induction s with
  | nil => rfl
  | cons a t ih =>
    unfold maxId at *
    simp only [List.map_cons, List.foldr_cons, hf, ih]

theorem mem_id_le_maxId {s : Db} {r : Row} (h : r ∈ s) : r.id ≤ maxId s :=
  foldr_max_ge h

theorem freshId_eq (s : Db) : freshId s = maxId s + 1 := rfl

theorem moveRightSql_append (tid piv : Int) (lm : Bool) (d : Int) (a b : Db) :
    moveRightSql tid piv lm d (a ++ b) =
      moveRightSql tid piv lm d a ++ moveRightSql tid piv lm d b := by
  rw [moveRightSql_eq_map, moveRightSql_eq_map, moveRightSql_eq_map]
  exact List.map_append _ a b

theorem moveRight_compose2 (tid q piv2 d1 d2 : Int) (h1 : q ≤ piv2) (h2 : piv2 ≤ q + d1)
    (s : Db) :
    moveRightSql tid piv2 false d2 (moveRightSql tid q false d1 s) =
      moveRightSql tid q false (d1 + d2) s := by
  rw [moveRightSql_eq_map, moveRightSql_eq_map, moveRightSql_eq_map, List.map_map]
  apply List.map_congr_left
  intro r _
  obtain ⟨i, t, l, g, dd, p⟩ := r
  simp only [Function.comp]
  unfold mrF
  by_cases ht : t = tid
  · by_cases hg : g ≥ q
    · by_cases hl : l > q
      · simp [ht, hg, hl, show g + d1 ≥ piv2 by omega, show l + d1 > piv2 by omega,
          Row.mk.injEq]
        omega
      · simp [ht, hg, hl, show g + d1 ≥ piv2 by omega, show ¬(l > piv2) by omega,
          Row.mk.injEq]
        omega
    · simp [ht, hg, show ¬(g ≥ piv2) by omega]
  · simp [ht]

theorem recClean_node {d : List (String × Int)} {i0 : Option Int} {cs : List BRec}
    (h : recClean (.node d i0 cs) = true) :
    lookupField d "id" = none ∧ lookupField d "lft" = none ∧
      lookupField d "rgt" = none ∧ lookupField d "depth" = none ∧
      lookupField d "tree_id" = none ∧ listClean cs = true := by
  unfold recClean at h
  rw [Bool.and_eq_true, decide_eq_true_eq] at h
  exact ⟨h.1.1, h.1.2.1, h.1.2.2.1, h.1.2.2.2.1, h.1.2.2.2.2, h.2⟩

theorem listClean_cons {c : BRec} {cs : List BRec}
    (h : listClean (c :: cs) = true) : recClean c = true ∧ listClean cs = true := by
  unfold listClean at h
  rw [Bool.and_eq_true] at h
  exact h

theorem BInv_CR_facts {s : Db} {T : Int} {p : Row} {CR : List Row}
    (hB : BInv s T p CR) {x : Row} (hx : x ∈ CR) :
    x ∈ s ∧ x.tree_id = T ∧ x.depth = p.depth + 1 ∧ p.lft < x.lft ∧
      x.lft < x.rgt ∧ x.rgt < p.rgt ∧ x.id ≠ p.id := by
  rw [← hB.chRaw] at hx
  have hmem := (List.mem_filter.mp hx).1
  have hcb := (List.mem_filter.mp hx).2
  unfold childB at hcb
  rw [Bool.and_eq_true, Bool.and_eq_true, beq_iff_eq, decide_eq_true_eq,
    decide_eq_true_eq] at hcb
  have hdep := hcb.1
  have hid := hcb.2.1
  have htree : x.tree_id = T := hB.tree ▸ hcb.2.2.1
  have hwi := hB.wellint x hmem htree
  rcases hB.geo x hmem htree with h | h | h | h
  · exact absurd (congrArg Row.id h) hid
  · omega
  · omega
  · exact ⟨hmem, htree, hdep, h.1, hwi, h.2.1, hid⟩

theorem BInv_shift_cases {s : Db} {T : Int} {p : Row} {CR : List Row}
    (hB : BInv s T p CR) (d : Int) {y : Row} (hy : y ∈ s) (ht : y.tree_id = T) :
    (y = p ∧ mrF T p.rgt false d y = { p with rgt := p.rgt + d }) ∨
    (y.lft < p.lft ∧ p.rgt < y.rgt ∧
      mrF T p.rgt false d y = { y with rgt := y.rgt + d }) ∨
    (y.rgt < p.lft ∧ y.lft < y.rgt ∧ mrF T p.rgt false d y = y) ∨
    (p.lft < y.lft ∧ y.rgt < p.rgt ∧ y.id ≠ p.id ∧ y.lft < y.rgt ∧
      mrF T p.rgt false d y = y) := by
  have hwi := hB.wellint y hy ht
  have hlr := hB.lftrgt
  rcases hB.geo y hy ht with h | h | h | h
  · subst h
    exact Or.inl ⟨rfl, mrF_shift_rgt (le_refl _) ht (by omega)⟩
  · exact Or.inr (Or.inl ⟨h.1, h.2, mrF_shift_rgt (by omega) ht (by omega)⟩)
  · exact Or.inr (Or.inr (Or.inl ⟨h, hwi, mrF_untouched (Or.inl (by omega))⟩))
  · exact Or.inr (Or.inr (Or.inr ⟨h.1, h.2.1, h.2.2, hwi, mrF_untouched (Or.inl (by omega))⟩))

theorem BInv_root_init {s : Db} {T : Int} (hsep : ∀ x ∈ s, x.tree_id ≠ T)
    (dt : List (String × Int)) :
    BInv (s ++ [⟨maxId s + 1, T, 1, 2, 1, dt⟩]) T ⟨maxId s + 1, T, 1, 2, 1, dt⟩ [] := by
  have hfresh : ∀ x ∈ s, x.id ≠ maxId s + 1 := by
    intro x hx
    have := mem_id_le_maxId hx
    omega
  refine ⟨by simp, findById_singleton_of_fresh hfresh, ?_, rfl, le_refl _, by dsimp only; omega,
    ?_, ?_, ?_, List.Pairwise.nil, ?_, ?_⟩
  · have := maxId_nonneg s
    dsimp only
    omega
  · intro r hr htr
    rcases List.mem_append.mp hr with h | h
    · exact absurd htr (hsep r h)
    · rw [List.mem_singleton] at h
      subst h
      dsimp only
      omega
  · intro r hr htr
    rcases List.mem_append.mp hr with h | h
    · exact absurd htr (hsep r h)
    · rw [List.mem_singleton] at h
      exact Or.inl h
  · rw [List.filter_eq_nil_iff]
    intro r hr
    rcases List.mem_append.mp hr with h | h
    · have := hsep r h
      simp [childB, this]
    · rw [List.mem_singleton] at h
      subst h
      simp [childB]
  · intro lc hlc
    simp at hlc
  · constructor
    · intro _
      simp [isLeaf]
    · intro _
      rfl

theorem BInv_child_init {s : Db} {T : Int} {p : Row} {CR : List Row}
    (hB : BInv s T p CR) (dt : List (String × Int)) :
    BInv (moveRightSql T p.rgt false 2 s ++
        [⟨maxId s + 1, T, p.rgt, p.rgt + 1, p.depth + 1, dt⟩])
      T ⟨maxId s + 1, T, p.rgt, p.rgt + 1, p.depth + 1, dt⟩ [] := by
  have hlr := hB.lftrgt
  have hp1 := hB.pos1
  have hfresh : ∀ x ∈ moveRightSql T p.rgt false 2 s, x.id ≠ maxId s + 1 := by
    rw [moveRightSql_eq_map]
    intro x hx
    obtain ⟨y, hy, hxy⟩ := List.mem_map.mp hx
    have h1 : x.id = y.id := by rw [← hxy]; exact mrF_id _ _ _ _ _
    have := mem_id_le_maxId hy
    omega
  refine ⟨by simp, findById_singleton_of_fresh hfresh, ?_, rfl, by dsimp only; omega, by dsimp only; omega,
    ?_, ?_, ?_, List.Pairwise.nil, ?_, ?_⟩
  · have := maxId_nonneg s
    dsimp only
    omega
  · intro r hr htr
    rcases List.mem_append.mp hr with h | h
    · rw [moveRightSql_eq_map] at h
      obtain ⟨y, hy, hxy⟩ := List.mem_map.mp h
      by_cases hyt : y.tree_id = T
      · rcases BInv_shift_cases hB 2 hy hyt with ⟨he, hf⟩ | ⟨h1, h2, hf⟩ |
          ⟨h1, h2, hf⟩ | ⟨h1, h2, h3, h4, hf⟩
        · rw [hf] at hxy
          subst hxy
          dsimp only
          omega
        · rw [hf] at hxy
          subst hxy
          have := hB.wellint y hy hyt
          dsimp only
          omega
        · rw [hf] at hxy
          subst hxy
          omega
        · rw [hf] at hxy
          subst hxy
          omega
      · have : r.tree_id = y.tree_id := by rw [← hxy]; exact mrF_tree _ _ _ _ _
        rw [htr] at this
        exact absurd this.symm hyt
    · rw [List.mem_singleton] at h
      subst h
      dsimp only
      omega
  · intro r hr htr
    rcases List.mem_append.mp hr with h | h
    · rw [moveRightSql_eq_map] at h
      obtain ⟨y, hy, hxy⟩ := List.mem_map.mp h
      by_cases hyt : y.tree_id = T
      · rcases BInv_shift_cases hB 2 hy hyt with ⟨he, hf⟩ | ⟨h1, h2, hf⟩ |
          ⟨h1, h2, hf⟩ | ⟨h1, h2, h3, h4, hf⟩
        · rw [hf] at hxy
          subst hxy
          refine Or.inr (Or.inl ?_)
          dsimp only
          omega
        · rw [hf] at hxy
          subst hxy
          refine Or.inr (Or.inl ?_)
          dsimp only
          omega
        · rw [hf] at hxy
          subst hxy
          refine Or.inr (Or.inr (Or.inl ?_))
          dsimp only
          omega
        · rw [hf] at hxy
          subst hxy
          refine Or.inr (Or.inr (Or.inl ?_))
          dsimp only
          omega
      · have : r.tree_id = y.tree_id := by rw [← hxy]; exact mrF_tree _ _ _ _ _
        rw [htr] at this
        exact absurd this.symm hyt
    · rw [List.mem_singleton] at h
      exact Or.inl h
  · rw [List.filter_eq_nil_iff]
    intro r hr
    rcases List.mem_append.mp hr with h | h
    · rw [moveRightSql_eq_map] at h
      obtain ⟨y, hy, hxy⟩ := List.mem_map.mp h
      by_cases hyt : y.tree_id = T
      · have hlft : r.lft < p.rgt := by
          rcases BInv_shift_cases hB 2 hy hyt with ⟨he, hf⟩ | ⟨h1, h2, hf⟩ |
            ⟨h1, h2, hf⟩ | ⟨h1, h2, h3, h4, hf⟩
          · rw [hf] at hxy; subst hxy; dsimp only; omega
          · rw [hf] at hxy; subst hxy; dsimp only; omega
          · rw [hf] at hxy; subst hxy; omega
          · rw [hf] at hxy; subst hxy; omega
        simp only [childB, Bool.and_eq_true, beq_iff_eq, decide_eq_true_eq]
        intro hcontra
        have := hcontra.2.2
        omega
      · have htr : r.tree_id = y.tree_id := by rw [← hxy]; exact mrF_tree _ _ _ _ _
        simp only [childB, Bool.and_eq_true, beq_iff_eq, decide_eq_true_eq]
        intro hcontra
        have := hcontra.2.2.1
        rw [this] at htr
        exact hyt htr.symm
    · rw [List.mem_singleton] at h
      subst h
      simp [childB]
  · intro lc hlc
    simp at hlc
  · constructor
    · intro _
      simp [isLeaf]
    · intro _
      rfl

theorem childB_iff (p x : Row) :
    childB p x = true ↔ (x.depth = p.depth + 1 ∧ x.id ≠ p.id ∧ x.tree_id = p.tree_id ∧
      p.lft ≤ x.lft ∧ x.lft ≤ p.rgt - 1) := by
  simp [childB, and_assoc]

theorem BInv_after_block {s : Db} {T : Int} {p : Row} {CR : List Row}
    (hB : BInv s T p CR) (c : BRec) :
    BInv (moveRightSql T p.rgt false (2 * (brecSize c : Int)) s ++
        encodeRec c T p.rgt (p.depth + 1) (maxId s + 1))
      T { p with rgt := p.rgt + 2 * (brecSize c : Int) }
      (CR ++ [headRow c T p.rgt (p.depth + 1) (maxId s + 1)]) := by
  have hS1 : (1:Int) ≤ (brecSize c : Int) := by exact_mod_cast brecSize_pos c
  have hsz : (brecSize c : Int) = 1 + (brecListSize c.children : Int) := by
    cases c with
    | node d i cs => exact brecSize_cast d i cs
  have hlr := hB.lftrgt
  have hp1 := hB.pos1
  have hpid := mem_id_le_maxId hB.mem
  have hbb := encodeRec_bounds c T p.rgt (p.depth + 1) (maxId s + 1)
  have hpshift : mrF T p.rgt false (2 * (brecSize c : Int)) p =
      { p with rgt := p.rgt + 2 * (brecSize c : Int) } :=
    mrF_shift_rgt (le_refl _) hB.tree (by omega)
  have hmem' : ({ p with rgt := p.rgt + 2 * (brecSize c : Int) } : Row) ∈
      moveRightSql T p.rgt false (2 * (brecSize c : Int)) s := by
    rw [moveRightSql_eq_map]
    exact List.mem_map.mpr ⟨p, hB.mem, hpshift⟩
  have hfoundL : findById (moveRightSql T p.rgt false (2 * (brecSize c : Int)) s) p.id =
      some { p with rgt := p.rgt + 2 * (brecSize c : Int) } := by
    rw [moveRightSql_eq_map, findById_map_idpres _ (fun r => mrF_id _ _ _ _ r), hB.found,
      Option.map_some', hpshift]
  refine ⟨List.mem_append.mpr (Or.inl hmem'), findById_append_left hfoundL,
    hB.idpos, hB.tree, hB.pos1, by dsimp only; omega, ?_, ?_, ?_, ?_, ?_, ?_⟩
  · -- wellint
    intro r hr htr
    rcases List.mem_append.mp hr with h | h
    · rw [moveRightSql_eq_map] at h
      obtain ⟨y, hy, hxy⟩ := List.mem_map.mp h
      by_cases hyt : y.tree_id = T
      · rcases BInv_shift_cases hB (2 * (brecSize c : Int)) hy hyt with ⟨he, hf⟩ |
          ⟨h1, h2, hf⟩ | ⟨h1, h2, hf⟩ | ⟨h1, h2, h3, h4, hf⟩
        · rw [hf] at hxy; subst hxy; dsimp only; omega
        · rw [hf] at hxy; subst hxy
          have := hB.wellint y hy hyt
          dsimp only
          omega
        · rw [hf] at hxy; subst hxy; omega
        · rw [hf] at hxy; subst hxy; omega
      · have : r.tree_id = y.tree_id := by rw [← hxy]; exact mrF_tree _ _ _ _ _
        rw [htr] at this
        exact absurd this.symm hyt
    · exact (hbb r h).2.2.1
  · -- geo
    intro r hr htr
    rcases List.mem_append.mp hr with h | h
    · rw [moveRightSql_eq_map] at h
      obtain ⟨y, hy, hxy⟩ := List.mem_map.mp h
      by_cases hyt : y.tree_id = T
      · rcases BInv_shift_cases hB (2 * (brecSize c : Int)) hy hyt with ⟨he, hf⟩ |
          ⟨h1, h2, hf⟩ | ⟨h1, h2, hf⟩ | ⟨h1, h2, h3, h4, hf⟩
        · rw [hf] at hxy
          exact Or.inl hxy.symm
        · rw [hf] at hxy; subst hxy
          refine Or.inr (Or.inl ?_)
          dsimp only
          omega
        · rw [hf] at hxy; subst hxy
          refine Or.inr (Or.inr (Or.inl ?_))
          dsimp only
          omega
        · rw [hf] at hxy; subst hxy
          refine Or.inr (Or.inr (Or.inr ⟨?_, ?_, h3⟩)) <;> (dsimp only; omega)
      · have : r.tree_id = y.tree_id := by rw [← hxy]; exact mrF_tree _ _ _ _ _
        rw [htr] at this
        exact absurd this.symm hyt
    · have hb := hbb r h
      refine Or.inr (Or.inr (Or.inr ⟨?_, ?_, ?_⟩))
      · dsimp only
        omega
      · dsimp only
        omega
      · intro hcon
        rw [hcon] at hb
        dsimp only at hb
        omega
  · -- chRaw
    rw [List.filter_append]
    have hmap : (moveRightSql T p.rgt false (2 * (brecSize c : Int)) s).filter
        (childB { p with rgt := p.rgt + 2 * (brecSize c : Int) }) = CR := by
      rw [moveRightSql_eq_map, List.filter_map]
      have hcong : s.filter
          (childB { p with rgt := p.rgt + 2 * (brecSize c : Int) } ∘
            mrF T p.rgt false (2 * (brecSize c : Int))) = s.filter (childB p) := by
        apply List.filter_congr
        intro y hy
        show childB _ (mrF T p.rgt false (2 * (brecSize c : Int)) y) = childB p y
        by_cases hyt : y.tree_id = T
        · rcases BInv_shift_cases hB (2 * (brecSize c : Int)) hy hyt with ⟨he, hf⟩ |
            ⟨h1, h2, hf⟩ | ⟨h1, h2, hf⟩ | ⟨h1, h2, h3, h4, hf⟩
          · rw [hf]
            subst he
            rw [Bool.eq_iff_iff, childB_iff, childB_iff]
            constructor <;> rintro ⟨_, hh2, _⟩ <;> exact absurd rfl hh2
          · rw [hf, Bool.eq_iff_iff, childB_iff, childB_iff]
            dsimp only
            constructor <;> rintro ⟨hh1, hh2, hh3, hh4, hh5⟩ <;>
              exact ⟨hh1, hh2, hh3, by omega, by omega⟩
          · rw [hf, Bool.eq_iff_iff, childB_iff, childB_iff]
            dsimp only
            constructor <;> rintro ⟨hh1, hh2, hh3, hh4, hh5⟩ <;>
              exact ⟨hh1, hh2, hh3, by omega, by omega⟩
          · rw [hf, Bool.eq_iff_iff, childB_iff, childB_iff]
            dsimp only
            constructor <;> rintro ⟨hh1, hh2, hh3, hh4, hh5⟩ <;>
              exact ⟨hh1, hh2, hh3, by omega, by omega⟩
        · rw [mrF_untouched (Or.inr hyt), Bool.eq_iff_iff, childB_iff, childB_iff]
          have hpt := hB.tree
          dsimp only
          constructor <;> rintro ⟨_, _, hh3, _⟩ <;>
            exact absurd (hh3.trans hpt) hyt
      rw [hcong, hB.chRaw]
      rw [show CR.map (mrF T p.rgt false (2 * (brecSize c : Int))) = CR.map id from ?_,
        List.map_id]
      apply List.map_congr_left
      intro x hx
      have hcf := BInv_CR_facts hB hx
      exact mrF_untouched (Or.inl (by omega))
    have hblk : (encodeRec c T p.rgt (p.depth + 1) (maxId s + 1)).filter
        (childB { p with rgt := p.rgt + 2 * (brecSize c : Int) }) =
        [headRow c T p.rgt (p.depth + 1) (maxId s + 1)] := by
      rw [encodeRec_eq, List.filter_cons]
      have hhead : childB { p with rgt := p.rgt + 2 * (brecSize c : Int) }
          (headRow c T p.rgt (p.depth + 1) (maxId s + 1)) = true := by
        rw [childB_iff]
        rw [headRow_depth, headRow_id, headRow_tree, headRow_lft]
        refine ⟨rfl, ?_, hB.tree.symm, by dsimp only; omega, by dsimp only; omega⟩
        intro hcon
        dsimp only at hcon
        omega
      rw [if_pos hhead]
      have htail : (encodeList c.children T (p.rgt + 1) (p.depth + 1 + 1)
          (maxId s + 1 + 1)).filter
          (childB { p with rgt := p.rgt + 2 * (brecSize c : Int) }) = [] := by
        rw [List.filter_eq_nil_iff]
        intro r hr
        have hb := encodeList_bounds _ _ _ _ _ r hr
        intro hcon
        have := (childB_iff _ _).mp hcon
        have hd := this.1
        dsimp only at hd
        omega
      rw [htail]
    rw [hmap, hblk]
  · -- crSorted
    rw [List.pairwise_append]
    refine ⟨hB.crSorted, List.pairwise_singleton _ _, ?_⟩
    intro a ha b hb
    rw [List.mem_singleton] at hb
    subst hb
    have hcf := BInv_CR_facts hB ha
    unfold dfsLT
    rw [headRow_tree, headRow_lft]
    exact Or.inr ⟨hcf.2.1, by omega⟩
  · -- lastSep
    intro lc hlast
    rw [List.getLast?_concat] at hlast
    injection hlast with hlast
    subst hlast
    intro r hr htr h1 h2
    dsimp only at h1 h2
    rcases List.mem_append.mp hr with h | h
    · rw [moveRightSql_eq_map] at h
      obtain ⟨y, hy, hxy⟩ := List.mem_map.mp h
      by_cases hyt : y.tree_id = T
      · rcases BInv_shift_cases hB (2 * (brecSize c : Int)) hy hyt with ⟨he, hf⟩ |
          ⟨hh1, hh2, hf⟩ | ⟨hh1, hh2, hf⟩ | ⟨hh1, hh2, hh3, hh4, hf⟩
        · rw [hf] at hxy
          subst hxy
          dsimp only at h1
          omega
        · rw [hf] at hxy
          subst hxy
          dsimp only at h1 h2
          omega
        · rw [hf] at hxy
          subst hxy
          omega
        · rw [hf] at hxy
          subst hxy
          refine Or.inr (Or.inl ?_)
          rw [headRow_lft]
          omega
      · have : r.tree_id = y.tree_id := by rw [← hxy]; exact mrF_tree _ _ _ _ _
        rw [htr] at this
        exact absurd this.symm hyt
    · rw [encodeRec_eq] at h
      rcases List.mem_cons.mp h with h | h
      · exact Or.inl h
      · have hb := encodeList_bounds _ _ _ _ _ r h
        refine Or.inr (Or.inr ⟨?_, ?_⟩)
        · rw [headRow_lft]
          omega
        · rw [headRow_rgt]
          omega
  · -- leafIff
    constructor
    · intro hcon
      exact absurd hcon (by simp)
    · intro hcon
      unfold isLeaf at hcon
      rw [decide_eq_true_eq] at hcon
      dsimp only at hcon
      omega

theorem getParent_last_child {s : Db} {T : Int} {p : Row} {CR : List Row} {lc : Row}
    (hB : BInv s T p CR) (hlast : CR.getLast? = some lc) :
    getParent s lc = some p := by
  have hlc : lc ∈ CR := List.mem_of_getLast?_eq_some hlast
  have hcf := BInv_CR_facts hB hlc
  have hp1 := hB.pos1
  have hroot : isRoot lc = false := by
    unfold isRoot
    rw [decide_eq_false_iff_not]
    omega
  apply getParent_eq hroot hB.mem
  · unfold ancB
    rw [decide_eq_true_eq]
    exact ⟨hB.tree.trans hcf.2.1.symm, hcf.2.2.2.1, hcf.2.2.2.2.2.1⟩
  · intro x hx hax
    unfold ancB at hax
    rw [decide_eq_true_eq] at hax
    obtain ⟨hax1, hax2, hax3⟩ := hax
    have hxt : x.tree_id = T := hax1.trans hcf.2.1
    refine ⟨hxt.trans hB.tree.symm, ?_⟩
    rcases hB.geo x hx hxt with h | h | h | h
    · exact Or.inl h
    · exact Or.inr h.1
    · exfalso
      have h1 := hcf.2.2.2.1
      have h2 := hcf.2.2.2.2.1
      omega
    · exfalso
      rcases hB.lastSep lc hlast x hx hxt h.1 h.2.1 with he | he | he
      · subst he
        omega
      · have := hcf.2.2.2.2.1
        omega
      · omega

theorem add_root_char (s : Db) (d : List (String × Int))
    (hid : lookupField d "id" = none) :
    add_root s d = (s ++ [⟨maxId s + 1, newTreeOf s, 1, 2, 1, d⟩],
      ⟨maxId s + 1, newTreeOf s, 1, 2, 1, d⟩) := by
  unfold add_root mkRow newTreeOf
  rw [hid]
  rfl

theorem add_child_char {s : Db} {T : Int} {p : Row} {CR : List Row}
    (hB : BInv s T p CR) (d : List (String × Int))
    (hid : lookupField d "id" = none) :
    add_child s p d = some
      (moveRightSql T p.rgt false 2 s ++
        [⟨maxId s + 1, T, p.rgt, p.rgt + 1, p.depth + 1, d⟩],
       ⟨maxId s + 1, T, p.rgt, p.rgt + 1, p.depth + 1, d⟩) := by
  unfold add_child
  by_cases hleaf : isLeaf p = true
  · rw [if_neg (by simp [hleaf])]
    have hL : p.rgt - p.lft = 1 := by
      unfold isLeaf at hleaf
      exact decide_eq_true_eq.mp hleaf
    have e1 : p.lft + 1 = p.rgt := by omega
    have e2 : p.lft + 2 = p.rgt + 1 := by omega
    unfold mkRow
    rw [hid, hB.tree, e1, e2]
    rfl
  · have hleaf' : isLeaf p = false := by
      cases hif : isLeaf p
      · rfl
      · exact absurd hif hleaf
    rw [if_pos hleaf]
    have hch : getChildren s p = CR := getChildren_eq hleaf' hB.chRaw hB.crSorted
    have hne : CR ≠ [] := fun hc => hleaf (hB.leafIff.mp hc)
    obtain ⟨lc, hlc⟩ : ∃ lc, CR.getLast? = some lc := by
      cases hget : CR.getLast? with
      | none =>
        rw [List.getLast?_eq_none_iff] at hget
        exact absurd hget hne
      | some lc => exact ⟨lc, rfl⟩
    unfold getLastChild
    rw [hch, hlc]
    dsimp only
    have hcf := BInv_CR_facts hB (List.mem_of_getLast?_eq_some hlc)
    have hp1 := hB.pos1
    have hroot : isRoot lc = false := by
      unfold isRoot
      rw [decide_eq_false_iff_not]
      omega
    unfold add_sibling
    have hfix : fixAddSiblingOpts Pos.lastSibling = some Pos.lastSibling := rfl
    rw [hfix]
    dsimp only
    rw [if_neg (by simp [hroot])]
    have hsib : sibNorm s lc .lastSibling = some (lc, .lastSibling) := by
      unfold sibNorm
      rw [if_neg (by simp)]
    rw [hsib]
    dsimp only
    rw [getParent_last_child hB hlc]
    dsimp only
    unfold mkRow
    rw [hid, hcf.2.1, hcf.2.2.1]
    rfl

mutual

theorem loadRecS_char (c : BRec) (s : Db) (T : Int) (p : Row) (CR : List Row)
    (hB : BInv s T p CR) (hc : recClean c = true) :
    ∃ ids, loadRecS s (some p.id) c = some
      (moveRightSql T p.rgt false (2 * (brecSize c : Int)) s ++
        encodeRec c T p.rgt (p.depth + 1) (maxId s + 1), ids) := by
  cases c with
  | node d i0 cc =>
    obtain ⟨hid, _, _, _, _, hccClean⟩ := recClean_node hc
    have hne : ¬ (p.id = 0) := by
      have := hB.idpos
      omega
    rw [loadRecS]
    dsimp only
    rw [if_neg hne]
    dsimp only
    rw [hB.found]
    dsimp only [BRec.data, BRec.children]
    rw [add_child_char hB d hid]
    dsimp only
    have hB2 := BInv_child_init hB d
    have hmax2 : maxId (moveRightSql T p.rgt false 2 s ++
        [(⟨maxId s + 1, T, p.rgt, p.rgt + 1, p.depth + 1, d⟩ : Row)]) = maxId s + 1 := by
      rw [maxId_append, moveRightSql_eq_map,
        maxId_map_idpres _ (fun r => mrF_id _ _ _ _ r)]
      have h1 : maxId [(⟨maxId s + 1, T, p.rgt, p.rgt + 1, p.depth + 1, d⟩ : Row)] =
          max (maxId s + 1) 0 := rfl
      rw [h1]
      have := maxId_nonneg s
      omega
    obtain ⟨ids2, h2⟩ := loadListS_char cc _ T
      ⟨maxId s + 1, T, p.rgt, p.rgt + 1, p.depth + 1, d⟩ [] hB2 hccClean
    dsimp only at h2
    rw [hmax2] at h2
    rw [h2]
    dsimp only
    refine ⟨(maxId s + 1) :: ids2, ?_⟩
    have hstate :
        moveRightSql T (p.rgt + 1) false (2 * (brecListSize cc : Int))
            (moveRightSql T p.rgt false 2 s ++
              [(⟨maxId s + 1, T, p.rgt, p.rgt + 1, p.depth + 1, d⟩ : Row)]) ++
          encodeList cc T (p.rgt + 1) (p.depth + 1 + 1) (maxId s + 1 + 1) =
        moveRightSql T p.rgt false (2 * (brecSize (BRec.node d i0 cc) : Int)) s ++
          encodeRec (BRec.node d i0 cc) T p.rgt (p.depth + 1) (maxId s + 1) := by
      have hszc : (brecSize (BRec.node d i0 cc) : Int) = 1 + (brecListSize cc : Int) :=
        brecSize_cast d i0 cc
      have hLnn : (0:Int) ≤ (brecListSize cc : Int) := Int.natCast_nonneg _
      rw [moveRightSql_append]
      rw [moveRight_compose2 T p.rgt (p.rgt + 1) 2 (2 * (brecListSize cc : Int))
        (by omega) (by omega) s]
      have hm1 : moveRightSql T (p.rgt + 1) false (2 * (brecListSize cc : Int))
          [(⟨maxId s + 1, T, p.rgt, p.rgt + 1, p.depth + 1, d⟩ : Row)] =
          [⟨maxId s + 1, T, p.rgt, p.rgt + 1 + 2 * (brecListSize cc : Int),
            p.depth + 1, d⟩] := by
        rw [moveRightSql_eq_map, List.map_cons, List.map_nil]
        have hmr : mrF T (p.rgt + 1) false (2 * (brecListSize cc : Int))
            ⟨maxId s + 1, T, p.rgt, p.rgt + 1, p.depth + 1, d⟩ =
            { (⟨maxId s + 1, T, p.rgt, p.rgt + 1, p.depth + 1, d⟩ : Row) with
              rgt := (p.rgt + 1) + 2 * (brecListSize cc : Int) } :=
          mrF_shift_rgt (le_refl _) rfl (by dsimp only; omega)
        rw [hmr]
      rw [hm1]
      rw [encodeRec_eq]
      dsimp only [BRec.children]
      rw [List.append_assoc, List.singleton_append]
      congr 1
      · congr 1
        rw [hszc]
        ring
      · congr 1
        unfold headRow
        dsimp only [BRec.data]
        rw [Row.mk.injEq]
        refine ⟨rfl, rfl, rfl, ?_, rfl, rfl⟩
        rw [hszc]
        ring
    rw [hstate]
termination_by 2 * brecSize c
decreasing_by
  all_goals
    subst_vars
    first
      | (simp [BRec.children, brecSize, brecListSize] <;> omega)
      | omega

theorem loadListS_char (cs : List BRec) (s : Db) (T : Int) (p : Row) (CR : List Row)
    (hB : BInv s T p CR) (hcs : listClean cs = true) :
    ∃ ids, loadListS s (some p.id) cs = some
      (moveRightSql T p.rgt false (2 * (brecListSize cs : Int)) s ++
        encodeList cs T p.rgt (p.depth + 1) (maxId s + 1), ids) := by
  cases cs with
  | nil =>
    refine ⟨[], ?_⟩
    rw [loadListS]
    have h0 : (brecListSize ([] : List BRec) : Int) = 0 := by simp [brecListSize]
    rw [h0]
    rw [show (2:Int) * 0 = 0 from by ring]
    rw [mr_zero]
    rw [encodeList, List.append_nil]
  | cons c rest =>
    obtain ⟨hcClean, hrestClean⟩ := listClean_cons hcs
    have hp := brecSize_pos c
    have hS1 : (1:Int) ≤ (brecSize c : Int) := by exact_mod_cast hp
    have hmz := maxId_nonneg s
    rw [loadListS]
    obtain ⟨ids1, h1⟩ := loadRecS_char c s T p CR hB hcClean
    rw [h1]
    dsimp only
    have hB1 := BInv_after_block hB c
    have hmax1 : maxId (moveRightSql T p.rgt false (2 * (brecSize c : Int)) s ++
        encodeRec c T p.rgt (p.depth + 1) (maxId s + 1)) =
        maxId s + (brecSize c : Int) := by
      rw [maxId_append, moveRightSql_eq_map,
        maxId_map_idpres _ (fun r => mrF_id _ _ _ _ r)]
      rw [encodeRec_maxId c T p.rgt (p.depth + 1) (maxId s + 1) (by omega)]
      rw [max_eq_right (by omega)]
      omega
    obtain ⟨ids2, h2⟩ := loadListS_char rest _ T
      { p with rgt := p.rgt + 2 * (brecSize c : Int) } _ hB1 hrestClean
    dsimp only at h2
    rw [hmax1] at h2
    rw [h2]
    dsimp only
    refine ⟨ids1 ++ ids2, ?_⟩
    have hstate :
        moveRightSql T (p.rgt + 2 * (brecSize c : Int)) false
            (2 * (brecListSize rest : Int))
            (moveRightSql T p.rgt false (2 * (brecSize c : Int)) s ++
              encodeRec c T p.rgt (p.depth + 1) (maxId s + 1)) ++
          encodeList rest T (p.rgt + 2 * (brecSize c : Int)) (p.depth + 1)
            (maxId s + (brecSize c : Int) + 1) =
        moveRightSql T p.rgt false (2 * (brecListSize (c :: rest) : Int)) s ++
          encodeList (c :: rest) T p.rgt (p.depth + 1) (maxId s + 1) := by
      have hLc := brecListSize_cast c rest
      have hLnn : (0:Int) ≤ (brecListSize rest : Int) := Int.natCast_nonneg _
      rw [moveRightSql_append]
      rw [moveRight_compose2 T p.rgt (p.rgt + 2 * (brecSize c : Int))
        (2 * (brecSize c : Int)) (2 * (brecListSize rest : Int))
        (by omega) (by omega) s]
      have hfix : moveRightSql T (p.rgt + 2 * (brecSize c : Int)) false
          (2 * (brecListSize rest : Int))
          (encodeRec c T p.rgt (p.depth + 1) (maxId s + 1)) =
          encodeRec c T p.rgt (p.depth + 1) (maxId s + 1) := by
        apply moveRightSql_fixed
        intro r hr
        have hb := encodeRec_bounds c T p.rgt (p.depth + 1) (maxId s + 1) r hr
        exact Or.inl (by omega)
      rw [hfix]
      rw [encodeList]
      rw [List.append_assoc]
      congr 2
      · rw [hLc]
        ring
      · congr 1
        omega
    rw [hstate]
termination_by 2 * brecListSize cs + 1
decreasing_by
  all_goals
    subst_vars
    first
      | (simp [brecSize, brecListSize] <;> omega)
      | omega

end

theorem stackSeq_append_block (cs : List BRec) (q : Int)
    (rest : List (Option Int × BRec)) (s : Db) :
    stackSeq s (cs.map (fun c => (some q, c)) ++ rest) =
      match loadListS s (some q) cs with
      | none => none
      | some (s1, ids1) =>
        match stackSeq s1 rest with
        | none => none
        | some (s2, ids2) => some (s2, ids1 ++ ids2) := by
  induction cs generalizing s with
  | nil =>
    rw [List.map_nil, List.nil_append, loadListS]
    dsimp only
    cases h : stackSeq s rest with
    | none => rfl
    | some v =>
      obtain ⟨s2, ids2⟩ := v
      simp
  | cons c cs ih =>
    rw [List.map_cons, List.cons_append, stackSeq, loadListS]
    cases h1 : loadRecS s (some q) c with
    | none => rfl
    | some v =>
      obtain ⟨s1, ids1⟩ := v
      dsimp only
      rw [ih s1]
      cases h2 : loadListS s1 (some q) cs with
      | none => rfl
      | some v2 =>
        obtain ⟨s2, ids2⟩ := v2
        dsimp only
        cases h3 : stackSeq s2 rest with
        | none => rfl
        | some v3 =>
          obtain ⟨s3, ids3⟩ := v3
          dsimp only
          rw [List.append_assoc]

theorem stackWeight_cons (top : Option Int × BRec) (rest : List (Option Int × BRec)) :
    stackWeight (top :: rest) = brecSize top.2 + stackWeight rest := by
  simp [stackWeight]

theorem stackWeight_block (q : Option Int) (cs : List BRec)
    (rest : List (Option Int × BRec)) :
    stackWeight (cs.map (fun c => (q, c)) ++ rest) =
      brecListSize cs + stackWeight rest := by
  induction cs with
  | nil => simp [brecListSize]
  | cons c t ih =>
    rw [List.map_cons, List.cons_append, stackWeight_cons, ih, brecListSize_cons]
    dsimp only
    omega

theorem loadLoop_eq_stackSeq :
    ∀ (n : Nat) (st : List (Option Int × BRec)) (s : Db) (added : List Int),
      stackWeight st < n →
      loadLoop false n s st added =
        match stackSeq s st with
        | none => none
        | some (s2, ids) => some (s2, added.reverse ++ ids) := by
  intro n
  induction n with
  | zero =>
    intro st s added h
    exact absurd h (by omega)
  | succ m ih =>
    intro st s added h
    cases st with
    | nil =>
      rw [loadLoop, stackSeq]
      simp
    | cons top rest =>
      obtain ⟨pid, rec⟩ := top
      rw [stackWeight_cons] at h
      dsimp only at h
      have hsz := brecSize_pos rec
      have hc1 : brecListSize rec.children + 1 = brecSize rec := by
        cases rec with
        | node d i0 cc =>
          simp [BRec.children, brecSize, brecListSize]
          omega
      cases pid with
      | none =>
        rw [loadLoop, stackSeq, loadRecS]
        dsimp only
        rw [if_neg Bool.false_ne_true]
        dsimp only
        cases hadd : add_root s rec.data with
        | mk s2 newobj =>
          dsimp only
          have hw2 : stackWeight (rec.children.map (fun c => (some newobj.id, c)) ++ rest) <
              m := by
            rw [stackWeight_block]
            omega
          rw [ih _ s2 _ hw2, stackSeq_append_block]
          cases hll : loadListS s2 (some newobj.id) rec.children with
          | none => rfl
          | some v2 =>
            obtain ⟨s3, ids3⟩ := v2
            dsimp only
            cases hss : stackSeq s3 rest with
            | none => rfl
            | some v3 =>
              obtain ⟨s4, ids4⟩ := v3
              dsimp only
              simp
      | some p =>
        rw [loadLoop, stackSeq, loadRecS]
        dsimp only
        rw [if_neg Bool.false_ne_true]
        dsimp only
        by_cases hp0 : p = 0
        · rw [if_pos hp0]
          dsimp only
          cases hadd : add_root s rec.data with
          | mk s2 newobj =>
            dsimp only
            have hw2 : stackWeight (rec.children.map (fun c => (some newobj.id, c)) ++ rest) <
                m := by
              rw [stackWeight_block]
              omega
            rw [ih _ s2 _ hw2, stackSeq_append_block]
            cases hll : loadListS s2 (some newobj.id) rec.children with
            | none => rfl
            | some v2 =>
              obtain ⟨s3, ids3⟩ := v2
              dsimp only
              cases hss : stackSeq s3 rest with
              | none => rfl
              | some v3 =>
                obtain ⟨s4, ids4⟩ := v3
                dsimp only
                simp
        · rw [if_neg hp0]
          dsimp only
          cases hfb : findById s p with
          | none => rfl
          | some prow =>
            dsimp only
            cases hac : add_child s prow rec.data with
            | none => rfl
            | some v =>
              obtain ⟨s2, newobj⟩ := v
              dsimp only
              have hw2 : stackWeight (rec.children.map (fun c => (some newobj.id, c)) ++ rest) <
                  m := by
                rw [stackWeight_block]
                omega
              rw [ih _ s2 _ hw2, stackSeq_append_block]
              cases hll : loadListS s2 (some newobj.id) rec.children with
              | none => rfl
              | some v2 =>
                obtain ⟨s3, ids3⟩ := v2
                dsimp only
                cases hss : stackSeq s3 rest with
                | none => rfl
                | some v3 =>
                  obtain ⟨s4, ids4⟩ := v3
                  dsimp only
                  simp

theorem load_of_clean (s : Db) (rec : BRec) (hcl : recClean rec = true)
    (hsep : ∀ x ∈ s, x.tree_id ≠ newTreeOf s) :
    ∃ ids, load_bulk s [rec] none false = some
      (s ++ encodeRec rec (newTreeOf s) 1 1 (maxId s + 1), ids) := by
  cases rec with
  | node d i0 cc =>
    obtain ⟨hid, _, _, _, _, hccClean⟩ := recClean_node hcl
    unfold load_bulk
    dsimp only [Option.map, List.map_cons, List.map_nil]
    rw [loadLoop_eq_stackSeq _ _ s [] (by simp [stackWeight, brecListSize] <;> omega)]
    rw [stackSeq]
    rw [loadRecS]
    dsimp only [BRec.data, BRec.children]
    rw [add_root_char s d hid]
    dsimp only
    have hB0 := BInv_root_init hsep d
    have hmax1 : maxId (s ++ [(⟨maxId s + 1, newTreeOf s, 1, 2, 1, d⟩ : Row)]) =
        maxId s + 1 := by
      rw [maxId_append]
      have h1 : maxId [(⟨maxId s + 1, newTreeOf s, 1, 2, 1, d⟩ : Row)] =
          max (maxId s + 1) 0 := rfl
      rw [h1]
      have := maxId_nonneg s
      omega
    obtain ⟨ids2, h2⟩ := loadListS_char cc _ (newTreeOf s)
      ⟨maxId s + 1, newTreeOf s, 1, 2, 1, d⟩ [] hB0 hccClean
    dsimp only at h2
    rw [hmax1] at h2
    rw [h2]
    dsimp only
    rw [stackSeq]
    dsimp only
    refine ⟨(maxId s + 1) :: ids2, ?_⟩
    have hLnn : (0:Int) ≤ (brecListSize cc : Int) := Int.natCast_nonneg _
    have hstate :
        moveRightSql (newTreeOf s) 2 false (2 * (brecListSize cc : Int))
            (s ++ [(⟨maxId s + 1, newTreeOf s, 1, 2, 1, d⟩ : Row)]) ++
          encodeList cc (newTreeOf s) 2 (1 + 1) (maxId s + 1 + 1) =
        s ++ encodeRec (BRec.node d i0 cc) (newTreeOf s) 1 1 (maxId s + 1) := by
      rw [moveRightSql_append]
      rw [moveRightSql_fixed (fun r hr => Or.inr (hsep r hr))]
      have hmr : moveRightSql (newTreeOf s) 2 false (2 * (brecListSize cc : Int))
          [(⟨maxId s + 1, newTreeOf s, 1, 2, 1, d⟩ : Row)] =
          [⟨maxId s + 1, newTreeOf s, 1, 2 + 2 * (brecListSize cc : Int), 1, d⟩] := by
        rw [moveRightSql_eq_map, List.map_cons, List.map_nil]
        have hx : mrF (newTreeOf s) 2 false (2 * (brecListSize cc : Int))
            ⟨maxId s + 1, newTreeOf s, 1, 2, 1, d⟩ =
            { (⟨maxId s + 1, newTreeOf s, 1, 2, 1, d⟩ : Row) with
              rgt := 2 + 2 * (brecListSize cc : Int) } :=
          mrF_shift_rgt (le_refl _) rfl (by dsimp only; omega)
        rw [hx]
      rw [hmr]
      rw [encodeRec_eq]
      dsimp only [BRec.children]
      rw [List.append_assoc, List.singleton_append]
      congr 2
      unfold headRow
      dsimp only [BRec.data]
      rw [Row.mk.injEq]
      have hszc : (brecSize (BRec.node d i0 cc) : Int) = 1 + (brecListSize cc : Int) :=
        brecSize_cast d i0 cc
      refine ⟨rfl, rfl, rfl, ?_, rfl, rfl⟩
      rw [hszc]
      ring
    rw [hstate]
    simp

/-! ## Path algebra for the dump forest -/

theorem modify_nil {α : Type} (f : α → α) (i : Nat) :
    ([] : List α).modify f i = [] := by
  cases i <;> rfl

theorem modify_cons_zero {α : Type} (f : α → α) (a : α) (t : List α) :
    (a :: t).modify f 0 = f a :: t := rfl

theorem modify_cons_succ {α : Type} (f : α → α) (a : α) (t : List α) (i : Nat) :
    (a :: t).modify f (i + 1) = a :: t.modify f i := rfl

theorem getAtPath_single (i : Nat) (g : List BRec) :
    getAtPath [i] g = g.get? i := rfl

theorem getAtPath_deep (i j : Nat) (rest : BPath) (g : List BRec) :
    getAtPath (i :: j :: rest) g =
      (match g.get? i with
       | none => none
       | some r => getAtPath (j :: rest) r.children) := rfl

theorem modifyAtPath_single (f : BRec → BRec) (i : Nat) (g : List BRec) :
    modifyAtPath f [i] g = g.modify f i := rfl

theorem modifyAtPath_deep (f : BRec → BRec) (i j : Nat) (rest : BPath) (g : List BRec) :
    modifyAtPath f (i :: j :: rest) g =
      g.modify (fun r => .node r.data r.recId (modifyAtPath f (j :: rest) r.children)) i := rfl

theorem get?_modify_cases {α : Type} {l : List α} {j : Nat} {a : α}
    (f : α → α) (i : Nat) (h : l.get? j = some a) :
    (l.modify f i).get? j = some (if i = j then f a else a) := by
  induction l generalizing i j with
  | nil => simp at h
  | cons x t ih =>
    cases i with
    | zero =>
      cases j with
      | zero =>
        rw [List.get?_cons_zero] at h
        injection h with h
        subst h
        rw [modify_cons_zero, List.get?_cons_zero]
        simp
      | succ j =>
        rw [List.get?_cons_succ] at h
        rw [modify_cons_zero, List.get?_cons_succ, h]
        simp
    | succ i =>
      cases j with
      | zero =>
        rw [List.get?_cons_zero] at h
        injection h with h
        subst h
        rw [modify_cons_succ, List.get?_cons_zero]
        simp
      | succ j =>
        rw [List.get?_cons_succ] at h
        rw [modify_cons_succ, List.get?_cons_succ, ih _ h]
        by_cases he : i = j <;> simp [he]

theorem modify_modify_self {α : Type} (f g : α → α) (i : Nat) (l : List α) :
    (l.modify g i).modify f i = l.modify (fun x => f (g x)) i := by
  induction l generalizing i with
  | nil => rw [modify_nil, modify_nil, modify_nil]
  | cons x t ih =>
    cases i with
    | zero => rw [modify_cons_zero, modify_cons_zero, modify_cons_zero]
    | succ i =>
      rw [modify_cons_succ, modify_cons_succ, modify_cons_succ, ih]

theorem modify_congr_get? {α : Type} {l : List α} {i : Nat} {a : α}
    {f g : α → α} (h : l.get? i = some a) (hfg : f a = g a) :
    l.modify f i = l.modify g i := by
  induction l generalizing i with
  | nil => rw [modify_nil, modify_nil]
  | cons x t ih =>
    cases i with
    | zero =>
      rw [List.get?_cons_zero] at h
      injection h with h
      subst h
      rw [modify_cons_zero, modify_cons_zero, hfg]
    | succ i =>
      rw [List.get?_cons_succ] at h
      rw [modify_cons_succ, modify_cons_succ, ih h]

theorem modify_length {α : Type} (f : α → α) (i : Nat) (l : List α) :
    (l.modify f i).length = l.length := by
  induction l generalizing i with
  | nil => rw [modify_nil]
  | cons x t ih =>
    cases i with
    | zero => rw [modify_cons_zero]; rfl
    | succ i =>
      rw [modify_cons_succ, List.length_cons, List.length_cons, ih]

theorem modify_append_length {α : Type} (f : α → α) (l : List α) (x : α) :
    (l ++ [x]).modify f l.length = l ++ [f x] := by
  induction l with
  | nil => rfl
  | cons a t ih =>
    rw [List.cons_append, List.length_cons, modify_cons_succ, ih, List.cons_append]

theorem getAtPath_modifyAtPath_same {f : BRec → BRec} :
    ∀ (P : BPath) (ret : List BRec) (prec : BRec),
      getAtPath P ret = some prec →
      getAtPath P (modifyAtPath f P ret) = some (f prec) := by
  intro P
  induction P with
  | nil =>
    intro ret prec h
    simp [getAtPath] at h
  | cons i P ih =>
    intro ret prec h
    cases P with
    | nil =>
      rw [getAtPath_single] at h
      rw [modifyAtPath_single, getAtPath_single]
      rw [get?_modify_cases f i h]
      simp
    | cons j rest =>
      rw [getAtPath_deep] at h
      cases hget : ret.get? i with
      | none => rw [hget] at h; simp at h
      | some r =>
        rw [hget] at h
        dsimp only at h
        rw [modifyAtPath_deep, getAtPath_deep]
        rw [get?_modify_cases _ i hget]
        simp only [if_pos rfl]
        dsimp only [BRec.children]
        exact ih r.children prec h

theorem modifyAtPath_compose (f g : BRec → BRec) :
    ∀ (P : BPath) (ret : List BRec),
      modifyAtPath f P (modifyAtPath g P ret) =
        modifyAtPath (fun x => f (g x)) P ret := by
  intro P
  induction P with
  | nil =>
    intro ret
    rfl
  | cons i P ih =>
    intro ret
    cases P with
    | nil =>
      rw [modifyAtPath_single, modifyAtPath_single, modifyAtPath_single, modify_modify_self]
    | cons j rest =>
      rw [modifyAtPath_deep, modifyAtPath_deep, modifyAtPath_deep, modify_modify_self]
      apply congrArg (fun h => List.modify h i ret)
      funext x
      dsimp only [BRec.children, BRec.data, BRec.recId]
      rw [ih]

theorem modifyAtPath_congr {f g : BRec → BRec} :
    ∀ (P : BPath) (ret : List BRec) (prec : BRec),
      getAtPath P ret = some prec → f prec = g prec →
      modifyAtPath f P ret = modifyAtPath g P ret := by
  intro P
  induction P with
  | nil =>
    intro ret prec h _
    simp [getAtPath] at h
  | cons i P ih =>
    intro ret prec h hfg
    cases P with
    | nil =>
      rw [getAtPath_single] at h
      rw [modifyAtPath_single, modifyAtPath_single]
      exact modify_congr_get? h hfg
    | cons j rest =>
      rw [getAtPath_deep] at h
      cases hget : ret.get? i with
      | none => rw [hget] at h; simp at h
      | some r =>
        rw [hget] at h
        dsimp only at h
        rw [modifyAtPath_deep, modifyAtPath_deep]
        apply modify_congr_get? hget
        dsimp only
        rw [ih r.children prec h hfg]

theorem modifyAtPath_snoc (g : BRec → BRec) :
    ∀ (P : BPath) (i : Nat) (ret : List BRec) (prec : BRec),
      getAtPath P ret = some prec →
      modifyAtPath g (P ++ [i]) ret =
        modifyAtPath (fun r => BRec.node r.data r.recId (r.children.modify g i)) P ret := by
  intro P
  induction P with
  | nil =>
    intro i ret prec h
    simp [getAtPath] at h
  | cons j P ih =>
    intro i ret prec h
    cases P with
    | nil =>
      rw [List.cons_append, List.nil_append]
      rw [modifyAtPath_deep, modifyAtPath_single]
      apply congrArg (fun h => List.modify h j ret)
      funext x
      rw [modifyAtPath_single]
    | cons k rest =>
      rw [getAtPath_deep] at h
      cases hget : ret.get? j with
      | none => rw [hget] at h; simp at h
      | some r =>
        rw [hget] at h
        dsimp only at h
        rw [List.cons_append, List.cons_append, modifyAtPath_deep, modifyAtPath_deep]
        apply modify_congr_get? hget
        dsimp only
        have ih2 := ih i r.children prec h
        rw [List.cons_append] at ih2
        rw [ih2]

theorem getAtPath_snoc :
    ∀ (P : BPath) (j : Nat) (ret : List BRec) (prec : BRec),
      getAtPath P ret = some prec →
      getAtPath (P ++ [j]) ret = prec.children.get? j := by
  intro P
  induction P with
  | nil =>
    intro j ret prec h
    simp [getAtPath] at h
  | cons i P ih =>
    intro j ret prec h
    cases P with
    | nil =>
      rw [getAtPath_single] at h
      rw [List.cons_append, List.nil_append, getAtPath_deep, h]
      dsimp only
      rw [getAtPath_single]
    | cons k rest =>
      rw [getAtPath_deep] at h
      cases hget : ret.get? i with
      | none => rw [hget] at h; simp at h
      | some r =>
        rw [hget] at h
        dsimp only at h
        rw [List.cons_append, List.cons_append, getAtPath_deep, hget]
        dsimp only
        have ih2 := ih j r.children prec h
        rw [List.cons_append] at ih2
        exact ih2

theorem getAtPath_append :
    ∀ (q : BPath) (l ext : List BRec) (rec : BRec),
      getAtPath q l = some rec → getAtPath q (l ++ ext) = some rec := by
  intro q
  cases q with
  | nil =>
    intro l ext rec h
    simp [getAtPath] at h
  | cons i P =>
    intro l ext rec h
    cases P with
    | nil =>
      rw [getAtPath_single] at h ⊢
      have hi : i < l.length := by
        by_contra hc
        rw [List.get?_eq_none.mpr (by omega)] at h
        simp at h
      rw [List.get?_append hi]
      exact h
    | cons j rest =>
      rw [getAtPath_deep] at h ⊢
      cases hget : l.get? i with
      | none => rw [hget] at h; simp at h
      | some r =>
        rw [hget] at h
        have hi : i < l.length := by
          by_contra hc
          rw [List.get?_eq_none.mpr (by omega)] at hget
          simp at hget
        rw [List.get?_append hi, hget]
        exact h

theorem getAtPath_stable (ext : List BRec) :
    ∀ (P q : BPath) (ret : List BRec) (rec : BRec),
      getAtPath q ret = some rec →
      ∃ rec2, getAtPath q (modifyAtPath
        (fun n => BRec.node n.data n.recId (n.children ++ ext)) P ret) = some rec2 := by
  intro P
  induction P with
  | nil =>
    intro q ret rec h
    exact ⟨rec, h⟩
  | cons i P ih =>
    intro q ret rec h
    cases q with
    | nil => simp [getAtPath] at h
    | cons j Q =>
      cases P with
      | nil =>
        cases Q with
        | nil =>
          rw [getAtPath_single] at h
          rw [modifyAtPath_single, getAtPath_single, get?_modify_cases _ i h]
          exact ⟨_, rfl⟩
        | cons k qrest =>
          rw [getAtPath_deep] at h
          cases hget : ret.get? j with
          | none => rw [hget] at h; simp at h
          | some r =>
            rw [hget] at h
            dsimp only at h
            rw [modifyAtPath_single, getAtPath_deep, get?_modify_cases _ i hget]
            by_cases he : i = j
            · simp only [if_pos he]
              dsimp only [BRec.children]
              exact ⟨rec, getAtPath_append _ _ _ _ h⟩
            · simp only [if_neg he]
              exact ⟨rec, h⟩
      | cons p2 prest =>
        cases Q with
        | nil =>
          rw [getAtPath_single] at h
          rw [modifyAtPath_deep, getAtPath_single, get?_modify_cases _ i h]
          exact ⟨_, rfl⟩
        | cons k qrest =>
          rw [getAtPath_deep] at h
          cases hget : ret.get? j with
          | none => rw [hget] at h; simp at h
          | some r =>
            rw [hget] at h
            dsimp only at h
            rw [modifyAtPath_deep, getAtPath_deep, get?_modify_cases _ i hget]
            by_cases he : i = j
            · simp only [if_pos he]
              dsimp only [BRec.children]
              exact ih (k :: qrest) r.children rec h
            · simp only [if_neg he]
              exact ⟨rec, h⟩

theorem modifyAtPath_length (f : BRec → BRec) :
    ∀ (P : BPath) (ret : List BRec),
      (modifyAtPath f P ret).length = ret.length := by
  intro P ret
  cases P with
  | nil => rfl
  | cons i Q =>
    cases Q with
    | nil => exact modify_length _ _ _
    | cons j rest => exact modify_length _ _ _

/-! ## Field cleanliness of dumped records -/

theorem lookupField_filter_none {l : List (String × Int)} {k : String}
    (p : String × Int → Bool) (h : lookupField l k = none) :
    lookupField (l.filter p) k = none := by
  induction l with
  | nil => rfl
  | cons e t ih =>
    obtain ⟨k1, v⟩ := e
    unfold lookupField at h
    by_cases hk : k1 = k
    · rw [if_pos hk] at h
      simp at h
    · rw [if_neg hk] at h
      rw [List.filter_cons]
      split
      · unfold lookupField
        rw [if_neg hk]
        exact ih h
      · exact ih h

theorem delField_of_absent {l : List (String × Int)} {k : String}
    (h : lookupField l k = none) : delField k l = l := by
  induction l with
  | nil => rfl
  | cons e t ih =>
    obtain ⟨k1, v⟩ := e
    unfold lookupField at h
    by_cases hk : k1 = k
    · rw [if_pos hk] at h
      simp at h
    · rw [if_neg hk] at h
      unfold delField at *
      rw [List.filter_cons, if_pos (by simp [hk])]
      rw [ih h]

theorem dumpFields_eq_payload (r : Row)
    (h1 : lookupField r.payload "lft" = none)
    (h2 : lookupField r.payload "rgt" = none)
    (h3 : lookupField r.payload "depth" = none)
    (h4 : lookupField r.payload "tree_id" = none)
    (h5 : lookupField r.payload "id" = none) :
    dumpFields r = r.payload := by
  have hda : ∀ (k : String) (a b : List (String × Int)),
      delField k (a ++ b) = delField k a ++ delField k b := by
    intro k a b
    unfold delField
    exact List.filter_append a b
  unfold dumpFields serializeFields
  rw [hda, delField_of_absent h1,
    show delField "lft" [("lft", r.lft), ("rgt", r.rgt), ("depth", r.depth),
      ("tree_id", r.tree_id)] = [("rgt", r.rgt), ("depth", r.depth),
      ("tree_id", r.tree_id)] from by simp [delField]]
  rw [hda, delField_of_absent h2,
    show delField "rgt" [("rgt", r.rgt), ("depth", r.depth), ("tree_id", r.tree_id)] =
      [("depth", r.depth), ("tree_id", r.tree_id)] from by simp [delField]]
  rw [hda, delField_of_absent h3,
    show delField "depth" [("depth", r.depth), ("tree_id", r.tree_id)] =
      [("tree_id", r.tree_id)] from by simp [delField]]
  rw [hda, delField_of_absent h4,
    show delField "tree_id" [("tree_id", r.tree_id)] = [] from by simp [delField]]
  rw [List.nil_append]
  exact delField_of_absent h5

theorem dumpFields_five (r : Row) :
    lookupField (dumpFields r) "id" = none ∧
    lookupField (dumpFields r) "lft" = none ∧
    lookupField (dumpFields r) "rgt" = none ∧
    lookupField (dumpFields r) "depth" = none ∧
    lookupField (dumpFields r) "tree_id" = none := by
  unfold dumpFields
  refine ⟨lookupField_delField _ _, ?_, ?_, ?_, ?_⟩
  · apply lookupField_filter_none
    apply lookupField_filter_none
    apply lookupField_filter_none
    apply lookupField_filter_none
    exact lookupField_delField _ _
  · apply lookupField_filter_none
    apply lookupField_filter_none
    apply lookupField_filter_none
    exact lookupField_delField _ _
  · apply lookupField_filter_none
    apply lookupField_filter_none
    exact lookupField_delField _ _
  · apply lookupField_filter_none
    exact lookupField_delField _ _

/-! ## `lnk` map reasoning -/

theorem lnkFind_cons (k : Int) (p : BPath) (t : List (Int × BPath)) (i : Int) :
    lnkFind ((k, p) :: t) i = if k = i then some p else lnkFind t i := rfl

theorem lnkFind_append_skip {A : List (Int × BPath)} {i : Int}
    (h : ∀ e ∈ A, e.1 ≠ i) (B : List (Int × BPath)) :
    lnkFind (A ++ B) i = lnkFind B i := by
  induction A with
  | nil => rfl
  | cons e t ih =>
    obtain ⟨k, p⟩ := e
    rw [List.cons_append, lnkFind_cons]
    rw [if_neg (h (k, p) (by simp))]
    exact ih (fun e he => h e (by simp [he]))

/-! ## Erasing ids is idempotent -/

mutual

theorem eraseRecIds_idem (c : BRec) :
    eraseRecIds (eraseRecIds c) = eraseRecIds c := by
  cases c with
  | node d i cs =>
    rw [eraseRecIds, eraseRecIds, eraseListIds_idem cs]
termination_by 2 * brecSize c
decreasing_by
  subst_vars
  first
    | (simp [BRec.children, brecSize, brecListSize] <;> omega)
    | omega

theorem eraseListIds_idem (cs : List BRec) :
    eraseListIds (eraseListIds cs) = eraseListIds cs := by
  cases cs with
  | nil => rfl
  | cons c t =>
    have hp := brecSize_pos c
    rw [eraseListIds, eraseListIds, eraseRecIds_idem c, eraseListIds_idem t]
termination_by 2 * brecListSize cs + 1
decreasing_by
  all_goals
    subst_vars
    first
      | (simp [brecSize, brecListSize] <;> omega)
      | omega

end

/-! ## The dump queryset of a canonical tree -/

theorem getTree_canonical {s0 : Db} {rec : BRec} {T nid : Int}
    (hsep : ∀ x ∈ s0, x.tree_id ≠ T) (hid : ∀ x ∈ s0, x.id ≠ nid) :
    getTree (s0 ++ encodeRec rec T 1 1 nid) (some (headRow rec T 1 1 nid)) =
      encodeRec rec T 1 1 nid := by
  have hsz : (brecSize rec : Int) = 1 + (brecListSize rec.children : Int) := by
    cases rec with
    | node d i cs => exact brecSize_cast d i cs
  have hS1 : (1:Int) ≤ (brecSize rec : Int) := by
    have := brecSize_pos rec
    exact_mod_cast this
  have hbb := encodeRec_bounds rec T 1 1 nid
  unfold getTree
  dsimp only
  by_cases hleaf : isLeaf (headRow rec T 1 1 nid) = true
  · -- leaf: children empty, block is a single row
    unfold isLeaf at hleaf
    rw [decide_eq_true_eq, headRow_rgt, headRow_lft] at hleaf
    have hcc : (brecListSize rec.children : Int) = 0 := by omega
    have hccn : rec.children = [] := by
      cases hc : rec.children with
      | nil => rfl
      | cons a t =>
        rw [hc] at hcc
        have := brecSize_pos a
        have h2 : (brecListSize (a :: t) : Int) =
            (brecSize a : Int) + (brecListSize t : Int) := brecListSize_cast a t
        have h3 : (0:Int) ≤ (brecListSize t : Int) := Int.natCast_nonneg _
        have h4 : (1:Int) ≤ (brecSize a : Int) := by exact_mod_cast this
        omega
    rw [if_pos (by unfold isLeaf; rw [decide_eq_true_eq, headRow_rgt, headRow_lft]; omega)]
    rw [encodeRec_eq, hccn, encodeList, List.filter_append]
    rw [List.filter_eq_nil_iff.mpr (by
      intro x hx
      simp only [beq_iff_eq, headRow_id]
      intro hcon
      exact hid x hx hcon)]
    rw [List.nil_append, List.filter_cons]
    rw [if_pos (by simp [headRow_id])]
    rw [List.filter_nil]
    rfl
  · have hleaf' : isLeaf (headRow rec T 1 1 nid) = false := by
      cases hx : isLeaf (headRow rec T 1 1 nid)
      · rfl
      · exact absurd hx hleaf
    rw [if_neg (by rw [hleaf']; simp)]
    rw [List.filter_append]
    rw [List.filter_eq_nil_iff.mpr (by
      intro x hx
      rw [headRow_tree]
      intro hcon
      rw [decide_eq_true_eq] at hcon
      exact hsep x hx hcon.1)]
    rw [List.nil_append]
    rw [List.filter_eq_self.mpr (by
      intro x hx
      have hb := hbb x hx
      rw [headRow_tree, headRow_lft, headRow_rgt, decide_eq_true_eq]
      exact ⟨hb.1, hb.2.1, by omega⟩)]
    exact sorted_strict_unique (dfsSort_perm _) (dfsSort_sorted _)
      (encodeRec_pairwise rec T 1 1 nid)

/-! ## The parent query inside the dump fold -/

theorem dump_getParent {sF : Db} {T : Int} {c : BRec} {pos dep nid : Int} {par : Row}
    (hctx : DumpCtxR sF T c pos dep nid par) :
    getParent sF (headRow c T pos dep nid) = some par := by
  have hpos2 := hctx.pos2
  have hS1 : (1:Int) ≤ (brecSize c : Int) := by
    have := brecSize_pos c
    exact_mod_cast this
  have hroot : isRoot (headRow c T pos dep nid) = false := by
    unfold isRoot
    rw [decide_eq_false_iff_not, headRow_lft]
    omega
  apply getParent_eq hroot hctx.parMem
  · unfold ancB
    rw [decide_eq_true_eq, headRow_tree, headRow_lft, headRow_rgt]
    exact ⟨hctx.parTree, hctx.parL, by have := hctx.parR; omega⟩
  · intro x hx hax
    unfold ancB at hax
    rw [decide_eq_true_eq, headRow_tree, headRow_lft, headRow_rgt] at hax
    have hxt : x.tree_id = T := hax.1
    refine ⟨hxt.trans hctx.parTree.symm, ?_⟩
    rcases hctx.cls x hx hxt with h | h | h | h | h
    · exfalso
      have := hax.2.2
      omega
    · exfalso
      have := hax.2.1
      omega
    · exfalso
      have := hax.2.1
      omega
    · exact Or.inl h
    · exact Or.inr h.1

theorem modify_ident {α : Type} {f : α → α} (hf : ∀ a, f a = a) (i : Nat) (l : List α) :
    l.modify f i = l := by
  induction l generalizing i with
  | nil => rw [modify_nil]
  | cons x t ih =>
    cases i with
    | zero => rw [modify_cons_zero, hf]
    | succ i => rw [modify_cons_succ, ih]

theorem modifyAtPath_ident {f : BRec → BRec} (hf : ∀ a, f a = a) (P : BPath)
    (ret : List BRec) : modifyAtPath f P ret = ret := by
  cases P with
  | nil => rfl
  | cons i Q =>
    cases Q with
    | nil => exact modify_ident hf i ret
    | cons j rest =>
      rw [modifyAtPath_deep]
      apply modify_ident
      intro a
      rw [modifyAtPath_ident hf (j :: rest) a.children]
      cases a
      rfl
  termination_by P.length

theorem DumpCtxR_of_cons {sF : Db} {T : Int} {c : BRec} {rest : List BRec}
    {pos dep nid : Int} {par : Row}
    (h : DumpCtx sF T (c :: rest) pos dep nid par) : DumpCtxR sF T c pos dep nid par := by
  have hS1 : (1:Int) ≤ (brecSize c : Int) := by
    have := brecSize_pos c
    exact_mod_cast this
  have hL := brecListSize_cast c rest
  have hLr : (0:Int) ≤ (brecListSize rest : Int) := Int.natCast_nonneg _
  have hPR := h.parR
  rw [hL] at hPR
  refine ⟨h.parMem, h.parTree, h.parL, by omega, h.pos2, h.dep2, ?_, ?_⟩
  · intro r hr
    apply h.blockSub
    rw [encodeList]
    exact List.mem_append.mpr (Or.inl hr)
  · intro x hx hxt
    rcases h.cls x hx hxt with hc | hc | hc | hc | hc
    · exact Or.inl hc
    · refine Or.inr (Or.inl ?_)
      rw [hL] at hc
      omega
    · obtain ⟨hc1, hc2, hc3⟩ := hc
      rw [encodeList] at hc2
      rcases List.mem_append.mp hc2 with hm | hm
      · have hb := encodeRec_bounds c T pos dep nid x hm
        exact Or.inr (Or.inr (Or.inl ⟨hc1, hm, by omega⟩))
      · have hb := encodeList_bounds rest T (pos + 2 * (brecSize c : Int)) dep
          (nid + (brecSize c : Int)) x hm
        refine Or.inr (Or.inl ?_)
        omega
    · exact Or.inr (Or.inr (Or.inr (Or.inl hc)))
    · refine Or.inr (Or.inr (Or.inr (Or.inr ⟨hc.1, ?_⟩)))
      have := hc.2
      rw [hL] at this
      omega

theorem DumpCtx_advance {sF : Db} {T : Int} {c : BRec} {rest : List BRec}
    {pos dep nid : Int} {par : Row}
    (h : DumpCtx sF T (c :: rest) pos dep nid par) :
    DumpCtx sF T rest (pos + 2 * (brecSize c : Int)) dep (nid + (brecSize c : Int)) par := by
  have hS1 : (1:Int) ≤ (brecSize c : Int) := by
    have := brecSize_pos c
    exact_mod_cast this
  have hL := brecListSize_cast c rest
  have hPR := h.parR
  rw [hL] at hPR
  refine ⟨h.parMem, h.parTree, by have := h.parL; omega, by omega,
    by have := h.pos2; omega, h.dep2, ?_, ?_⟩
  · intro r hr
    apply h.blockSub
    rw [encodeList]
    exact List.mem_append.mpr (Or.inr hr)
  · intro x hx hxt
    rcases h.cls x hx hxt with hc | hc | hc | hc | hc
    · refine Or.inl ?_
      omega
    · refine Or.inr (Or.inl ?_)
      rw [hL] at hc
      omega
    · obtain ⟨hc1, hc2, hc3⟩ := hc
      rw [encodeList] at hc2
      rcases List.mem_append.mp hc2 with hm | hm
      · have hb := encodeRec_bounds c T pos dep nid x hm
        refine Or.inl ?_
        omega
      · have hb := encodeList_bounds rest T (pos + 2 * (brecSize c : Int)) dep
          (nid + (brecSize c : Int)) x hm
        refine Or.inr (Or.inr (Or.inl ⟨by omega, hm, by omega⟩))
    · exact Or.inr (Or.inr (Or.inr (Or.inl hc)))
    · refine Or.inr (Or.inr (Or.inr (Or.inr ⟨hc.1, ?_⟩)))
      have := hc.2
      rw [hL] at this
      omega

theorem DumpCtx_descend {sF : Db} {T : Int} {c : BRec} {pos dep nid : Int} {par : Row}
    (h : DumpCtxR sF T c pos dep nid par) :
    DumpCtx sF T c.children (pos + 1) (dep + 1) (nid + 1) (headRow c T pos dep nid) := by
  have hsz : (brecSize c : Int) = 1 + (brecListSize c.children : Int) := by
    cases c with
    | node d i cs => exact brecSize_cast d i cs
  have hLcc : (0:Int) ≤ (brecListSize c.children : Int) := Int.natCast_nonneg _
  have hheadmem : headRow c T pos dep nid ∈ sF := by
    apply h.blockSub
    rw [encodeRec_eq]
    exact List.mem_cons_self _ _
  refine ⟨hheadmem, headRow_tree c T pos dep nid, by rw [headRow_lft]; omega,
    by rw [headRow_rgt]; omega, by have := h.pos2; omega, by have := h.dep2; omega,
    ?_, ?_⟩
  · intro r hr
    apply h.blockSub
    rw [encodeRec_eq]
    exact List.mem_cons_of_mem _ hr
  · intro x hx hxt
    rcases h.cls x hx hxt with hc | hc | hc | hc | hc
    · refine Or.inl ?_
      omega
    · refine Or.inr (Or.inl ?_)
      omega
    · obtain ⟨hc1, hc2, hc3⟩ := hc
      rw [encodeRec_eq] at hc2
      rcases List.mem_cons.mp hc2 with hm | hm
      · exact Or.inr (Or.inr (Or.inr (Or.inl hm)))
      · have hb := encodeList_bounds c.children T (pos + 1) (dep + 1) (nid + 1) x hm
        exact Or.inr (Or.inr (Or.inl ⟨by omega, hm, by omega⟩))
    · subst hc
      refine Or.inr (Or.inr (Or.inr (Or.inr ⟨?_, ?_⟩)))
      · rw [headRow_lft]
        exact h.parL
      · have := h.parR
        omega
    · refine Or.inr (Or.inr (Or.inr (Or.inr ⟨?_, ?_⟩)))
      · rw [headRow_lft]
        have := h.parL
        omega
      · have := hc.2
        omega

mutual

theorem dumpRec_fold (c : BRec) (sF : Db) (T pos dep nid : Int) (par p0 : Row)
    (ret : List BRec) (lnk : List (Int × BPath)) (ppath : BPath) (prec : BRec)
    (hctx : DumpCtxR sF T c pos dep nid par)
    (hclean : recClean c = true)
    (hpd : p0.depth < dep)
    (hparid : par.id < nid)
    (hlf : lnkFind lnk par.id = some ppath)
    (hget : getAtPath ppath ret = some prec) :
    ∃ lnkNew,
      (encodeRec c T pos dep nid).foldl (dumpStep sF (some p0) false) (some (ret, lnk)) =
        some (modifyAtPath
          (fun q => BRec.node q.data q.recId (q.children ++ [eraseRecIds c])) ppath ret,
          lnkNew ++ lnk) ∧
      ∀ e ∈ lnkNew, nid ≤ e.1 := by
  cases c with
  | node d i0 cc =>
    obtain ⟨hf1, hf2, hf3, hf4, hf5, hccClean⟩ := recClean_node hclean
    have hdf : dumpFields (headRow (BRec.node d i0 cc) T pos dep nid) = d := by
      have := dumpFields_eq_payload (headRow (BRec.node d i0 cc) T pos dep nid)
      rw [headRow_payload] at this
      exact this hf2 hf3 hf4 hf5 hf1
    rw [encodeRec_eq]
    rw [show (BRec.node d i0 cc).children = cc from rfl]
    rw [List.foldl_cons]
    have hstep : dumpStep sF (some p0) false (some (ret, lnk))
        (headRow (BRec.node d i0 cc) T pos dep nid) =
        some (modifyAtPath
          (fun q => BRec.node q.data q.recId (q.children ++ [BRec.node d none []]))
          ppath ret,
          (nid, ppath ++ [prec.children.length]) :: lnk) := by
      unfold dumpStep
      dsimp only
      rw [if_neg Bool.false_ne_true]
      rw [if_neg (by
        rw [decide_eq_true_eq, headRow_depth]
        omega)]
      rw [dump_getParent hctx]
      dsimp only
      rw [hlf]
      dsimp only
      rw [hget]
      dsimp only
      rw [hdf, headRow_id]
    rw [hstep]
    have hctx2 := DumpCtx_descend hctx
    dsimp only [BRec.children] at hctx2
    have hg3 := getAtPath_modifyAtPath_same
      (f := fun q => BRec.node q.data q.recId (q.children ++ [BRec.node d none []]))
      ppath ret prec hget
    have hget2 : getAtPath (ppath ++ [prec.children.length])
        (modifyAtPath
          (fun q => BRec.node q.data q.recId (q.children ++ [BRec.node d none []]))
          ppath ret) = some (BRec.node d none []) := by
      rw [getAtPath_snoc _ _ _ _ hg3]
      dsimp only [BRec.children]
      exact List.get?_concat_length _ _
    have hlf2 : lnkFind ((nid, ppath ++ [prec.children.length]) :: lnk)
        (headRow (BRec.node d i0 cc) T pos dep nid).id =
        some (ppath ++ [prec.children.length]) := by
      rw [headRow_id, lnkFind_cons, if_pos rfl]
    obtain ⟨lnkNew2, hfold2, hkeys2⟩ := dumpList_fold cc sF T (pos + 1) (dep + 1) (nid + 1)
      (headRow (BRec.node d i0 cc) T pos dep nid) p0 _ _
      (ppath ++ [prec.children.length]) (BRec.node d none []) hctx2 hccClean
      (by omega) (by rw [headRow_id]; omega) hlf2 hget2
    rw [hfold2]
    refine ⟨lnkNew2 ++ [(nid, ppath ++ [prec.children.length])], ?_, ?_⟩
    · have hstate : modifyAtPath
          (fun q => BRec.node q.data q.recId (q.children ++ eraseListIds cc))
          (ppath ++ [prec.children.length])
          (modifyAtPath
            (fun q => BRec.node q.data q.recId (q.children ++ [BRec.node d none []]))
            ppath ret) =
          modifyAtPath
            (fun q => BRec.node q.data q.recId
              (q.children ++ [eraseRecIds (BRec.node d i0 cc)])) ppath ret := by
        rw [modifyAtPath_snoc _ _ _ _ _ hg3]
        rw [modifyAtPath_compose]
        apply modifyAtPath_congr ppath ret prec hget
        dsimp only [BRec.children, BRec.data, BRec.recId]
        rw [modify_append_length]
        rw [eraseRecIds]
        dsimp only [BRec.children, BRec.data, BRec.recId]
        rw [List.nil_append]
      rw [hstate]
      rw [List.append_assoc, List.singleton_append]
    · intro e he
      rcases List.mem_append.mp he with hm | hm
      · have := hkeys2 e hm
        omega
      · rw [List.mem_singleton] at hm
        subst hm
        exact le_refl _
termination_by 2 * brecSize c
decreasing_by
  all_goals
    subst_vars
    first
      | (simp [BRec.children, brecSize, brecListSize] <;> omega)
      | omega

theorem dumpList_fold (cs : List BRec) (sF : Db) (T pos dep nid : Int) (par p0 : Row)
    (ret : List BRec) (lnk : List (Int × BPath)) (ppath : BPath) (prec : BRec)
    (hctx : DumpCtx sF T cs pos dep nid par)
    (hclean : listClean cs = true)
    (hpd : p0.depth < dep)
    (hparid : par.id < nid)
    (hlf : lnkFind lnk par.id = some ppath)
    (hget : getAtPath ppath ret = some prec) :
    ∃ lnkNew,
      (encodeList cs T pos dep nid).foldl (dumpStep sF (some p0) false) (some (ret, lnk)) =
        some (modifyAtPath
          (fun q => BRec.node q.data q.recId (q.children ++ eraseListIds cs)) ppath ret,
          lnkNew ++ lnk) ∧
      ∀ e ∈ lnkNew, nid ≤ e.1 := by
  cases cs with
  | nil =>
    refine ⟨[], ?_, by simp⟩
    rw [encodeList, List.foldl_nil, List.nil_append, eraseListIds]
    rw [modifyAtPath_ident (by
      intro a
      rw [List.append_nil]
      cases a
      rfl)]
  | cons c rest =>
    have hp := brecSize_pos c
    have hS1 : (1:Int) ≤ (brecSize c : Int) := by exact_mod_cast hp
    obtain ⟨hcClean, hrestClean⟩ := listClean_cons hclean
    rw [encodeList, List.foldl_append]
    obtain ⟨lnkNew1, hfold1, hkeys1⟩ := dumpRec_fold c sF T pos dep nid par p0
      ret lnk ppath prec (DumpCtxR_of_cons hctx) hcClean hpd hparid hlf hget
    rw [hfold1]
    have hlf2 : lnkFind (lnkNew1 ++ lnk) par.id = some ppath := by
      rw [lnkFind_append_skip (fun e he => by
        have := hkeys1 e he
        omega) lnk]
      exact hlf
    have hget2 := getAtPath_modifyAtPath_same
      (f := fun q => BRec.node q.data q.recId (q.children ++ [eraseRecIds c]))
      ppath ret prec hget
    obtain ⟨lnkNew2, hfold2, hkeys2⟩ := dumpList_fold rest sF T
      (pos + 2 * (brecSize c : Int)) dep (nid + (brecSize c : Int)) par p0 _ _
      ppath _ (DumpCtx_advance hctx) hrestClean hpd (by omega) hlf2 hget2
    rw [hfold2]
    refine ⟨lnkNew2 ++ lnkNew1, ?_, ?_⟩
    · rw [modifyAtPath_compose, List.append_assoc]
      have hfn : (fun (x : BRec) => BRec.node
            (BRec.node x.data x.recId (x.children ++ [eraseRecIds c])).data
            (BRec.node x.data x.recId (x.children ++ [eraseRecIds c])).recId
            ((BRec.node x.data x.recId (x.children ++ [eraseRecIds c])).children ++
              eraseListIds rest)) =
          (fun q => BRec.node q.data q.recId (q.children ++ eraseListIds (c :: rest))) := by
        funext q
        dsimp only [BRec.children, BRec.data, BRec.recId]
        rw [eraseListIds]
        rw [List.append_assoc, List.singleton_append]
      rw [hfn]
    · intro e he
      rcases List.mem_append.mp he with hm | hm
      · have := hkeys2 e hm
        omega
      · exact hkeys1 e hm
termination_by 2 * brecListSize cs + 1
decreasing_by
  all_goals
    subst_vars
    first
      | (simp [brecSize, brecListSize] <;> omega)
      | omega

end

theorem dump_of_canonical {s0 : Db} {rec : BRec} {T nid : Int}
    (hsep : ∀ x ∈ s0, x.tree_id ≠ T)
    (hid : ∀ x ∈ s0, x.id < nid)
    (hclean : recClean rec = true) :
    dump_bulk (s0 ++ encodeRec rec T 1 1 nid) (some (headRow rec T 1 1 nid)) false =
      some [eraseRecIds rec] := by
  cases rec with
  | node d i0 cc =>
    obtain ⟨hf1, hf2, hf3, hf4, hf5, hccClean⟩ := recClean_node hclean
    have hsz : (brecSize (BRec.node d i0 cc) : Int) = 1 + (brecListSize cc : Int) :=
      brecSize_cast d i0 cc
    have hLcc : (0:Int) ≤ (brecListSize cc : Int) := Int.natCast_nonneg _
    have hdf : dumpFields (headRow (BRec.node d i0 cc) T 1 1 nid) = d := by
      have := dumpFields_eq_payload (headRow (BRec.node d i0 cc) T 1 1 nid)
      rw [headRow_payload] at this
      exact this hf2 hf3 hf4 hf5 hf1
    unfold dump_bulk
    rw [getTree_canonical hsep (fun x hx => by have := hid x hx; omega)]
    have hexp : encodeRec (BRec.node d i0 cc) T 1 1 nid =
        headRow (BRec.node d i0 cc) T 1 1 nid :: encodeList cc T 2 2 (nid + 1) := by
      rw [encodeRec_eq, show (BRec.node d i0 cc).children = cc from rfl]
      norm_num
    rw [hexp]
    rw [List.foldl_cons]
    have hstep1 : dumpStep
        (s0 ++ (headRow (BRec.node d i0 cc) T 1 1 nid :: encodeList cc T 2 2 (nid + 1)))
        (some (headRow (BRec.node d i0 cc) T 1 1 nid)) false (some ([], []))
        (headRow (BRec.node d i0 cc) T 1 1 nid) =
        some ([BRec.node d none []], [(nid, [0])]) := by
      unfold dumpStep
      dsimp only
      rw [if_neg Bool.false_ne_true]
      rw [if_pos (by rw [decide_eq_true_eq])]
      rw [hdf, headRow_id]
      rfl
    rw [hstep1]
    have hctx : DumpCtx
        (s0 ++ (headRow (BRec.node d i0 cc) T 1 1 nid :: encodeList cc T 2 2 (nid + 1)))
        T cc 2 2 (nid + 1) (headRow (BRec.node d i0 cc) T 1 1 nid) := by
      refine ⟨?_, headRow_tree _ _ _ _ _, by rw [headRow_lft]; omega,
        by rw [headRow_rgt]; omega, le_refl _, le_refl _, ?_, ?_⟩
      · exact List.mem_append.mpr (Or.inr (List.mem_cons_self _ _))
      · intro r hr
        exact List.mem_append.mpr (Or.inr (List.mem_cons_of_mem _ hr))
      · intro x hx hxt
        rcases List.mem_append.mp hx with hm | hm
        · exact absurd hxt (hsep x hm)
        · rcases List.mem_cons.mp hm with hm2 | hm2
          · exact Or.inr (Or.inr (Or.inr (Or.inl hm2)))
          · have hb := encodeList_bounds cc T 2 2 (nid + 1) x hm2
            exact Or.inr (Or.inr (Or.inl ⟨by omega, hm2, by omega⟩))
    obtain ⟨lnkNew, hfold, _⟩ := dumpList_fold cc
      (s0 ++ (headRow (BRec.node d i0 cc) T 1 1 nid :: encodeList cc T 2 2 (nid + 1)))
      T 2 2 (nid + 1)
      (headRow (BRec.node d i0 cc) T 1 1 nid) (headRow (BRec.node d i0 cc) T 1 1 nid)
      [BRec.node d none []] [(nid, [0])] [0] (BRec.node d none []) hctx hccClean
      (by rw [headRow_depth]; omega) (by rw [headRow_id]; omega)
      (by rw [headRow_id, lnkFind_cons, if_pos rfl]) (by rw [getAtPath_single]; rfl)
    rw [hfold]
    rw [Option.map_some']
    dsimp only
    rw [modifyAtPath_single, modify_cons_zero]
    rw [show (BRec.node (BRec.node d none []).data (BRec.node d none []).recId
        ((BRec.node d none []).children ++ eraseListIds cc)) =
      eraseRecIds (BRec.node d i0 cc) from by
        rw [eraseRecIds]
        rfl]

/-! ## Cleanliness of the dump accumulator on a valid state -/

theorem listClean_append {g1 g2 : List BRec}
    (h1 : listClean g1 = true) (h2 : listClean g2 = true) :
    listClean (g1 ++ g2) = true := by
  induction g1 with
  | nil => simpa using h2
  | cons c t ih =>
    simp only [listClean, Bool.and_eq_true, List.cons_append] at h1 ⊢
    exact ⟨h1.1, ih h1.2⟩

theorem listClean_modify {f : BRec → BRec}
    (hf : ∀ q, recClean q = true → recClean (f q) = true) :
    ∀ (g : List BRec) (i : Nat), listClean g = true →
      listClean (g.modify f i) = true := by
  intro g
  induction g with
  | nil => intro i h; simpa using h
  | cons c t ih =>
    intro i h
    simp only [listClean, Bool.and_eq_true] at h
    cases i with
    | zero =>
      simp only [List.modify_zero_cons, listClean, Bool.and_eq_true]
      exact ⟨hf c h.1, h.2⟩
    | succ n =>
      simp only [List.modify_succ_cons, listClean, Bool.and_eq_true]
      exact ⟨h.1, ih n h.2⟩

theorem listClean_modifyAtPath {n : BRec} (hn : recClean n = true) :
    ∀ (path : BPath) (g : List BRec), listClean g = true →
      listClean (modifyAtPath
        (fun q => BRec.node q.data q.recId (q.children ++ [n])) path g) = true := by
  intro path
  induction path with
  | nil => intro g hg; simpa [modifyAtPath] using hg
  | cons i rest ih =>
    intro g hg
    cases rest with
    | nil =>
      simp only [modifyAtPath]
      refine listClean_modify ?_ g i hg
      intro q hq
      cases q with
      | node d ri cs =>
        simp only [recClean, Bool.and_eq_true, BRec.data, BRec.recId, BRec.children] at hq ⊢
        exact ⟨hq.1, listClean_append hq.2 (by simp [listClean, hn])⟩
    | cons j rest2 =>
      simp only [modifyAtPath]
      refine listClean_modify ?_ g i hg
      intro q hq
      cases q with
      | node d ri cs =>
        simp only [recClean, Bool.and_eq_true, BRec.data, BRec.recId, BRec.children] at hq ⊢
        exact ⟨hq.1, ih cs hq.2⟩

theorem recClean_dump (r : Row) (oid : Option Int) :
    recClean (BRec.node (dumpFields r) oid []) = true := by
  have h5 := dumpFields_five r
  simp [recClean, listClean, BRec.data, BRec.children]
  exact ⟨h5.1, h5.2.1, h5.2.2.1, h5.2.2.2.1, h5.2.2.2.2⟩

/-! ## Counting ancestors -/

theorem length_filter_le_of_imp {α : Type} {p q : α → Bool} :
    ∀ (l : List α), (∀ a ∈ l, p a = true → q a = true) →
      (l.filter p).length ≤ (l.filter q).length := by
  intro l
  induction l with
  | nil => intro _; simp
  | cons a t ih =>
    intro h
    rw [List.filter_cons, List.filter_cons]
    have iht := ih (fun x hx => h x (List.mem_cons_of_mem a hx))
    cases hp : p a with
    | true =>
      rw [h a (by simp) hp]
      simp
      omega
    | false =>
      simp only [Bool.false_eq_true, if_false]
      cases hq : q a with
      | true =>
        simp
        omega
      | false =>
        simp only [Bool.false_eq_true, if_false]
        exact iht

theorem length_filter_lt {α : Type} {p q : α → Bool} {w : α} :
    ∀ (l : List α), (∀ a ∈ l, p a = true → q a = true) →
      w ∈ l → q w = true → p w = false →
      (l.filter p).length < (l.filter q).length := by
  intro l
  induction l with
  | nil => intro _ hw; simp at hw
  | cons a t ih =>
    intro h hw hwq hwp
    rw [List.filter_cons, List.filter_cons]
    have himp : ∀ x ∈ t, p x = true → q x = true :=
      fun x hx => h x (List.mem_cons_of_mem a hx)
    rcases List.mem_cons.mp hw with he | hm
    · subst he
      rw [hwp, hwq]
      have := length_filter_le_of_imp t himp
      simp
      omega
    · have iht := ih himp hm hwq hwp
      cases hp : p a with
      | true =>
        rw [h a (by simp) hp]
        simp
        omega
      | false =>
        simp only [Bool.false_eq_true, if_false]
        cases hq : q a with
        | true =>
          simp
          omega
        | false =>
          simp only [Bool.false_eq_true, if_false]
          exact iht

/-! ## Unique row per primary key -/

theorem filter_by_id {s : Db} {r : Row} (hnodup : (s.map (·.id)).Nodup)
    (hr : r ∈ s) : s.filter (fun x => x.id == r.id) = [r] := by
  induction s with
  | nil => simp at hr
  | cons a t ih =>
    rw [List.map_cons, List.nodup_cons] at hnodup
    rw [List.filter_cons]
    rcases List.mem_cons.mp hr with he | hm
    · subst he
      rw [if_pos (by simp)]
      congr 1
      rw [List.filter_eq_nil_iff]
      intro x hx
      simp only [beq_iff_eq]
      intro hcon
      exact hnodup.1 (hcon ▸ List.mem_map.mpr ⟨x, hx, rfl⟩)
    · have hne : (a.id == r.id) = false := by
        simp only [beq_eq_false_iff_ne, ne_eq]
        intro hcon
        exact hnodup.1 (hcon ▸ List.mem_map.mpr ⟨r, hm, rfl⟩)
      rw [hne]
      simp only [Bool.false_eq_true, if_false]
      exact ih hnodup.2 hm

theorem id_inj {s : Db} (hnodup : (s.map (·.id)).Nodup) :
    ∀ x ∈ s, ∀ y ∈ s, x.id = y.id → x = y := by
  induction s with
  | nil => intro x hx; simp at hx
  | cons a t ih =>
    rw [List.map_cons, List.nodup_cons] at hnodup
    intro x hx y hy he
    rcases List.mem_cons.mp hx with hex | hmx <;> rcases List.mem_cons.mp hy with hey | hmy
    · rw [hex, hey]
    · subst hex
      exact absurd (he ▸ List.mem_map.mpr ⟨y, hmy, rfl⟩) hnodup.1
    · subst hey
      exact absurd (he ▸ List.mem_map.mpr ⟨x, hmx, rfl⟩) hnodup.1
    · exact ih hnodup.2 x hmx y hmy he

theorem dump_fold_steps (s : Db) (r : Row)
    (hnodup : (s.map (fun x => x.id)).Nodup)
    (hroot : r.lft = 1)
    (hrs : r ∈ s)
    (hbasic : ∀ x ∈ s, x.lft < x.rgt)
    (hpair : ∀ a ∈ s, ∀ b ∈ s, a.id = b.id ∨ a.tree_id ≠ b.tree_id ∨
      (a.lft < b.lft ∧ b.rgt < a.rgt) ∨ (b.lft < a.lft ∧ a.rgt < b.rgt) ∨
      a.rgt < b.lft ∨ b.rgt < a.lft)
    (hdepth : ∀ x ∈ s, x.depth =
      ((s.filter (fun a => decide (a.tree_id = x.tree_id ∧ a.lft < x.lft ∧
        x.rgt < a.rgt))).length : Int) + 1) :
    ∀ (rem : List Row), List.Pairwise dfsLT rem →
      (∀ z ∈ rem, z ∈ s ∧ z.tree_id = r.tree_id ∧ r.lft ≤ z.lft ∧ z.lft ≤ r.rgt - 1) →
      (∀ z ∈ rem, z ≠ r) →
      ∀ (X : List Row) (ret : List BRec) (lnk : List (Int × BPath)),
      (∀ z ∈ X, z ∈ s) →
      (∀ z ∈ X, ∀ w ∈ rem, dfsLT z w) →
      (∀ z ∈ s, z.tree_id = r.tree_id → r.lft ≤ z.lft → z.lft ≤ r.rgt - 1 →
        z ∈ X ∨ z ∈ rem) →
      FoldInv X ret lnk →
      ∃ ret2 lnk2,
        rem.foldl (dumpStep s (some r) false) (some (ret, lnk)) = some (ret2, lnk2) ∧
        FoldInv (X ++ rem) ret2 lnk2 := by
  intro rem
  induction rem with
  | nil =>
    intro _ _ _ X ret lnk _ _ _ hFI
    refine ⟨ret, lnk, rfl, ?_⟩
    rw [List.append_nil]
    exact hFI
  | cons y rem' ih =>
    intro hpw hin hner X ret lnk hXs hord hcov hFI
    obtain ⟨hys, hyt, hylb, hyub⟩ := hin y (List.mem_cons_self _ _)
    have hyner : y ≠ r := hner y (List.mem_cons_self _ _)
    have hybasic := hbasic y hys
    have hnest : r.lft < y.lft ∧ y.rgt < r.rgt := by
      rcases hpair r hrs y hys with h | h | h | h | h | h
      · exact absurd (id_inj hnodup r hrs y hys h).symm hyner
      · exact absurd hyt.symm h
      · exact h
      · omega
      · omega
      · omega
    have hdep_ne : ¬ (y.depth = r.depth) := by
      have hlen := length_filter_lt (p := fun a => decide (a.tree_id = r.tree_id ∧
          a.lft < r.lft ∧ r.rgt < a.rgt))
        (q := fun a => decide (a.tree_id = y.tree_id ∧ a.lft < y.lft ∧ y.rgt < a.rgt))
        (w := r) s
        (by
          intro a _ hp
          rw [decide_eq_true_eq] at hp
          rw [decide_eq_true_eq]
          exact ⟨hp.1.trans hyt.symm, by omega, by omega⟩)
        hrs
        (by rw [decide_eq_true_eq]; exact ⟨hyt.symm, hnest.1, hnest.2⟩)
        (by rw [decide_eq_false_iff_not]; intro hc; omega)
      have h1 := hdepth y hys
      have h2 := hdepth r hrs
      intro hcon
      rw [hcon, h2] at h1
      omega
    have hyroot : isRoot y = false := by
      unfold isRoot
      rw [decide_eq_false_iff_not]
      omega
    have hrin : r ∈ s.filter (fun a => decide (a.tree_id = y.tree_id ∧ a.lft < y.lft ∧
        a.rgt > y.rgt)) := by
      rw [List.mem_filter]
      exact ⟨hrs, by rw [decide_eq_true_eq]; exact ⟨hyt.symm, hnest.1, hnest.2⟩⟩
    have hganc : getAncestors s y = dfsSort (s.filter (fun a =>
        decide (a.tree_id = y.tree_id ∧ a.lft < y.lft ∧ a.rgt > y.rgt))) := by
      unfold getAncestors
      rw [hyroot]
      simp
    obtain ⟨pobj, hgl⟩ : ∃ pobj, (dfsSort (s.filter (fun a =>
        decide (a.tree_id = y.tree_id ∧ a.lft < y.lft ∧ a.rgt > y.rgt)))).getLast? =
        some pobj := by
      cases hgl : (dfsSort (s.filter (fun a => decide (a.tree_id = y.tree_id ∧
          a.lft < y.lft ∧ a.rgt > y.rgt)))).getLast? with
      | none =>
        rw [List.getLast?_eq_none_iff] at hgl
        have := mem_dfsSort.mpr hrin
        rw [hgl] at this
        simp at this
      | some pobj => exact ⟨pobj, rfl⟩
    have hgp : getParent s y = some pobj := by
      unfold getParent
      rw [hyroot]
      simp only [Bool.false_eq_true, if_false]
      rw [hganc, hgl]
    have hpmem : pobj ∈ s.filter (fun a => decide (a.tree_id = y.tree_id ∧
        a.lft < y.lft ∧ a.rgt > y.rgt)) :=
      mem_dfsSort.mp (List.mem_of_getLast?_eq_some hgl)
    have hpfact := List.mem_filter.mp hpmem
    have hpprops := decide_eq_true_eq.mp hpfact.2
    have hplft : r.lft ≤ pobj.lft := by
      rcases sorted_rel_getLast? (dfsSort_sorted _) (mem_dfsSort.mpr hrin) hgl with he | hle
      · rw [he]
      · unfold dfsLe at hle
        have := hpprops.1
        omega
    have hpX : pobj ∈ X := by
      have := hcov pobj hpfact.1 (hpprops.1.trans hyt) hplft (by
        have := hpprops.2.1
        omega)
      rcases this with h | h
      · exact h
      · rcases List.mem_cons.mp h with he | hm
        · exfalso
          have := hpprops.2.1
          rw [he] at this
          omega
        · exfalso
          have h1 := (List.pairwise_cons.mp hpw).1 pobj hm
          have h2 := hpprops.2.1
          have h3 := hpprops.1
          unfold dfsLT at h1
          omega
    obtain ⟨path, prec, hlfp, hgat⟩ := hFI.dom pobj hpX
    rw [List.foldl_cons]
    have hstep : dumpStep s (some r) false (some (ret, lnk)) y =
        some (modifyAtPath (fun q => BRec.node q.data q.recId
            (q.children ++ [BRec.node (dumpFields y) none []])) path ret,
          (y.id, path ++ [prec.children.length]) :: lnk) := by
      unfold dumpStep
      dsimp only
      rw [if_neg Bool.false_ne_true]
      rw [if_neg (by rw [decide_eq_true_eq]; exact hdep_ne)]
      rw [hgp]
      dsimp only
      rw [hlfp]
      dsimp only
      rw [hgat]
    rw [hstep]
    have hg3 := getAtPath_modifyAtPath_same
      (f := fun q => BRec.node q.data q.recId
        (q.children ++ [BRec.node (dumpFields y) none []])) path ret prec hgat
    have hFI2 : FoldInv (X ++ [y])
        (modifyAtPath (fun q => BRec.node q.data q.recId
          (q.children ++ [BRec.node (dumpFields y) none []])) path ret)
        ((y.id, path ++ [prec.children.length]) :: lnk) := by
      refine ⟨?_, ?_, ?_⟩
      · rw [modifyAtPath_length]
        exact hFI.len1
      · exact listClean_modifyAtPath (recClean_dump y none) path ret hFI.clean
      · intro x hx
        rcases List.mem_append.mp hx with hm | hm
        · obtain ⟨px, rx, h1, h2⟩ := hFI.dom x hm
          have hne : ¬ (y.id = x.id) := by
            intro hcon
            have := id_inj hnodup y hys x (hXs x hm) hcon
            have hdLT := hord x hm y (List.mem_cons_self _ _)
            rw [← this] at hdLT
            unfold dfsLT at hdLT
            omega
          refine ⟨px, ?_⟩
          rw [lnkFind_cons, if_neg hne]
          obtain ⟨rec2, hrec2⟩ := getAtPath_stable [BRec.node (dumpFields y) none []]
            path px ret rx h2
          exact ⟨rec2, h1, hrec2⟩
        · rw [List.mem_singleton] at hm
          subst hm
          refine ⟨path ++ [prec.children.length], BRec.node (dumpFields x) none [], ?_, ?_⟩
          · rw [lnkFind_cons, if_pos rfl]
          · rw [getAtPath_snoc _ _ _ _ hg3]
            dsimp only [BRec.children]
            exact List.get?_concat_length _ _
    obtain ⟨ret2, lnk2, hfold, hFIfin⟩ := ih (List.Pairwise.of_cons hpw)
      (fun z hz => hin z (List.mem_cons_of_mem _ hz))
      (fun z hz => hner z (List.mem_cons_of_mem _ hz))
      (X ++ [y]) _ _
      (by
        intro z hz
        rcases List.mem_append.mp hz with hm | hm
        · exact hXs z hm
        · rw [List.mem_singleton] at hm
          rw [hm]
          exact hys)
      (by
        intro z hz w hw
        rcases List.mem_append.mp hz with hm | hm
        · exact hord z hm w (List.mem_cons_of_mem _ hw)
        · rw [List.mem_singleton] at hm
          rw [hm]
          exact (List.pairwise_cons.mp hpw).1 w hw)
      (by
        intro z hz ht hl hu
        rcases hcov z hz ht hl hu with h | h
        · exact Or.inl (List.mem_append.mpr (Or.inl h))
        · rcases List.mem_cons.mp h with he | hm
          · exact Or.inl (List.mem_append.mpr (Or.inr (by rw [he]; simp)))
          · exact Or.inr hm)
      hFI2
    refine ⟨ret2, lnk2, hfold, ?_⟩
    rw [show X ++ y :: rem' = (X ++ [y]) ++ rem' from by
      rw [List.append_assoc, List.singleton_append]]
    exact hFIfin

theorem validState_parts {s : Db} (h : validState s = true) :
    (∀ x ∈ s, x.lft < x.rgt ∧ 1 ≤ x.depth ∧ 1 ≤ x.tree_id) ∧
    contiguousOk s = true ∧
    (∀ a ∈ s, ∀ b ∈ s, a.id = b.id ∨ a.tree_id ≠ b.tree_id ∨
      (a.lft < b.lft ∧ b.rgt < a.rgt) ∨ (b.lft < a.lft ∧ a.rgt < b.rgt) ∨
      a.rgt < b.lft ∨ b.rgt < a.lft) ∧
    (s.map (fun x => x.id)).Nodup ∧
    (∀ x ∈ s, x.depth = ((s.filter (fun a => decide (a.tree_id = x.tree_id ∧
      a.lft < x.lft ∧ x.rgt < a.rgt))).length : Int) + 1) := by
  unfold validState at h
  rw [Bool.and_eq_true, Bool.and_eq_true, Bool.and_eq_true, Bool.and_eq_true,
    Bool.and_eq_true] at h
  obtain ⟨⟨⟨⟨⟨hA, hB⟩, hC⟩, hD⟩, hE⟩, hF⟩ := h
  refine ⟨?_, hB, ?_, ?_, ?_⟩
  · intro x hx
    exact decide_eq_true_eq.mp (List.all_eq_true.mp hA x hx)
  · intro a ha b hb
    exact decide_eq_true_eq.mp (List.all_eq_true.mp (List.all_eq_true.mp hC a ha) b hb)
  · exact decide_eq_true_eq.mp hD
  · intro x hx
    exact decide_eq_true_eq.mp (List.all_eq_true.mp hE x hx)

theorem dump_of_valid (s : Db) (r : Row)
    (hv : validState s = true) (hr : r ∈ s) (hroot : isRoot r = true) :
    ∃ recF, dump_bulk s (some r) false = some [recF] ∧ recClean recF = true := by
  obtain ⟨hbasic0, hcont, hpair, hnodup, hdepth⟩ := validState_parts hv
  have hbasic : ∀ x ∈ s, x.lft < x.rgt := fun x hx => (hbasic0 x hx).1
  have hrl : r.lft = 1 := by
    unfold isRoot at hroot
    exact decide_eq_true_eq.mp hroot
  unfold dump_bulk getTree
  dsimp only
  by_cases hleaf : isLeaf r = true
  · rw [if_pos hleaf]
    rw [filter_by_id hnodup hr]
    rw [show dfsSort [r] = [r] from rfl]
    rw [List.foldl_cons, List.foldl_nil]
    have hstep : dumpStep s (some r) false (some ([], [])) r =
        some ([BRec.node (dumpFields r) none []], [(r.id, [0])]) := by
      unfold dumpStep
      dsimp only
      rw [if_neg Bool.false_ne_true]
      rw [if_pos (by rw [decide_eq_true_eq])]
      rfl
    rw [hstep, Option.map_some']
    exact ⟨BRec.node (dumpFields r) none [], rfl, recClean_dump r none⟩
  · rw [if_neg hleaf]
    have hrREG : r ∈ s.filter (fun x => decide (x.tree_id = r.tree_id ∧
        r.lft ≤ x.lft ∧ x.lft ≤ r.rgt - 1)) := by
      rw [List.mem_filter]
      refine ⟨hr, ?_⟩
      rw [decide_eq_true_eq]
      have := hbasic r hr
      exact ⟨rfl, le_refl _, by omega⟩
    have hsvalsnodup : s.Nodup := List.Nodup.of_map _ hnodup
    have hREGnodup : (s.filter (fun x => decide (x.tree_id = r.tree_id ∧
        r.lft ≤ x.lft ∧ x.lft ≤ r.rgt - 1))).Nodup := hsvalsnodup.filter _
    have hqnodup : (dfsSort (s.filter (fun x => decide (x.tree_id = r.tree_id ∧
        r.lft ≤ x.lft ∧ x.lft ≤ r.rgt - 1)))).Nodup :=
      ((dfsSort_perm _).nodup_iff).mpr hREGnodup
    have hkeys : (dfsSort (s.filter (fun x => decide (x.tree_id = r.tree_id ∧
        r.lft ≤ x.lft ∧ x.lft ≤ r.rgt - 1)))).Pairwise
        (fun a b => ¬(a.tree_id = b.tree_id ∧ a.lft = b.lft)) := by
      refine hqnodup.imp_of_mem ?_
      intro a b ha hb hne
      have has : a ∈ s := (List.mem_filter.mp (mem_dfsSort.mp ha)).1
      have hbs : b ∈ s := (List.mem_filter.mp (mem_dfsSort.mp hb)).1
      intro hcon
      rcases hpair a has b hbs with h | h | h | h | h | h
      · exact hne (id_inj hnodup a has b hbs h)
      · exact h hcon.1
      · omega
      · omega
      · have := hbasic a has
        omega
      · have := hbasic b hbs
        omega
    have hqLT : (dfsSort (s.filter (fun x => decide (x.tree_id = r.tree_id ∧
        r.lft ≤ x.lft ∧ x.lft ≤ r.rgt - 1)))).Pairwise dfsLT := by
      refine ((dfsSort_sorted _).and hkeys).imp ?_
      intro a b hab
      obtain ⟨h1, h2⟩ := hab
      unfold dfsLe at h1
      unfold dfsLT
      omega
    cases hq : dfsSort (s.filter (fun x => decide (x.tree_id = r.tree_id ∧
        r.lft ≤ x.lft ∧ x.lft ≤ r.rgt - 1))) with
    | nil =>
      have := mem_dfsSort.mpr hrREG
      rw [hq] at this
      simp at this
    | cons q0 qrest =>
      have hq0REG := List.mem_filter.mp (mem_dfsSort.mp (by
        rw [hq]
        exact List.mem_cons_self q0 qrest))
      have hq0props := decide_eq_true_eq.mp hq0REG.2
      have hq0r : q0 = r := by
        have hrq : r ∈ q0 :: qrest := by
          rw [← hq]
          exact mem_dfsSort.mpr hrREG
        rcases List.mem_cons.mp hrq with he | hm
        · exact he.symm
        · have hle := List.rel_of_sorted_cons (by
            rw [← hq]
            exact dfsSort_sorted _) r hm
          by_contra hne
          have hk : ¬(q0.tree_id = r.tree_id ∧ q0.lft = r.lft) := by
            rw [hq] at hkeys
            exact (List.pairwise_cons.mp hkeys).1 r hm
          unfold dfsLe at hle
          have h1 := hq0props.1
          have h2 := hq0props.2.1
          exact hk ⟨h1, by omega⟩
      subst hq0r
      rw [hq] at hqLT
      rw [List.foldl_cons]
      have hstep : dumpStep s (some q0) false (some ([], [])) q0 =
          some ([BRec.node (dumpFields q0) none []], [(q0.id, [0])]) := by
        unfold dumpStep
        dsimp only
        rw [if_neg Bool.false_ne_true]
        rw [if_pos (by rw [decide_eq_true_eq])]
        rfl
      rw [hstep]
      have hFI1 : FoldInv [q0] [BRec.node (dumpFields q0) none []] [(q0.id, [0])] := by
        refine ⟨rfl, by simp [listClean, recClean_dump], ?_⟩
        intro x hx
        rw [List.mem_singleton] at hx
        subst hx
        refine ⟨[0], BRec.node (dumpFields x) none [], ?_, ?_⟩
        · rw [lnkFind_cons, if_pos rfl]
        · rw [getAtPath_single]
          rfl
      obtain ⟨ret2, lnk2, hfold, hFIfin⟩ := dump_fold_steps s q0 hnodup hrl hr hbasic
        hpair hdepth qrest
        (List.Pairwise.of_cons hqLT)
        (by
          intro z hz
          have hzq : z ∈ s.filter (fun x => decide (x.tree_id = q0.tree_id ∧
              q0.lft ≤ x.lft ∧ x.lft ≤ q0.rgt - 1)) := by
            apply mem_dfsSort.mp
            rw [hq]
            exact List.mem_cons_of_mem _ hz
          have := List.mem_filter.mp hzq
          exact ⟨this.1, decide_eq_true_eq.mp this.2⟩)
        (by
          intro z hz hcon
          have := (List.pairwise_cons.mp hqLT).1 z hz
          rw [hcon] at this
          unfold dfsLT at this
          omega)
        [q0] _ _
        (by
          intro z hz
          rw [List.mem_singleton] at hz
          rw [hz]
          exact hr)
        (by
          intro z hz w hw
          rw [List.mem_singleton] at hz
          rw [hz]
          exact (List.pairwise_cons.mp hqLT).1 w hw)
        (by
          intro z hz ht hl hu
          have hzq : z ∈ q0 :: qrest := by
            rw [← hq]
            apply mem_dfsSort.mpr
            rw [List.mem_filter]
            exact ⟨hz, by rw [decide_eq_true_eq]; exact ⟨ht, hl, hu⟩⟩
          rcases List.mem_cons.mp hzq with he | hm
          · exact Or.inl (by rw [he]; simp)
          · exact Or.inr hm)
        hFI1
      rw [hfold, Option.map_some']
      obtain ⟨recF, hrecF⟩ := List.length_eq_one.mp hFIfin.len1
      refine ⟨recF, by rw [hrecF], ?_⟩
      have := hFIfin.clean
      rw [hrecF] at this
      simp only [listClean, Bool.and_eq_true] at this
      exact this.1

theorem mem_rangeList_ge_one {n : Nat} {z : Int} (h : z ∈ rangeList n) : 1 ≤ z := by
  unfold rangeList at h
  simp at h
  obtain ⟨a, ⟨b, hb, rfl⟩, he⟩ := h
  omega

theorem one_mem_rangeList {n : Nat} (h : 1 ≤ n) : (1 : Int) ∈ rangeList n := by
  unfold rangeList
  simp
  exact ⟨0, by omega, rfl⟩

theorem valid_root_cover {s : Db} (hv : validState s = true) :
    ∀ r ∈ s, ∃ a ∈ s, a.lft = 1 ∧ a.tree_id = r.tree_id := by
  obtain ⟨hbasic0, hcont, _, _, _⟩ := validState_parts hv
  intro r hr
  have ht : r.tree_id ∈ treeIdsOf s := by
    unfold treeIdsOf
    rw [List.mem_dedup]
    exact List.mem_map.mpr ⟨r, hr, rfl⟩
  unfold contiguousOk at hcont
  have hc := List.all_eq_true.mp hcont r.tree_id ht
  rw [beq_iff_eq] at hc
  have hrmem : r ∈ s.filter (fun x => x.tree_id == r.tree_id) := by
    rw [List.mem_filter]
    exact ⟨hr, by simp⟩
  have hlen : 1 ≤ (s.filter (fun x => x.tree_id == r.tree_id)).length :=
    List.length_pos.mpr (fun hnil => by rw [hnil] at hrmem; simp at hrmem)
  have h1mem : (1 : Int) ∈ sortInts ((s.filter (fun x => x.tree_id == r.tree_id)).flatMap
      (fun x => [x.lft, x.rgt])) := by
    rw [hc]
    exact one_mem_rangeList (by omega)
  have h1fm : (1 : Int) ∈ (s.filter (fun x => x.tree_id == r.tree_id)).flatMap
      (fun x => [x.lft, x.rgt]) := by
    unfold sortInts at h1mem
    exact (List.mem_insertionSort _).mp h1mem
  obtain ⟨a, ha, hav⟩ := List.mem_flatMap.mp h1fm
  have hafact := List.mem_filter.mp ha
  have hatree : a.tree_id = r.tree_id := by
    have := hafact.2
    rwa [beq_iff_eq] at this
  rcases List.mem_cons.mp hav with he | hv2
  · exact ⟨a, hafact.1, he.symm, hatree⟩
  · rw [List.mem_singleton] at hv2
    exfalso
    have hlft : a.lft ∈ (s.filter (fun x => x.tree_id == r.tree_id)).flatMap
        (fun x => [x.lft, x.rgt]) :=
      List.mem_flatMap.mpr ⟨a, ha, by simp⟩
    have hlft2 : a.lft ∈ sortInts ((s.filter (fun x => x.tree_id == r.tree_id)).flatMap
        (fun x => [x.lft, x.rgt])) := by
      unfold sortInts
      exact (List.mem_insertionSort _).mpr hlft
    rw [hc] at hlft2
    have h1 := mem_rangeList_ge_one hlft2
    have h2 := (hbasic0 a hafact.1).1
    omega

theorem newTree_fresh {s : Db} (hv : validState s = true) :
    ∀ x ∈ s, x.tree_id ≠ newTreeOf s := by
  intro x hx
  have hcover := valid_root_cover hv
  cases hglr : getLastRootNode s with
  | none =>
    exfalso
    unfold getLastRootNode at hglr
    rw [List.getLast?_eq_none_iff] at hglr
    obtain ⟨a, ha, halft, hatree⟩ := hcover x hx
    have : a ∈ getRootNodes s := by
      unfold getRootNodes
      refine mem_dfsSort.mpr (List.mem_filter.mpr ⟨ha, ?_⟩)
      simp [isRoot, halft]
    rw [hglr] at this
    simp at this
  | some lr =>
    have hmax := rootNodes_getLast_max hglr hcover
    have hle := hmax.2 x hx
    unfold newTreeOf
    rw [hglr]
    dsimp only
    omega

/-- C6: the `dump_bulk`/`load_bulk` round trip.  For every valid table and
every root row, `dump_bulk` of that root's subtree succeeds with a single
record tree; loading the dump back with `load_bulk` (no parent, fresh keys)
succeeds; and dumping the loaded copy — the new root, recognizable as the row
created with the next free primary key — yields a record tree structurally
equal to the original dump modulo the `id` fields. -/
theorem c6_dump_load_dump_roundtrip (s : Db) (r : Row)
    (hv : validState s = true) (hr : r ∈ s) (hroot : isRoot r = true) :
    ∃ recF r2 s2 ids F2,
      dump_bulk s (some r) false = some [recF] ∧
      load_bulk s [recF] none false = some (s2, ids) ∧
      r2 ∈ s2 ∧ isRoot r2 = true ∧ r2.id = maxId s + 1 ∧ (r2 ∈ s → False) ∧
      dump_bulk s2 (some r2) false = some F2 ∧
      eraseListIds F2 = eraseListIds [recF] := by
  obtain ⟨recF, hdump, hclean⟩ := dump_of_valid s r hv hr hroot
  have hsep := newTree_fresh hv
  obtain ⟨ids, hload⟩ := load_of_clean s recF hclean hsep
  have hid : ∀ x ∈ s, x.id < maxId s + 1 := by
    intro x hx
    have := mem_id_le_maxId hx
    omega
  have hdump2 := @dump_of_canonical s recF (newTreeOf s) (maxId s + 1) hsep hid hclean
  refine ⟨recF, headRow recF (newTreeOf s) 1 1 (maxId s + 1),
    s ++ encodeRec recF (newTreeOf s) 1 1 (maxId s + 1), ids,
    [eraseRecIds recF], hdump, hload, ?_, ?_, ?_, ?_, hdump2, ?_⟩
  · refine List.mem_append.mpr (Or.inr ?_)
    rw [encodeRec_eq]
    exact List.mem_cons_self _ _
  · unfold isRoot
    rw [headRow_lft]
    rfl
  · exact headRow_id _ _ _ _ _
  · intro hcon
    have := mem_id_le_maxId hcon
    rw [headRow_id] at this
    omega
  · rw [show eraseListIds [eraseRecIds recF] =
        [eraseRecIds (eraseRecIds recF)] from rfl,
      show eraseListIds [recF] = [eraseRecIds recF] from rfl,
      eraseRecIds_idem]

/-- Witness for C6 at the concrete one-row valid table `[demoRow]`. -/
theorem c6_dump_load_dump_roundtrip_witness :
    validState [demoRow] = true ∧ demoRow ∈ [demoRow] ∧ isRoot demoRow = true ∧
    ∃ recF r2 s2 ids F2,
      dump_bulk [demoRow] (some demoRow) false = some [recF] ∧
      load_bulk [demoRow] [recF] none false = some (s2, ids) ∧
      r2 ∈ s2 ∧ isRoot r2 = true ∧ r2.id = maxId [demoRow] + 1 ∧
      (r2 ∈ [demoRow] → False) ∧
      dump_bulk s2 (some r2) false = some F2 ∧
      eraseListIds F2 = eraseListIds [recF] :=
  ⟨by decide, by decide, by decide,
    c6_dump_load_dump_roundtrip [demoRow] demoRow (by decide) (by decide) (by decide)⟩
